import Mathlib

/-!
Origins, the fact stream engine.

A shallow embedding of the iterator algebra (`iter.go`) and of the log
iterator (`view/log.go`), followed by the properties proved about them.

Conventions of the embedding:

* a Go pointer that may be `nil` is an `Option`; a Go `error` is an
  `Option Error` (`none` is `nil`);
* a Go object with mutable state is a state value that every operation takes
  and returns (explicit state passing);
* an unbounded Go `for` loop over an abstract iterator takes a `fuel` bound and
  returns `none` when the bound is reached before the loop exits, so that
  `some r` always means "the Go function returned `r`";
* Go `int` / `uint64` counters are `Int` / `Nat`: no sequence considered here
  is long enough for them to wrap.
-/

namespace Origins

/-! ## Data model -/

/-- Modelled from the spec: the `Ident` type is declared outside the given
sources. An identity is a `(domain, name)` pair of strings; the tests build it
positionally as `&Ident{"people", "bob"}`. -/
structure Ident where
  Domain : String
  Name : String
deriving DecidableEq, Repr

/-- Modelled from the spec: the `Fact` type is declared outside the given
sources. Its fields are the ones of the spec's data model and of the test
fixtures (`Entity`, `Attribute`, `Value`, `Time`, `Transaction`) plus `Added`. -/
structure Fact where
  Entity : Ident
  Attribute : Ident
  Value : Ident
  Time : Int
  Transaction : Nat
  Added : Bool
deriving DecidableEq, Repr

/-- A Go `error` value; only its identity matters here. -/
structure Error where
  msg : String
deriving DecidableEq, Repr

/-- The interface `Iterator` of `iter.go`: `Next` returns the next fact or
`nil` and may change the iterator, `Err` reports the error met while
iterating. The receiver's state is the value of type `σ`. -/
structure Iterator (σ : Type) where
  Next : σ → Option Fact × σ
  Err : σ → Option Error

/-- The interface `Writer` of `iter.go`, together with the outcome of the type
switch `w.(type)` on `Flusher`: `Flush` is `some` exactly when the writer's
dynamic type implements `Flusher`. -/
structure Writer (ω : Type) where
  Write : ω → Fact → Option Error × ω
  Flush : Option (ω → Option Error × ω)

/-- Modelled from the spec: `Buffer` is declared outside the given sources. It
is an append-only fact sequence that is a writer sink: `write` appends and
never fails, `len` returns the count, `facts` drains the current sequence. -/
structure Buffer where
  buf : List Fact
deriving DecidableEq, Repr

/-- Modelled from the spec: `NewBuffer(buf)` is a buffer holding `buf`
(`NewBuffer(nil)` is the empty buffer). -/
def NewBuffer (buf : List Fact) : Buffer := ⟨buf⟩

/-- Modelled from the spec: `Buffer.Write` appends the fact and returns no
error. -/
def Buffer.Write (b : Buffer) (f : Fact) : Option Error × Buffer :=
  (none, ⟨b.buf ++ [f]⟩)

/-- Modelled from the spec: `Buffer.Len` is the number of facts held. -/
def Buffer.Len (b : Buffer) : Nat := b.buf.length

/-- Modelled from the spec: `Buffer.Facts` returns the current sequence and
drains the buffer. -/
def Buffer.Facts (b : Buffer) : List Fact × Buffer := (b.buf, ⟨[]⟩)

/-- Modelled from the spec: a `*Buffer` used as a `Writer`. The spec gives the
buffer no `flush` operation, so it is not a `Flusher`. -/
def Buffer.writer : Writer Buffer where
  Write := Buffer.Write
  Flush := none

/-! ## Iterator behaviours used to state the properties -/

/-- The state of the iterator after `k` calls of `Next`. -/
def Iterator.advance {σ : Type} (it : Iterator σ) : Nat → σ → σ
  | 0, s => s
  | k + 1, s => it.advance k (it.Next s).2

/-- The iterator, started in state `s`, yields the finite sequence `S` and then
end-of-stream: its first `|S|` calls of `Next` return the facts of `S` in order
and the call after them returns `nil`. -/
def Iterator.Produces {σ : Type} (it : Iterator σ) : σ → List Fact → Prop
  | s, [] => (it.Next s).1 = none
  | s, f :: fs => (it.Next s).1 = some f ∧ it.Produces (it.Next s).2 fs

/-- The iterator, started in state `s`, yields the finite sequence `S` and
from then on end-of-stream at every call (`Produces` with sticky
exhaustion). -/
def Iterator.Yields {σ : Type} (it : Iterator σ) : σ → List Fact → Prop
  | s, [] => ∀ k, (it.Next (it.advance k s)).1 = none
  | s, f :: fs => (it.Next s).1 = some f ∧ it.Yields (it.Next s).2 fs

/-- The iterator does not fail: `Err` is `nil` in every state reached from `s`
by calls of `Next`. -/
def Iterator.NonFailing {σ : Type} (it : Iterator σ) (s : σ) : Prop :=
  ∀ k, it.Err (it.advance k s) = none

/-- An in-memory iterator over a fixed list of facts, for examples: `Next` pops
the head of the list, and `Err` reports `e` once the list is exhausted. -/
def listIter (e : Option Error) : Iterator (List Fact) where
  Next := fun l =>
    match l with
    | [] => (none, [])
    | f :: fs => (some f, fs)
  Err := fun l => if l.isEmpty then e else none

/-- A writer for examples that accepts `room` facts and fails with `e`
afterwards; its state is the remaining room and the facts accepted. -/
def boundedWriter (e : Error) : Writer (Nat × List Fact) where
  Write := fun w f =>
    match w.1 with
    | 0 => (some e, w)
    | r + 1 => (none, (r, w.2 ++ [f]))
  Flush := none

/-- A writer for examples like `boundedWriter` that also implements `Flusher`;
its `Flush` succeeds and leaves the state as it is. -/
def boundedFlusher (e : Error) : Writer (Nat × List Fact) where
  Write := (boundedWriter e).Write
  Flush := some fun w => (none, w)

/-! ### Test fixtures of `comparator_test.go` -/

def bobName : Fact :=
  { Time := 1420070400, Entity := ⟨"people", "bob"⟩, Attribute := ⟨"people", "name"⟩,
    Value := ⟨"", "Bob"⟩, Transaction := 1, Added := false }

def bobColor : Fact :=
  { Time := 1420070400, Entity := ⟨"people", "bob"⟩, Attribute := ⟨"people", "color"⟩,
    Value := ⟨"", "red"⟩, Transaction := 1, Added := false }

def sueName : Fact :=
  { Time := 1420156800, Entity := ⟨"people", "sue"⟩, Attribute := ⟨"people", "name"⟩,
    Value := ⟨"", "Sue"⟩, Transaction := 2, Added := false }

def sueColor : Fact :=
  { Time := 1420156800, Entity := ⟨"people", "sue"⟩, Attribute := ⟨"people", "color"⟩,
    Value := ⟨"", "blue"⟩, Transaction := 2, Added := false }

/-! ## `Read` -/

/-- What `Read` returns and leaves behind: the count, the error, the buffer
after the call and the iterator after the call. -/
structure ReadResult (σ : Type) where
  n : Nat
  err : Option Error
  buf : List (Option Fact)
  iter : σ

/-- The loop `for _ = range buf` of `Read`: `k` iterations remain, `i` facts
have been stored. -/
def Read.loop {σ : Type} (it : Iterator σ) :
    Nat → σ → List (Option Fact) → Nat → Nat × List (Option Fact) × σ
  | 0, s, buf, i => (i, buf, s)
  | k + 1, s, buf, i =>
    match it.Next s with
    | (none, s') => (i, buf, s')
    | (some f, s') => Read.loop it k s' (buf.set i (some f)) (i + 1)

/-- `Read(it, buf)`: consumes up to `len(buf)` facts of the iterator and puts
them into the buffer; returns `i, it.Err()`. -/
def Read {σ : Type} (it : Iterator σ) (s : σ) (buf : List (Option Fact)) : ReadResult σ :=
  let r := Read.loop it buf.length s buf 0
  { n := r.1, err := it.Err r.2.2, buf := r.2.1, iter := r.2.2 }

/-! ## `Copy` and `ReadAll` -/

/-- What `Copy` returns and leaves behind: the count `n`, the error, the
writer after the call and the iterator after the call. -/
structure CopyResult (σ ω : Type) where
  n : Nat
  err : Option Error
  writer : ω
  iter : σ

/-- The `for` loop of `Copy`. It exits when `Next` returns `nil`, with `err`
still `nil`, or when `Write` fails, with `err` the write error. The result is
the iterator, the writer, `n` and `err` at the exit. -/
def Copy.loop {σ ω : Type} (it : Iterator σ) (w : Writer ω) :
    Nat → σ → ω → Nat → Option (σ × ω × Nat × Option Error)
  | 0, _, _, _ => none
  | fuel + 1, s, ws, n =>
    match it.Next s with
    | (none, s') => some (s', ws, n, none)
    | (some f, s') =>
      match w.Write ws f with
      | (some e, ws') => some (s', ws', n, some e)
      | (none, ws') => Copy.loop it w fuel s' ws' (n + 1)

/-- `Copy(it, w)`: after the loop, `if err != nil { err = it.Err() }`, then the
writer is flushed when it implements `Flusher` and `err` is overwritten with
the result of `Flush`. -/
def Copy {σ ω : Type} (it : Iterator σ) (w : Writer ω) (fuel : Nat) (s : σ) (ws : ω) :
    Option (CopyResult σ ω) :=
  match Copy.loop it w fuel s ws 0 with
  | none => none
  | some (s', ws', n, err) =>
    let err := if err ≠ none then it.Err s' else err
    match w.Flush with
    | some flush =>
      let r := flush ws'
      some { n := n, err := r.1, writer := r.2, iter := s' }
    | none => some { n := n, err := err, writer := ws', iter := s' }

/-- `ReadAll(it)`: copies the iterator into a fresh buffer; returns `nil, err`
when `Copy` reports an error and `buf.Facts(), nil` otherwise. The first
component is `none` for the `nil` slice. -/
def ReadAll {σ : Type} (it : Iterator σ) (fuel : Nat) (s : σ) :
    Option (Option (List Fact) × Option Error) :=
  match Copy it Buffer.writer fuel s (NewBuffer []) with
  | none => none
  | some r =>
    match r.err with
    | some err => some (none, some err)
    | none => some (some r.writer.Facts.1, none)

/-- A call made on a writer. -/
inductive WriterCall where
  | write (f : Fact)
  | flush
deriving DecidableEq, Repr

/-- The writer `w` with every call made on it recorded, in call order, in the
second component of its state. It is a `Flusher` exactly when `w` is. -/
def Writer.recording {ω : Type} (w : Writer ω) : Writer (ω × List WriterCall) where
  Write := fun st f => ((w.Write st.1 f).1, ((w.Write st.1 f).2, st.2 ++ [WriterCall.write f]))
  Flush := w.Flush.map fun flush st => ((flush st.1).1, ((flush st.1).2, st.2 ++ [WriterCall.flush]))

/-! ## `Slice` -/

/-- The struct `sliceIter`; `iter` is the state of the upstream iterator. -/
structure sliceIter (σ : Type) where
  iter : σ
  offset : Int
  limit : Int
  count : Int
  index : Int

/-- The `for` loop of `sliceIter.Next`: pull from upstream, return `nil` when
upstream does, return the fact when `index >= offset`, skip it otherwise. -/
def sliceIter.Next.loop {σ : Type} (it : Iterator σ) :
    Nat → sliceIter σ → Option (Option Fact × sliceIter σ)
  | 0, _ => none
  | fuel + 1, s =>
    match it.Next s.iter with
    | (none, u) => some (none, { s with iter := u })
    | (some fact, u) =>
      if s.index ≥ s.offset then
        some (some fact, { s with iter := u, index := s.index + 1, count := s.count + 1 })
      else
        sliceIter.Next.loop it fuel { s with iter := u, index := s.index + 1 }

/-- `sliceIter.Next`: `nil` once the limit has been reached
(`limit > 0 && count >= limit`), the result of the loop otherwise. -/
def sliceIter.Next {σ : Type} (it : Iterator σ) (fuel : Nat) (s : sliceIter σ) :
    Option (Option Fact × sliceIter σ) :=
  if s.limit > 0 ∧ s.count ≥ s.limit then some (none, s)
  else sliceIter.Next.loop it fuel s

/-- `sliceIter.Err` is the upstream `Err`. -/
def sliceIter.Err {σ : Type} (it : Iterator σ) (s : sliceIter σ) : Option Error :=
  it.Err s.iter

/-- `Slice(iter, offset, limit)`: `count` and `index` start at zero. -/
def Slice {σ : Type} (iter : σ) (offset limit : Int) : sliceIter σ :=
  { iter := iter, offset := offset, limit := limit, count := 0, index := 0 }

/-- Draining an iterator as the documentation of `Iterator` prescribes
(`for f := it.Next(); f != nil`): the items returned by successive calls of
`next` up to the first `nil`, and the state after that call. The result is
`none` when `next` does not return or more than `fuel` calls are needed. The
items are facts for an `Iterator` and groups for a `FactsIterator`. -/
def drain {τ α : Type} (next : τ → Option (Option α × τ)) : Nat → τ → Option (List α × τ)
  | 0, _ => none
  | fuel + 1, t =>
    match next t with
    | none => none
    | some (none, t') => some ([], t')
    | some (some f, t') => (drain next fuel t').map fun r => (f :: r.1, r.2)

/-! ## `uniqueIdents`, `Entities`, `Attributes`, `Values`, `Transactions` -/

/-- The `for` loop of `uniqueIdents`. The Go map `seen`, used as a set of
`[2]string` keys, is the list of the keys inserted; `idents` is the slice
appended to. The result is the iterator and `idents` at the exit. -/
def uniqueIdents.loop {σ : Type} (it : Iterator σ) (identer : Fact → Ident) :
    Nat → σ → List (String × String) → List Ident → Option (σ × List Ident)
  | 0, _, _, _ => none
  | fuel + 1, s, seen, idents =>
    match it.Next s with
    | (none, s') => some (s', idents)
    | (some fact, s') =>
      let ident := identer fact
      let key := (ident.Domain, ident.Name)
      if key ∈ seen then uniqueIdents.loop it identer fuel s' seen idents
      else uniqueIdents.loop it identer fuel s' (key :: seen) (idents ++ [ident])

/-- `uniqueIdents(iter, identer)`: returns `nil, err` when the iterator's
`Err()` is set after the loop and `idents, nil` otherwise (the `nil` slice is
the empty list). -/
def uniqueIdents {σ : Type} (it : Iterator σ) (identer : Fact → Ident) (fuel : Nat) (s : σ) :
    Option (List Ident × Option Error) :=
  match uniqueIdents.loop it identer fuel s [] [] with
  | none => none
  | some (s', idents) =>
    match it.Err s' with
    | some err => some ([], some err)
    | none => some (idents, none)

/-- `Entities(iter)`: the unique entity identities. -/
def Entities {σ : Type} (it : Iterator σ) (fuel : Nat) (s : σ) :
    Option (List Ident × Option Error) :=
  uniqueIdents it (fun fact => fact.Entity) fuel s

/-- `Attributes(iter)`: the unique attribute identities. -/
def Attributes {σ : Type} (it : Iterator σ) (fuel : Nat) (s : σ) :
    Option (List Ident × Option Error) :=
  uniqueIdents it (fun fact => fact.Attribute) fuel s

/-- `Values(iter)`: the unique value identities. -/
def Values {σ : Type} (it : Iterator σ) (fuel : Nat) (s : σ) :
    Option (List Ident × Option Error) :=
  uniqueIdents it (fun fact => fact.Value) fuel s

/-- The `for` loop of `Transactions`; `seen` is the set of transaction ids
inserted in the Go map, `txes` the slice appended to. -/
def Transactions.loop {σ : Type} (it : Iterator σ) :
    Nat → σ → List Nat → List Nat → Option (σ × List Nat)
  | 0, _, _, _ => none
  | fuel + 1, s, seen, txes =>
    match it.Next s with
    | (none, s') => some (s', txes)
    | (some fact, s') =>
      let tx := fact.Transaction
      if tx ∈ seen then Transactions.loop it fuel s' seen txes
      else Transactions.loop it fuel s' (tx :: seen) (txes ++ [tx])

/-- `Transactions(iter)`: returns `nil, err` when the iterator's `Err()` is set
after the loop and `txes, nil` otherwise. -/
def Transactions {σ : Type} (it : Iterator σ) (fuel : Nat) (s : σ) :
    Option (List Nat × Option Error) :=
  match Transactions.loop it fuel s [] [] with
  | none => none
  | some (s', txes) =>
    match it.Err s' with
    | some err => some ([], some err)
    | none => some (txes, none)

/-- The list `out` holds the elements of `L`, each exactly once, ordered by the
position of their first occurrence in `L`. -/
def FirstSeen {α : Type} [DecidableEq α] (L out : List α) : Prop :=
  out.Nodup ∧ (∀ x, x ∈ out ↔ x ∈ L) ∧
    out.Pairwise fun x y => L.indexOf x < L.indexOf y

/-- The body shared by the loops of `uniqueIdents` and `Transactions`, run
over a list: an element whose key is not in `seen` is appended to `out` and its
key recorded. Used to reason about both loops at once. -/
def collectUnseen {α κ : Type} [DecidableEq κ] (key : α → κ) :
    List κ → List α → List α → List α
  | _, out, [] => out
  | seen, out, x :: xs =>
    if key x ∈ seen then collectUnseen key seen out xs
    else collectUnseen key (key x :: seen) (out ++ [x]) xs

/-! ## `Groupby` -/

/-- The struct `grouper`; `iter` is the state of the source iterator. -/
structure grouper (σ : Type) where
  iter : σ
  last : Option Fact
  buffer : Buffer
  cmp : Fact → Fact → Bool

/-- The `for` loop of `grouper.Next`. On `nil` from the source `last` is unset
and the loop exits. Otherwise the fact is written to the buffer when there is
no `last` or when `cmp(last, f)` holds, `last` becomes the fact, and the loop
exits when the comparison failed. The result is the source iterator, `last`
and the buffer at the exit. -/
def grouper.Next.loop {σ : Type} (it : Iterator σ) (cmp : Fact → Fact → Bool) :
    Nat → σ → Option Fact → Buffer → Option (σ × Option Fact × Buffer)
  | 0, _, _, _ => none
  | fuel + 1, s, last, buffer =>
    match it.Next s with
    | (none, s') => some (s', none, buffer)
    | (some f, s') =>
      match last with
      | none => grouper.Next.loop it cmp fuel s' (some f) (buffer.Write f).2
      | some l =>
        if cmp l f then grouper.Next.loop it cmp fuel s' (some f) (buffer.Write f).2
        else some (s', some f, buffer)

/-- `grouper.Next`: `nil` when the source has an error; otherwise the boundary
fact `last` is written to the buffer, the loop runs, and the result is `nil`
when the source has an error after the loop, the drained buffer when it is
non-empty, and `nil` otherwise. -/
def grouper.Next {σ : Type} (it : Iterator σ) (fuel : Nat) (g : grouper σ) :
    Option (Option (List Fact) × grouper σ) :=
  if (it.Err g.iter).isSome then some (none, g)
  else
    let buffer :=
      match g.last with
      | some l => (g.buffer.Write l).2
      | none => g.buffer
    match grouper.Next.loop it g.cmp fuel g.iter g.last buffer with
    | none => none
    | some (s', last, buffer) =>
      if (it.Err s').isSome then
        some (none, { g with iter := s', last := last, buffer := buffer })
      else if buffer.Len > 0 then
        some (some buffer.Facts.1, { g with iter := s', last := last, buffer := buffer.Facts.2 })
      else some (none, { g with iter := s', last := last, buffer := buffer })

/-- `grouper.Err` is the source's `Err`. -/
def grouper.Err {σ : Type} (it : Iterator σ) (g : grouper σ) : Option Error :=
  it.Err g.iter

/-- `Groupby(iter, cmp)`: no `last`, a fresh buffer. -/
def Groupby {σ : Type} (iter : σ) (cmp : Fact → Fact → Bool) : grouper σ :=
  { iter := iter, last := none, buffer := NewBuffer [], cmp := cmp }

/-- An in-memory iterator for examples that fails at the end of its list: its
state is the remaining facts and whether end-of-stream has been returned;
`Err` reports `e` once it has. -/
def failingIter (e : Error) : Iterator (List Fact × Bool) where
  Next := fun st =>
    match st.1 with
    | [] => (none, ([], true))
    | f :: fs => (some f, (fs, st.2))
  Err := fun st => if st.2 then some e else none

/-! ## `Map` -/

/-- What `Map` returns and leaves behind: the error, the iterator after the call
and the state of the closure `proc` after the call. -/
structure MapResult (σ π : Type) where
  err : Option Error
  iter : σ
  proc : π

/-- The `for` loop of `Map`. The Go closure `proc` is a function on its state
`π`. The first component of the result is `some err` when the loop was left by
`return err` and `none` when it was left by `break`. -/
def Map.loop {σ π : Type} (it : Iterator σ) (proc : π → Fact → Option Error × π) :
    Nat → σ → π → Option (Option Error × σ × π)
  | 0, _, _ => none
  | fuel + 1, s, p =>
    match it.Next s with
    | (none, s') => some (none, s', p)
    | (some fact, s') =>
      match proc p fact with
      | (some err, p') => some (some err, s', p')
      | (none, p') => Map.loop it proc fuel s' p'

/-- `Map(iter, proc)`: the error of `proc` when the loop returned one, and
`iter.Err()` after the loop otherwise. -/
def Map {σ π : Type} (it : Iterator σ) (proc : π → Fact → Option Error × π) (fuel : Nat)
    (s : σ) (p : π) : Option (MapResult σ π) :=
  match Map.loop it proc fuel s p with
  | none => none
  | some (some err, s', p') => some { err := some err, iter := s', proc := p' }
  | some (none, s', p') => some { err := it.Err s', iter := s', proc := p' }

/-- The closure `proc` with every fact it is applied to recorded, in call
order, in the second component of its state. -/
def recordCalls {π : Type} (proc : π → Fact → Option Error × π) :
    π × List Fact → Fact → Option Error × (π × List Fact) :=
  fun st fact => ((proc st.1 fact).1, ((proc st.1 fact).2, st.2 ++ [fact]))

/-- The state of the closure `proc` after it has been applied, from state `p`,
to the facts of `l` in order. -/
def procState {π : Type} (proc : π → Fact → Option Error × π) (p : π) (l : List Fact) : π :=
  l.foldl (fun q fact => (proc q fact).2) p

/-- Applied to the facts of `S` in order from state `p`, `proc` returns the
error `e` at index `i`. -/
def FailsAt {π : Type} (proc : π → Fact → Option Error × π) (p : π) (S : List Fact) (i : Nat)
    (e : Error) : Prop :=
  ∃ fact, S[i]? = some fact ∧ (proc (procState proc p (S.take i)) fact).1 = some e

/-- Applied to the facts of `S` in order from state `p`, `proc` returns no
error at index `j`. -/
def PassesAt {π : Type} (proc : π → Fact → Option Error × π) (p : π) (S : List Fact)
    (j : Nat) : Prop :=
  ∀ fact, S[j]? = some fact → (proc (procState proc p (S.take j)) fact).1 = none

/-- A closure for examples: it counts the facts it accepts and fails with `e`
on a fact of transaction `tx`. -/
def rejectTransaction (tx : Nat) (e : Error) : Nat → Fact → Option Error × Nat :=
  fun n fact => if fact.Transaction = tx then (some e, n) else (none, n + 1)

/-! ## `Filter`, `Entity`, `First`, `Exists` -/

/-- The struct `filterer`; `iter` is the state of the upstream iterator. -/
structure filterer (σ : Type) where
  iter : σ
  predicate : Fact → Bool

/-- `filterer.Next`: pulls from upstream until a fact matches the predicate
and returns it; returns `nil` when upstream does. -/
def filterer.Next {σ : Type} (it : Iterator σ) :
    Nat → filterer σ → Option (Option Fact × filterer σ)
  | 0, _ => none
  | fuel + 1, f =>
    match it.Next f.iter with
    | (none, u) => some (none, { f with iter := u })
    | (some fact, u) =>
      if f.predicate fact then some (some fact, { f with iter := u })
      else filterer.Next it fuel { f with iter := u }

/-- `filterer.Err` is the upstream `Err`. -/
def filterer.Err {σ : Type} (it : Iterator σ) (f : filterer σ) : Option Error :=
  it.Err f.iter

/-- `Filter(iter, predicate)`. -/
def Filter {σ : Type} (iter : σ) (predicate : Fact → Bool) : filterer σ :=
  { iter := iter, predicate := predicate }

/-- Modelled from the spec: the method `Ident.Is` is declared outside the given
sources. Equality of identities is componentwise. -/
def Ident.Is (a b : Ident) : Bool :=
  a.Domain == b.Domain && a.Name == b.Name

/-- `Entity(iter, id)`: the filterer whose predicate is `f.Entity.Is(id)`. -/
def Entity {σ : Type} (iter : σ) (id : Ident) : filterer σ :=
  { iter := iter, predicate := fun f => f.Entity.Is id }

/-- `First(iter, predicate)`: one call of `Next` on `Filter(iter, predicate)`.
The result is the fact (or `nil`) and the iterator after the call. -/
def First {σ : Type} (it : Iterator σ) (predicate : Fact → Bool) (fuel : Nat) (s : σ) :
    Option (Option Fact × σ) :=
  (filterer.Next it fuel (Filter s predicate)).map fun r => (r.1, r.2.iter)

/-- `Exists(iter, predicate)`: `First(iter, predicate) != nil`. -/
def Exists {σ : Type} (it : Iterator σ) (predicate : Fact → Bool) (fuel : Nat) (s : σ) :
    Option (Bool × σ) :=
  (First it predicate fuel s).map fun r => (r.1.isSome, r.2)

/-! ## Comparators and `Timsort` -/

/-- Modelled from the spec: the type `Comparator` is declared outside the given
sources. A comparator is a pure function on two facts returning `<`, `=` or
`>`: a negative, zero or positive integer. -/
abbrev Comparator := Fact → Fact → Int

/-- The three-way lexicographic comparison of two sequences of characters, a
character being compared by its code point. -/
def compareChars : List Char → List Char → Int
  | [], [] => 0
  | [], _ :: _ => -1
  | _ :: _, [] => 1
  | a :: as, b :: bs =>
    if a.toNat < b.toNat then -1
    else if b.toNat < a.toNat then 1
    else compareChars as bs

/-- The three-way comparison of two strings as in Go: lexicographic on the
bytes of their UTF-8 encoding, which is the lexicographic order on their code
points. -/
def stringCompare (a b : String) : Int :=
  compareChars a.data b.data

/-- Modelled from the spec: the comparison of identities is declared outside
the given sources. Identity comparison is lexicographic on `(domain, name)`. -/
def identCompare (a b : Ident) : Int :=
  if stringCompare a.Domain b.Domain ≠ 0 then stringCompare a.Domain b.Domain
  else stringCompare a.Name b.Name

/-- Modelled from the spec: `EntityComparator` is declared outside the given
sources. It orders facts by their `entity` identity. -/
def EntityComparator : Comparator := fun f1 f2 => identCompare f1.Entity f2.Entity

/-- Modelled from the spec: `AttributeComparator` is declared outside the given
sources. It orders facts by their `attribute` identity. -/
def AttributeComparator : Comparator := fun f1 f2 => identCompare f1.Attribute f2.Attribute

/-- The three-way comparison of two integers. -/
def intCompare (a b : Int) : Int :=
  if a < b then -1 else if b < a then 1 else 0

/-- Modelled from the spec: `ValueComparator` is declared outside the given
sources. It orders facts by their `value` identity; value comparison is
identity comparison. -/
def ValueComparator : Comparator := fun f1 f2 => identCompare f1.Value f2.Value

/-- Modelled from the spec: `TimeComparator` is declared outside the given
sources. It orders facts by `time`, then by `transaction` as tie-breaker. -/
def TimeComparator : Comparator := fun f1 f2 =>
  if intCompare f1.Time f2.Time ≠ 0 then intCompare f1.Time f2.Time
  else intCompare f1.Transaction f2.Transaction

/-- Modelled from the spec: the composition of comparators is declared outside
the given sources. A composed comparator is a left-to-right chain over a list
of comparators, returning the first non-equal result. -/
def chainComparators : List Comparator → Comparator
  | [] => fun _ _ => 0
  | c :: cs => fun f1 f2 => if c f1 f2 ≠ 0 then c f1 f2 else chainComparators cs f1 f2

/-- Modelled from the spec: `EAVTComparator` is declared outside the given
sources. It is the chain entity, attribute, value, time. -/
def EAVTComparator : Comparator :=
  chainComparators [EntityComparator, AttributeComparator, ValueComparator, TimeComparator]

/-- Modelled from the spec: `AVETComparator` is declared outside the given
sources. It is the chain attribute, value, entity, time. -/
def AVETComparator : Comparator :=
  chainComparators [AttributeComparator, ValueComparator, EntityComparator, TimeComparator]

/-- Modelled from the spec: `AEVTComparator` is declared outside the given
sources. It is the chain attribute, entity, value, time. -/
def AEVTComparator : Comparator :=
  chainComparators [AttributeComparator, EntityComparator, ValueComparator, TimeComparator]

/-- Modelled from the spec: `VAETComparator` is declared outside the given
sources. It is the chain value, attribute, entity, time. -/
def VAETComparator : Comparator :=
  chainComparators [ValueComparator, AttributeComparator, EntityComparator, TimeComparator]

/-- The first non-equal result among the results `rs` of a sequence of
comparisons, and equal (zero) when all of them are equal. -/
def firstNonEqual (rs : List Int) : Int :=
  (rs.find? fun r => decide (r ≠ 0)).getD 0

/-- The comparator `C` is a total order on the compared fields: it returns
equal exactly on facts that agree on entity, attribute, value, time and
transaction, swapping its arguments negates its result, and it is
transitive. -/
def Comparator.IsTotalOrderOnKey (C : Comparator) : Prop :=
  (∀ a b, C a b = 0 ↔
    (a.Entity = b.Entity ∧ a.Attribute = b.Attribute ∧ a.Value = b.Value ∧
      a.Time = b.Time ∧ a.Transaction = b.Transaction)) ∧
  (∀ a b, C b a = -C a b) ∧
  (∀ a b d, C a b ≤ 0 → C b d ≤ 0 → C a d ≤ 0) ∧
  ∀ a b d, C a b < 0 → C b d < 0 → C a d < 0

/-- The retraction of `bobName`: the same fact with `added` true. -/
def bobNameAdded : Fact := { bobName with Added := true }

/-- Modelled from the spec: `Timsort` is declared outside the given sources,
which only hold the test that calls it. The spec asks for a
comparator-parameterised stable sort over fact sequences, the reference being a
Timsort-style adaptive merge sort, any stable sort being acceptable. The model
is the stable merge sort of the core library, a fact `a` being ordered before
or with `b` when `C(a, b) <= 0`; the result is the sequence the Go function
leaves in the slice it sorts in place. -/
def Timsort (S : List Fact) (C : Comparator) : List Fact :=
  S.mergeSort fun a b => decide (C a b ≤ 0)

/-- The laws of a three-way comparison `c`: swapping the arguments negates
the result, and the order `c a b <= 0` is transitive. -/
def LawfulCompare {α : Type} (c : α → α → Int) : Prop :=
  (∀ a b, c b a = -c a b) ∧ ∀ a b d, c a b ≤ 0 → c b d ≤ 0 → c a d ≤ 0

/-- The comparator is a total preorder: any two facts are comparable, the
order is transitive, and comparing equal is symmetric. -/
def Comparator.IsTotalPreorder (C : Comparator) : Prop :=
  (∀ a b, C a b ≤ 0 ∨ C b a ≤ 0) ∧ (∀ a b c, C a b ≤ 0 → C b c ≤ 0 → C a c ≤ 0) ∧
    ∀ a b, C a b = 0 → C b a = 0

/-! ## The log iterator (`view/log.go`) -/

namespace View

/-- An encoded record, `[]byte`. -/
abbrev Bytes := List Nat

/-- The outcome of a Go call that may panic at run time (nil dereference,
index out of range): it returns a value or it panics. -/
inductive Outcome (α : Type) where
  | returns (a : α)
  | panics (msg : String)
deriving DecidableEq, Repr

/-- The struct `segment`; a zero `time.Time` is `0`. -/
structure segment where
  ID : Nat
  Domain : String
  Time : Int
  Blocks : Int
  Count : Int
  Bytes : Int
  Base : Nat
  Next : Nat
deriving DecidableEq, Repr

/-- The struct `Log`. -/
structure Log where
  Name : String
  Domain : String
  head : Nat
deriving DecidableEq, Repr

/-- Modelled from the spec: the interface `storage.Engine` is declared outside
the given sources. The reader uses only `get(partition, key) -> bytes|absent,
error`; the value is the store as it stands when the call is made. -/
structure Engine where
  Get : String → String → Except Error (Option Bytes)

/-- The decoders `unmarshalSegment`, `unmarshalFacts` and `unmarshalLog`, which
`log.go` calls and which are defined outside the given sources, taken as
parameters. `unmarshalSegment(b, &seg)` and `unmarshalLog(b, &l)` receive the
pre-filled record and return it updated; `unmarshalFacts(b, d, s)` returns the
facts of a block, `none` being the `nil` slice. -/
structure Codec where
  unmarshalSegment : Bytes → segment → Except Error segment
  unmarshalFacts : Bytes → String → Nat → Except Error (Option (List Fact))
  unmarshalLog : Bytes → Log → Except Error Log

/-- `loadSegment(e, d, s)`: the header under key `segment.<s>` of partition
`d`; `nil, nil` when the key is absent. -/
def loadSegment (e : Engine) (c : Codec) (d : String) (s : Nat) :
    Except Error (Option segment) :=
  let seg : segment :=
    { ID := s, Domain := d, Time := 0, Blocks := 0, Count := 0, Bytes := 0, Base := 0, Next := 0 }
  let key := "segment." ++ toString s
  match e.Get d key with
  | .error err => .error err
  | .ok none => .ok none
  | .ok (some b) =>
    match c.unmarshalSegment b seg with
    | .error err => .error err
    | .ok seg => .ok (some seg)

/-- `loadBlock(e, d, s, i)`: the facts under key `segment.<s>.<i>` of
partition `d`; `nil, nil` when the key is absent. -/
def loadBlock (e : Engine) (c : Codec) (d : String) (s : Nat) (i : Int) :
    Except Error (Option (List Fact)) :=
  let key := "segment." ++ toString s ++ "." ++ toString i
  match e.Get d key with
  | .error err => .error err
  | .ok none => .ok none
  | .ok (some b) => c.unmarshalFacts b d s

/-- The struct `logIter`, without its `engine` field: the store is passed to
every call, as it stands at the time of the call. A `nil` segment or block is
`none`; the facts of a block are non-nil pointers. -/
structure logIter where
  name : String
  domain : String
  head : Nat
  segment : Option segment
  block : Option (List Fact)
  bindex : Int
  bpos : Nat
  done : Bool
deriving DecidableEq, Repr

/-- `logIter.nextSegment`: loads the segment `head` (no current segment) or
`segment.Next`; on a load error the state is left as it is; otherwise the state
is updated and `done` is set when the segment does not exist. -/
def logIter.nextSegment (e : Engine) (c : Codec) (li : logIter) : Option Error × logIter :=
  let id :=
    match li.segment with
    | none => li.head
    | some seg => seg.Next
  match loadSegment e c li.domain id with
  | .error err => (some err, li)
  | .ok segment =>
    let li := { li with segment := segment, bindex := 0, block := none, bpos := 0 }
    match segment with
    | none => (none, { li with done := true })
    | some _ => (none, li)

/-- `logIter.nextBlock`: makes the block holding the next fact current, or sets
`done`. The dereference `li.segment.Domain` panics on a `nil` segment. -/
def logIter.nextBlock (e : Engine) (c : Codec) (li : logIter) :
    Outcome (Option Error × logIter) :=
  if li.done then .returns (none, li)
  else if li.block.any (fun block => li.bpos < block.length) then .returns (none, li)
  else
    let r :=
      if li.segment.all (fun seg => li.bindex = seg.Blocks) then logIter.nextSegment e c li
      else (none, li)
    match r with
    | (some err, li) => .returns (some err, li)
    | (none, li) =>
      if li.done then .returns (none, li)
      else
        match li.segment with
        | none => .panics "nil pointer dereference"
        | some seg =>
          match loadBlock e c seg.Domain seg.ID li.bindex with
          | .error err => .returns (some err, li)
          | .ok none => .returns (none, { li with done := true })
          | .ok (some block) =>
            .returns (none, { li with block := some block, bpos := 0, bindex := li.bindex + 1 })

/-- `logIter.Next`: returns `nil, err` on an error of `nextBlock`, `nil, nil`
when `done`, and otherwise `li.block[li.bpos]`, which panics when the index is
out of range. -/
def logIter.Next (e : Engine) (c : Codec) (li : logIter) :
    Outcome ((Option Fact × Option Error) × logIter) :=
  match logIter.nextBlock e c li with
  | .panics msg => .panics msg
  | .returns (some err, li) => .returns ((none, some err), li)
  | .returns (none, li) =>
    if li.done then .returns ((none, none), li)
    else
      match (li.block.getD [])[li.bpos]? with
      | none => .panics "index out of range"
      | some fact => .returns ((some fact, none), { li with bpos := li.bpos + 1 })

/-- `Log.Iter`: a fresh iterator on the log's domain and head. -/
def Log.Iter (l : Log) : logIter :=
  { name := "", domain := l.Domain, head := l.head, segment := none, block := none,
    bindex := 0, bpos := 0, done := false }

/-- `OpenLog(e, d, n)`: `nil, nil` when the key `n` is absent from partition
`d`, the decoded log otherwise. -/
def OpenLog (e : Engine) (c : Codec) (d n : String) : Except Error (Option Log) :=
  match e.Get d n with
  | .error err => .error err
  | .ok none => .ok none
  | .ok (some b) =>
    match c.unmarshalLog b { Name := n, Domain := d, head := 0 } with
    | .error err => .error err
    | .ok l => .ok (some l)

/-- Successive calls of `logIter.Next` until one returns no fact: the facts
returned, and how the last call ended (its error and the iterator after it, or
a panic). The result is `none` when more than `fuel` calls are needed. -/
def logIter.drain (e : Engine) (c : Codec) :
    Nat → logIter → Option (List Fact × Outcome (Option Error × logIter))
  | 0, _ => none
  | fuel + 1, li =>
    match logIter.Next e c li with
    | .panics msg => some ([], .panics msg)
    | .returns ((none, err), li') => some ([], .returns (err, li'))
    | .returns ((some fact, _), li') =>
      (logIter.drain e c fuel li').map fun r => (fact :: r.1, r.2)

/-- The blocks `bs` are stored, in order, from block index `i` on under the
segment `seg`, and each of them is non-empty. -/
def BlocksPresent (e : Engine) (c : Codec) (seg : segment) : Nat → List (List Fact) → Prop
  | _, [] => True
  | i, b :: bs =>
    loadBlock e c seg.Domain seg.ID i = .ok (some b) ∧ b ≠ [] ∧ BlocksPresent e c seg (i + 1) bs

/-- The segment chain of domain `d` starting at id `id` is finite: it consists
of the segments of `chain` in order, each with `blocks >= 1` and all of its
blocks `0 .. blocks-1` present and non-empty (given with the segment), and it
ends at a segment whose next id has no segment header in the store. -/
def Chain (e : Engine) (c : Codec) (d : String) : Nat → List (segment × List (List Fact)) → Prop
  | id, [] => loadSegment e c d id = .ok none
  | id, (seg, blocks) :: rest =>
    loadSegment e c d id = .ok (some seg) ∧ seg.Blocks = blocks.length ∧ 1 ≤ blocks.length ∧
      BlocksPresent e c seg 0 blocks ∧ Chain e c d seg.Next rest

/-- A decoder for examples: a segment header is `[blocks, next]`, a block is a
list of indices into the test fixtures, a log record is `[head]`. -/
def exampleCodec : Codec where
  unmarshalSegment := fun b seg =>
    match b with
    | [blocks, next] => .ok { seg with Blocks := blocks, Next := next }
    | _ => .error ⟨"malformed segment"⟩
  unmarshalFacts := fun b _ _ =>
    .ok (some (b.map fun n => [bobName, bobColor, sueName, sueColor].getD n bobName))
  unmarshalLog := fun b l =>
    match b with
    | [head] => .ok { l with head := head }
    | _ => .error ⟨"malformed log"⟩

/-- The store of the spec's log-iterator scenario: in domain `people`, segment
3 has `blocks = 2, next = 0`, and blocks `[bobName, bobColor]` and
`[sueName, sueColor]`; the log `commits` has head 3. -/
def exampleEngine : Engine where
  Get := fun p k =>
    if p = "people" then
      if k = "commits" then .ok (some [3])
      else if k = "segment.3" then .ok (some [2, 0])
      else if k = "segment.3.0" then .ok (some [0, 1])
      else if k = "segment.3.1" then .ok (some [2, 3])
      else .ok none
    else .ok none

/-- The header of segment 3 of `exampleEngine`, as `loadSegment` decodes it. -/
def exampleSegment : segment :=
  { ID := 3, Domain := "people", Time := 0, Blocks := 2, Count := 0, Bytes := 0, Base := 0,
    Next := 0 }

/-- The segments of `segs`, each with `blocks >= 1` and all of its blocks
`0 .. blocks-1` present and non-empty (given with the segment), follow one
another on the next chain of domain `d` from the id `id` on, and the next id of
the last of them is `id'` (`id' = id` when there is none). -/
def Segments (e : Engine) (c : Codec) (d : String) :
    Nat → List (segment × List (List Fact)) → Nat → Prop
  | id, [], id' => id = id'
  | id, (seg, blocks) :: rest, id' =>
    loadSegment e c d id = .ok (some seg) ∧ seg.Blocks = blocks.length ∧ 1 ≤ blocks.length ∧
      BlocksPresent e c seg 0 blocks ∧ Segments e c d seg.Next rest id'

/-- The segments satisfying `G` are closed under `next` in domain `d`: each has
`blocks >= 1` with all of its blocks `0 .. blocks-1` present and non-empty, and
its next id holds the header of a segment satisfying `G`. -/
def ClosedUnderNext (e : Engine) (c : Codec) (d : String) (G : segment → Prop) : Prop :=
  ∀ seg, G seg → 1 ≤ seg.Blocks ∧
    (∀ i : Nat, (i : Int) < seg.Blocks →
      ∃ f fs, loadBlock e c seg.Domain seg.ID i = .ok (some (f :: fs))) ∧
    ∃ seg', loadSegment e c d seg.Next = .ok (some seg') ∧ G seg'

/-- The iterator is walking the segments satisfying `G`: it is not done, and
either it has no segment yet and its head is the id of a segment satisfying
`G`, or its segment satisfies `G` and its block index is within the segment. -/
def Walking (e : Engine) (c : Codec) (d : String) (G : segment → Prop) (li : logIter) : Prop :=
  li.done = false ∧ li.domain = d ∧
    match li.segment with
    | none => li.block = none ∧ ∃ seg', loadSegment e c d li.head = .ok (some seg') ∧ G seg'
    | some seg => G seg ∧ 0 ≤ li.bindex ∧ li.bindex ≤ seg.Blocks

/-- The store `exampleEngine` with block 1 of segment 3 absent. -/
def missingBlockEngine : Engine where
  Get := fun p k =>
    if p = "people" then
      if k = "commits" then .ok (some [3])
      else if k = "segment.3" then .ok (some [2, 0])
      else if k = "segment.3.0" then .ok (some [0, 1])
      else .ok none
    else .ok none

/-- A store whose segment chain is a cycle: in domain `people`, segment 3 has
`blocks = 1, next = 3` and the block `[bobName]`; the log `commits` has head
3. -/
def cycleEngine : Engine where
  Get := fun p k =>
    if p = "people" then
      if k = "commits" then .ok (some [3])
      else if k = "segment.3" then .ok (some [1, 3])
      else if k = "segment.3.0" then .ok (some [0])
      else .ok none
    else .ok none

/-- The header of segment 3 of `cycleEngine`, as `loadSegment` decodes it. -/
def cycleSegment : segment :=
  { ID := 3, Domain := "people", Time := 0, Blocks := 1, Count := 0, Bytes := 0, Base := 0,
    Next := 3 }

/-- A store that holds a record under the key `segment.0`: in domain
`people`, segment 3 has `blocks = 1, next = 0` and the block `[bobName]`, and
segment 0 has `blocks = 1, next = 9` and the block `[sueName]`. -/
def zeroSegmentEngine : Engine where
  Get := fun p k =>
    if p = "people" then
      if k = "segment.3" then .ok (some [1, 0])
      else if k = "segment.3.0" then .ok (some [0])
      else if k = "segment.0" then .ok (some [1, 9])
      else if k = "segment.0.0" then .ok (some [2])
      else .ok none
    else .ok none

/-- A store with an empty segment: in domain `people`, segment 3 has
`blocks = 0, next = 2` and no block, and segment 2 has `blocks = 1, next = 0`
and the block `[bobName]`. -/
def emptySegmentEngine : Engine where
  Get := fun p k =>
    if p = "people" then
      if k = "segment.3" then .ok (some [0, 2])
      else if k = "segment.2" then .ok (some [1, 0])
      else if k = "segment.2.0" then .ok (some [0])
      else .ok none
    else .ok none

/-- A store with a block beyond the block count: in domain `people`, segment 3
has `blocks = 0, next = 0`, and the key `segment.3.0` holds the block
`[sueName]`. -/
def strayBlockEngine : Engine where
  Get := fun p k =>
    if p = "people" then
      if k = "segment.3" then .ok (some [0, 0])
      else if k = "segment.3.0" then .ok (some [2])
      else .ok none
    else .ok none

/-- A store with an empty block: in domain `people`, segment 3 has
`blocks = 1, next = 0`, and the key `segment.3.0` holds a record that decodes
to the empty, non-nil fact sequence. -/
def emptyBlockEngine : Engine where
  Get := fun p k =>
    if p = "people" then
      if k = "segment.3" then .ok (some [1, 0])
      else if k = "segment.3.0" then .ok (some [])
      else .ok none
    else .ok none

/-- A store that holds no record at all. -/
def emptyEngine : Engine where
  Get := fun _ _ => .ok none

end View

/-! ## The in-memory engine (`engine/memory/engine.go`) -/

namespace Memory

/-- The struct `Engine`, without its mutex: `parts` is the Go map of maps. A
key is absent from a map when the map gives `none`; a stored `[]byte` value is
`none` when it is the `nil` slice. -/
structure Engine where
  parts : String → Option (String → Option (Option View.Bytes))

/-- `Init(opts)`: a new engine with no parts. -/
def Init : Engine := { parts := fun _ => none }

/-- `Tx.Get(p, k)`: `b[k], nil` when the part exists, `nil, nil` otherwise. It
does not change the engine. -/
def Tx.Get (e : Engine) (p k : String) : Option View.Bytes × Option Error :=
  match e.parts p with
  | some b =>
    match b k with
    | some v => (v, none)
    | none => (none, none)
  | none => (none, none)

/-- `Tx.Set(p, k, v)`: creates the part when it is missing, then `b[k] = v`. -/
def Tx.Set (e : Engine) (p k : String) (v : Option View.Bytes) : Option Error × Engine :=
  let b : String → Option (Option View.Bytes) :=
    match e.parts p with
    | some b => b
    | none => fun _ => none
  (none, { parts := fun x => if x = p then some (fun y => if y = k then some v else b y)
                              else e.parts x })

/-- `Tx.Incr(p, k)`: creates the part when it is missing, decodes the stored
counter when the key is present (`id` is `0` otherwise), increments it as a
`uint64`, stores its encoding and returns it. The functions
`engine.EncodeCounter` and `engine.DecodeCounter`, defined outside the given
sources, are the parameters `enc` and `dec`. -/
def Tx.Incr (enc : Nat → View.Bytes) (dec : Option View.Bytes → Nat) (e : Engine)
    (p k : String) : (Nat × Option Error) × Engine :=
  let b : String → Option (Option View.Bytes) :=
    match e.parts p with
    | some b => b
    | none => fun _ => none
  let id :=
    match b k with
    | some v => dec v
    | none => 0
  let id := (id + 1) % 2 ^ 64
  ((id, none),
    { parts := fun x => if x = p then some (fun y => if y = k then some (some (enc id)) else b y)
                        else e.parts x })

/-- `Engine.Get(p, k)`: `Tx.Get` under the lock. -/
def Engine.Get (e : Engine) (p k : String) : Option View.Bytes × Option Error :=
  Tx.Get e p k

/-- `Engine.Set(p, k, v)`: `Tx.Set` under the lock. -/
def Engine.Set (e : Engine) (p k : String) (v : Option View.Bytes) : Option Error × Engine :=
  Tx.Set e p k v

/-- `Engine.Incr(p, k)`: `Tx.Incr` under the lock. -/
def Engine.Incr (enc : Nat → View.Bytes) (dec : Option View.Bytes → Nat) (e : Engine)
    (p k : String) : (Nat × Option Error) × Engine :=
  Tx.Incr enc dec e p k

/-- `Engine.Multi(f)`: runs `f` on a transaction handle under the lock; `f` is a
function on the engine state. -/
def Engine.Multi (e : Engine) (f : Engine → Option Error × Engine) : Option Error × Engine :=
  f e

/-- An operation on the engine. -/
inductive Op where
  | get (p k : String)
  | set (p k : String) (v : Option View.Bytes)
  | incr (p k : String)
deriving DecidableEq, Repr

/-- The engine after the operation `op`. -/
def Engine.step (enc : Nat → View.Bytes) (dec : Option View.Bytes → Nat) (e : Engine) :
    Op → Engine
  | .get _ _ => e
  | .set p k v => (Engine.Set e p k v).2
  | .incr p k => (Engine.Incr enc dec e p k).2

/-- The engine after the operations `ops`, in order. -/
def Engine.run (enc : Nat → View.Bytes) (dec : Option View.Bytes → Nat) (e : Engine)
    (ops : List Op) : Engine :=
  ops.foldl (Engine.step enc dec) e

/-- The engine holds no value under `(p, k)`: the key is absent from the
part, or the part is. -/
def Engine.Absent (e : Engine) (p k : String) : Prop :=
  ∀ b, e.parts p = some b → b k = none

/-- The value `Tx.Incr(p, k)` starts from: the decoded stored counter, or `0`
when the key is absent. -/
def Engine.counter (dec : Option View.Bytes → Nat) (e : Engine) (p k : String) : Nat :=
  match e.parts p with
  | some b =>
    match b k with
    | some v => dec v
    | none => 0
  | none => 0

/-- A counter codec for examples: the counter is stored as a single number. -/
def exampleEnc : Nat → View.Bytes := fun x => [x]

/-- The decoder of `exampleEnc`. -/
def exampleDec : Option View.Bytes → Nat := fun v =>
  match v with
  | some [x] => x
  | _ => 0

/-- A function passed to `Engine.Multi` that calls `tx.Set` for each
`(partition, key, value)` of `sets`, in order, and returns the first error. -/
def Tx.setAll (e : Engine) :
    List (String × String × Option View.Bytes) → Option Error × Engine
  | [] => (none, e)
  | (p, k, v) :: rest =>
    match Tx.Set e p k v with
    | (some err, e') => (some err, e')
    | (none, e') => Tx.setAll e' rest

/-- A call on the engine: `Engine.Get`, `Engine.Set`, or `Engine.Multi` with a
function that performs `Set` calls on the handle. -/
inductive Call where
  | get (p k : String)
  | set (p k : String) (v : Option View.Bytes)
  | multi (sets : List (String × String × Option View.Bytes))
deriving DecidableEq, Repr

/-- The error returned by a call and the engine after it. -/
def Call.apply (e : Engine) : Call → Option Error × Engine
  | .get p k => ((Engine.Get e p k).2, e)
  | .set p k v => Engine.Set e p k v
  | .multi sets => Engine.Multi e (fun tx => Tx.setAll tx sets)

/-- The `Set` operations a call performs, in order. -/
def Call.sets : Call → List (String × String × Option View.Bytes)
  | .get _ _ => []
  | .set p k v => [(p, k, v)]
  | .multi sets => sets

/-- The engine after the calls, in order. -/
def Engine.applyAll (e : Engine) (calls : List Call) : Engine :=
  calls.foldl (fun e c => (c.apply e).2) e

/-- The value of the last `Set` to exactly `(p, k)` in a sequence of `Set`
operations, `none` when there is none. -/
def lastSet (p k : String) :
    List (String × String × Option View.Bytes) → Option (Option View.Bytes)
  | [] => none
  | (p', k', v) :: rest =>
    match lastSet p k rest with
    | some w => some w
    | none => if p' = p ∧ k' = k then some v else none

end Memory

/-! # Properties -/

/-! ## Iterator behaviours -/

theorem Iterator.advance_succ {σ : Type} (it : Iterator σ) (k : Nat) (s : σ) :
    it.advance (k + 1) s = it.advance k (it.Next s).2 := rfl

theorem Iterator.nonFailing_next {σ : Type} {it : Iterator σ} {s : σ} (h : it.NonFailing s) :
    it.NonFailing (it.Next s).2 := fun k => h (k + 1)

theorem listIter_produces (e : Option Error) (S : List Fact) : (listIter e).Produces S S := by
  induction S with
  | nil => simp [Iterator.Produces, listIter]
  | cons f fs ih => exact ⟨rfl, ih⟩

theorem listIter_advance_nil (e : Option Error) (k : Nat) : (listIter e).advance k [] = [] := by
  induction k with
  | zero => rfl
  | succ k ih => simpa [Iterator.advance, listIter] using ih

theorem listIter_nonFailing (S : List Fact) : (listIter none).NonFailing S := by
  intro k
  simp only [listIter]
  split <;> rfl

/-! ## `Read` -/

theorem Read_loop_spec {σ : Type} (it : Iterator σ) (rest : List (Option Fact)) :
    ∀ (pre : List (Option Fact)) (s : σ) (S : List Fact), it.Produces s S →
    (Read.loop it rest.length s (pre ++ rest) pre.length).1 = pre.length + min rest.length S.length ∧
    (Read.loop it rest.length s (pre ++ rest) pre.length).2.1 =
      pre ++ (S.take rest.length).map some ++ rest.drop S.length ∧
    ∃ m, (Read.loop it rest.length s (pre ++ rest) pre.length).2.2 = it.advance m s := by
  induction rest with
  | nil =>
    intro pre s S _
    exact ⟨by simp [Read.loop], by simp [Read.loop], 0, rfl⟩
  | cons x rest ih =>
    intro pre s S hS
    cases S with
    | nil =>
      have h1 : (it.Next s).1 = none := hS
      have h2 : it.Next s = (none, (it.Next s).2) := Prod.ext h1 rfl
      rw [List.length_cons, Read.loop, h2]
      exact ⟨by simp, by simp, 1, rfl⟩
    | cons f fs =>
      have h1 : (it.Next s).1 = some f := hS.1
      have h2 : it.Next s = (some f, (it.Next s).2) := Prod.ext h1 rfl
      have h3 : (pre ++ x :: rest).set pre.length (some f) = (pre ++ [some f]) ++ rest := by
        simp
      have h4 : pre.length + 1 = (pre ++ [some f]).length := by simp
      rw [List.length_cons, Read.loop, h2]
      simp only []
      rw [h3, h4]
      obtain ⟨e1, e2, m, e3⟩ := ih (pre ++ [some f]) (it.Next s).2 fs hS.2
      refine ⟨?_, ?_, m + 1, ?_⟩
      · rw [e1]; simp only [List.length_append, List.length_cons, List.length_nil]; omega
      · rw [e2]; simp
      · rw [e3, Iterator.advance_succ]

/-- C10. `Read` on a non-failing iterator with remaining sequence `S` and a
buffer of length `n` returns the count `min n |S|` and no error, stores `S[i]`
in `buf[i]` for every `i` below the count and leaves the rest of the buffer
as it was: the buffer after the call is the first `count` facts of `S` followed
by the old entries from index `count` on. Exhaustion shows only as a count
below `n`. -/
theorem Read_short_fill {σ : Type} (it : Iterator σ) (s : σ) (S : List Fact)
    (buf : List (Option Fact)) (hS : it.Produces s S) (hE : it.NonFailing s) :
    (Read it s buf).n = min buf.length S.length ∧
    (Read it s buf).err = none ∧
    (Read it s buf).buf =
      (S.take (Read it s buf).n).map some ++ buf.drop (Read it s buf).n := by
  obtain ⟨e1, e2, m, e3⟩ := Read_loop_spec it buf [] s S hS
  simp only [List.nil_append, List.length_nil, Nat.zero_add] at e1 e2 e3
  have hn : (Read it s buf).n = min buf.length S.length := e1
  refine ⟨hn, ?_, ?_⟩
  · show it.Err (Read.loop it buf.length s buf 0).2.2 = none
    rw [e3]; exact hE m
  · rw [hn]
    show (Read.loop it buf.length s buf 0).2.1 = _
    rw [e2]
    rcases Nat.le_total buf.length S.length with h | h
    · rw [Nat.min_eq_left h, List.drop_eq_nil_of_le h, List.drop_eq_nil_of_le (Nat.le_refl _)]
    · rw [Nat.min_eq_right h, List.take_of_length_le h, List.take_of_length_le (Nat.le_refl _)]

/-- Witness of C10: a buffer of three empty slots filled from a two-fact
iterator receives the two facts, keeps its third slot and reports count 2. -/
theorem Read_short_fill_witness :
    (Read (listIter none) [bobName, bobColor] [none, none, some sueName]).n
        = min [none, none, some sueName].length [bobName, bobColor].length ∧
    (Read (listIter none) [bobName, bobColor] [none, none, some sueName]).err = none ∧
    (Read (listIter none) [bobName, bobColor] [none, none, some sueName]).buf =
      ([bobName, bobColor].take
          (Read (listIter none) [bobName, bobColor] [none, none, some sueName]).n).map some ++
        [none, none, some sueName].drop
          (Read (listIter none) [bobName, bobColor] [none, none, some sueName]).n :=
  Read_short_fill (listIter none) [bobName, bobColor] [bobName, bobColor]
    [none, none, some sueName] (listIter_produces none _) (listIter_nonFailing _)

/-! ## `Copy` and `ReadAll` -/

theorem Copy_loop_buffer {σ : Type} (it : Iterator σ) (S : List Fact) :
    ∀ (s : σ) (B : Buffer) (n fuel : Nat), it.Produces s S → S.length < fuel →
    Copy.loop it Buffer.writer fuel s B n =
      some (it.advance (S.length + 1) s, ⟨B.buf ++ S⟩, n + S.length, none) := by
  induction S with
  | nil =>
    intro s B n fuel hS hf
    obtain ⟨fuel, rfl⟩ := Nat.exists_eq_add_one_of_ne_zero (Nat.not_eq_zero_of_lt hf)
    have h1 : (it.Next s).1 = none := hS
    have h2 : it.Next s = (none, (it.Next s).2) := Prod.ext h1 rfl
    rw [Copy.loop, h2]
    simp [Iterator.advance]
  | cons f fs ih =>
    intro s B n fuel hS hf
    obtain ⟨fuel, rfl⟩ := Nat.exists_eq_add_one_of_ne_zero (Nat.not_eq_zero_of_lt hf)
    have h1 : (it.Next s).1 = some f := hS.1
    have h2 : it.Next s = (some f, (it.Next s).2) := Prod.ext h1 rfl
    rw [Copy.loop, h2]
    simp only [Buffer.writer, Buffer.Write]
    have h3 := ih (it.Next s).2 ⟨B.buf ++ [f]⟩ (n + 1) fuel hS.2
      (by simp only [List.length_cons] at hf; omega)
    simp only [Buffer.writer, Buffer.Write] at h3
    have h4 : it.advance ((f :: fs).length + 1) s = it.advance (fs.length + 1) (it.Next s).2 :=
      rfl
    rw [h3, h4]
    simp only [List.length_cons, List.append_assoc, List.singleton_append, Nat.add_assoc,
      Nat.add_comm 1]

/-- C6. `Copy` from an iterator yielding the finite sequence `S` into a buffer
with prior contents `B` returns (given fuel for its `|S| + 1` calls of `Next`),
leaves the buffer holding exactly `B` followed by `S` in order, and returns the
count `|S|`. The conclusion holds whatever `Err` reports, so in particular for
every non-failing iterator. -/
theorem Copy_conservation {σ : Type} (it : Iterator σ) (s : σ) (S : List Fact) (B : Buffer)
    (fuel : Nat) (hS : it.Produces s S) (hfuel : S.length < fuel) :
    ∃ r, Copy it Buffer.writer fuel s B = some r ∧
      r.writer = ⟨B.buf ++ S⟩ ∧ r.n = S.length := by
  have h := Copy_loop_buffer it S s B 0 fuel hS hfuel
  unfold Copy
  rw [h]
  exact ⟨_, rfl, rfl, by simp⟩

/-- Witness of C6: copying the two facts of sue into a buffer that holds the
two facts of bob. -/
theorem Copy_conservation_witness :
    ∃ r, Copy (listIter none) Buffer.writer 3 [sueName, sueColor]
        (NewBuffer [bobName, bobColor]) = some r ∧
      r.writer = ⟨(NewBuffer [bobName, bobColor]).buf ++ [sueName, sueColor]⟩ ∧
      r.n = [sueName, sueColor].length :=
  Copy_conservation (listIter none) [sueName, sueColor] [sueName, sueColor]
    (NewBuffer [bobName, bobColor]) 3 (listIter_produces none _) (by decide)

/-- C7 (evaluation at the failing inputs). A read failure is lost: the iterator
yields `bobName` and then fails, its `Err()` after `Copy` is that error, and
`Copy` into a buffer returns the count 1 and no error. A write failure is lost
as well: the writer refuses the first fact, the iterator does not fail, and
`Copy` returns the count 0 and no error. -/
theorem Copy_drops_errors :
    (Copy (listIter (some ⟨"read failed"⟩)) Buffer.writer 2 [bobName] (NewBuffer [])).map
        (fun r => (r.n, r.err, (listIter (some ⟨"read failed"⟩)).Err r.iter))
      = some (1, none, some ⟨"read failed"⟩) ∧
    (Copy (listIter none) (boundedWriter ⟨"write failed"⟩) 2 [bobName] (0, [])).map
        (fun r => (r.n, r.err)) = some (0, none) := by
  constructor <;> decide

/-- C8 (evaluation at the failing input). The iterator yields `bobName` and
then fails; `ReadAll` returns the fact read and no error. -/
theorem ReadAll_failing_iterator :
    (listIter (some ⟨"read failed"⟩)).Err [] = some ⟨"read failed"⟩ ∧
    ReadAll (listIter (some ⟨"read failed"⟩)) 2 [bobName] = some (some [bobName], none) := by
  constructor <;> decide

theorem Copy_loop_recording {σ ω : Type} (it : Iterator σ) (w : Writer ω) (S : List Fact) :
    ∀ (s : σ) (ws : ω) (log : List WriterCall) (n fuel : Nat), it.Produces s S →
    S.length < fuel →
    ∃ r k, Copy.loop it w.recording fuel s (ws, log) n = some r ∧ k ≤ S.length ∧
      r.2.1.2 = log ++ (S.take k).map WriterCall.write := by
  induction S with
  | nil =>
    intro s ws log n fuel hS hf
    obtain ⟨fuel, rfl⟩ := Nat.exists_eq_add_one_of_ne_zero (Nat.not_eq_zero_of_lt hf)
    have h1 : (it.Next s).1 = none := hS
    have h2 : it.Next s = (none, (it.Next s).2) := Prod.ext h1 rfl
    rw [Copy.loop, h2]
    exact ⟨_, 0, rfl, Nat.le_refl _, by simp⟩
  | cons f fs ih =>
    intro s ws log n fuel hS hf
    obtain ⟨fuel, rfl⟩ := Nat.exists_eq_add_one_of_ne_zero (Nat.not_eq_zero_of_lt hf)
    have h1 : (it.Next s).1 = some f := hS.1
    have h2 : it.Next s = (some f, (it.Next s).2) := Prod.ext h1 rfl
    rw [Copy.loop, h2]
    simp only [Writer.recording]
    cases hw : (w.Write ws f).1 with
    | some e =>
      exact ⟨_, 1, rfl, by simp, by simp⟩
    | none =>
      obtain ⟨r, k, e1, e2, e3⟩ := ih (it.Next s).2 (w.Write ws f).2
        (log ++ [WriterCall.write f]) (n + 1) fuel hS.2
        (by simp only [List.length_cons] at hf; omega)
      simp only [Writer.recording] at e1
      refine ⟨r, k + 1, e1, by simpa using e2, ?_⟩
      rw [e3]; simp

/-- C9. `Copy` from an iterator that yields a finite sequence and then
end-of-stream, whatever its `Err` reports and whether or not some `Write`
fails, returns (given enough fuel), and the calls it has made on the writer are
`Write` calls on the first `k` facts followed, when the writer implements
`Flusher`, by exactly one `Flush` call, and by nothing when it does not. -/
theorem Copy_flush_once {σ ω : Type} (it : Iterator σ) (w : Writer ω) (s : σ) (ws : ω)
    (S : List Fact) (fuel : Nat) (hS : it.Produces s S) (hfuel : S.length < fuel) :
    ∃ r k, Copy it w.recording fuel s (ws, []) = some r ∧ k ≤ S.length ∧
      r.writer.2 = (S.take k).map WriterCall.write ++
        (if w.Flush.isSome then [WriterCall.flush] else []) := by
  obtain ⟨r, k, e1, e2, e3⟩ := Copy_loop_recording it w S s ws [] 0 fuel hS hfuel
  have hrf : w.recording.Flush = w.Flush.map fun flush st =>
      ((flush st.1).1, ((flush st.1).2, st.2 ++ [WriterCall.flush])) := rfl
  unfold Copy
  rw [e1, hrf]
  cases w.Flush with
  | none => exact ⟨_, k, rfl, e2, by simpa using e3⟩
  | some flush => exact ⟨_, k, rfl, e2, by simp [e3]⟩

/-- Witness of C9: a flushing writer with room for one fact is given two; the
second `Write` fails, and the calls recorded are the two writes and one
flush. -/
theorem Copy_flush_once_witness :
    ∃ r k, Copy (listIter none) (boundedFlusher ⟨"full"⟩).recording 3 [bobName, bobColor]
        ((1, []), []) = some r ∧ k ≤ [bobName, bobColor].length ∧
      r.writer.2 = ([bobName, bobColor].take k).map WriterCall.write ++
        (if (boundedFlusher ⟨"full"⟩).Flush.isSome then [WriterCall.flush] else []) :=
  Copy_flush_once (listIter none) (boundedFlusher ⟨"full"⟩) [bobName, bobColor] (1, [])
    [bobName, bobColor] 3 (listIter_produces none _) (by decide)

/-! ## `Slice` -/

theorem sliceIter_loop_spec {σ : Type} (it : Iterator σ) (o : Nat) (R : List Fact) :
    ∀ (st : sliceIter σ) (F i : Nat), it.Produces st.iter R → R.length < F →
    st.index = i → st.offset = o →
    ∃ st', sliceIter.Next.loop it F st = some ((R.drop (o - i)).head?, st') ∧
      st'.offset = st.offset ∧ st'.limit = st.limit ∧
      (R.drop (o - i) ≠ [] → it.Produces st'.iter (R.drop (o - i)).tail ∧
        st'.index = (max i o + 1 : Nat) ∧ st'.count = st.count + 1) := by
  induction R with
  | nil =>
    intro st F i hS hf hi ho
    obtain ⟨F, rfl⟩ := Nat.exists_eq_add_one_of_ne_zero (Nat.not_eq_zero_of_lt hf)
    have h1 : (it.Next st.iter).1 = none := hS
    have h2 : it.Next st.iter = (none, (it.Next st.iter).2) := Prod.ext h1 rfl
    rw [sliceIter.Next.loop, h2]
    exact ⟨{ st with iter := (it.Next st.iter).2 }, by simp, rfl, rfl, by simp⟩
  | cons f fs ih =>
    intro st F i hS hf hi ho
    obtain ⟨F, rfl⟩ := Nat.exists_eq_add_one_of_ne_zero (Nat.not_eq_zero_of_lt hf)
    have h1 : (it.Next st.iter).1 = some f := hS.1
    have h2 : it.Next st.iter = (some f, (it.Next st.iter).2) := Prod.ext h1 rfl
    rw [sliceIter.Next.loop, h2]
    simp only []
    by_cases hio : st.index ≥ st.offset
    · have hle : o ≤ i := by rw [hi, ho] at hio; exact_mod_cast hio
      rw [if_pos hio, Nat.sub_eq_zero_of_le hle]
      refine ⟨_, rfl, rfl, rfl, fun _ => ⟨hS.2, ?_, rfl⟩⟩
      simp only [hi, Nat.max_eq_left hle]
      push_cast; rfl
    · have hlt : i < o := by
        rw [hi, ho] at hio
        have : ¬ ((o : Int) ≤ i) := hio
        omega
      rw [if_neg hio]
      obtain ⟨st', e1, e2, e3, e4⟩ := ih { st with iter := (it.Next st.iter).2, index := st.index + 1 }
        F (i + 1) hS.2 (by simp only [List.length_cons] at hf; omega)
        (by simp only [hi]; push_cast; rfl) ho
      have h5 : (f :: fs).drop (o - i) = fs.drop (o - (i + 1)) := by
        obtain ⟨d, hd⟩ : ∃ d, o - i = d + 1 := ⟨o - i - 1, by omega⟩
        rw [hd, List.drop_succ_cons]
        congr 1; omega
      have h6 : max (i + 1) o = max i o := by omega
      rw [h5]
      refine ⟨st', e1, e2, e3, fun hne => ?_⟩
      rw [← h6]
      exact e4 hne

theorem drain_sliceIter {σ : Type} (it : Iterator σ) (o l F' : Nat) :
    ∀ (F : Nat) (R : List Fact) (st : sliceIter σ) (i c : Nat), it.Produces st.iter R →
    R.length < F → R.length < F' → st.index = i → st.offset = o → st.count = c → st.limit = l →
    (drain (sliceIter.Next it F') F st).map Prod.fst =
      some (if l = 0 then R.drop (o - i) else (R.drop (o - i)).take (l - c)) := by
  intro F
  induction F with
  | zero => intro R st i c _ hf; exact absurd hf (Nat.not_lt_zero _)
  | succ F ih =>
    intro R st i c hS hf hf' hi ho hc hl
    rw [drain, sliceIter.Next]
    by_cases hlim : st.limit > 0 ∧ st.count ≥ st.limit
    · rw [if_pos hlim]
      rw [hl, hc] at hlim
      have h1 : 0 < l := by exact_mod_cast hlim.1
      have h2 : l ≤ c := by exact_mod_cast hlim.2
      simp [Nat.sub_eq_zero_of_le h2, Nat.pos_iff_ne_zero.mp h1]
    · rw [if_neg hlim]
      obtain ⟨st', e1, e2, e3, e4⟩ := sliceIter_loop_spec it o R st F' i hS hf' hi ho
      rw [e1]
      cases hR : R.drop (o - i) with
      | nil => simp
      | cons f fs =>
        obtain ⟨p1, p2, p3⟩ := e4 (by rw [hR]; simp)
        rw [hR, List.tail_cons] at p1
        have hlen : fs.length < R.length := by
          have := congrArg List.length hR
          simp only [List.length_drop, List.length_cons] at this
          omega
        have h7 := ih fs st' (max i o + 1) (c + 1) p1 (by omega) (by omega) p2 (by rw [e2, ho])
          (by rw [p3, hc]; push_cast; rfl) (by rw [e3, hl])
        have h8 : o - (max i o + 1) = 0 := by omega
        rw [h8, List.drop_zero] at h7
        simp only [List.head?_cons, Option.map_map]
        have h9 : ∀ x : Option (List Fact × sliceIter σ),
            Option.map (Prod.fst ∘ fun r => (f :: r.1, r.2)) x =
              (Option.map Prod.fst x).map (List.cons f) := by
          intro x; cases x <;> rfl
        rw [h9, h7]
        by_cases hl0 : l = 0
        · simp [hl0]
        · have hcl : c < l := by
            rw [hl, hc] at hlim
            by_contra hcon
            exact hlim ⟨by exact_mod_cast Nat.pos_of_ne_zero hl0, by exact_mod_cast Nat.le_of_not_lt hcon⟩
          obtain ⟨d, hd⟩ : ∃ d, l - c = d + 1 := ⟨l - c - 1, by omega⟩
          have hd' : l - (c + 1) = d := by omega
          simp [hl0, hd, hd']

/-- C2. Draining `Slice(it, o, l)` over an upstream iterator that yields the
finite sequence `S` and then end-of-stream, with `o >= 0` and `l >= 0`, yields
(given fuel for `|S| + 1` upstream calls) exactly the facts `S[o], ...,
S[min(o+l, |S|) - 1]` in upstream order when `l > 0`, and `S[o], ..., S[|S|-1]`
when `l = 0`; nothing when `o >= |S|`. -/
theorem Slice_range {σ : Type} (it : Iterator σ) (s : σ) (S : List Fact) (o l : Int)
    (fuel : Nat) (hS : it.Produces s S) (ho : 0 ≤ o) (hl : 0 ≤ l) (hfuel : S.length < fuel) :
    (drain (sliceIter.Next it fuel) fuel (Slice s o l)).map Prod.fst =
      some (if l = 0 then S.drop o.toNat else (S.drop o.toNat).take l.toNat) := by
  obtain ⟨o, rfl⟩ := Int.eq_ofNat_of_zero_le ho
  obtain ⟨l, rfl⟩ := Int.eq_ofNat_of_zero_le hl
  have h := drain_sliceIter it o l fuel fuel S (Slice s o l) 0 0 hS hfuel hfuel rfl rfl rfl rfl
  rw [h]
  simp

/-- Witness of C2: offset 1 and limit 2 over the four fixture facts. -/
theorem Slice_range_witness :
    (drain (sliceIter.Next (listIter none) 5) 5
        (Slice [bobName, bobColor, sueName, sueColor] 1 2)).map Prod.fst =
      some (if (2 : Int) = 0 then [bobName, bobColor, sueName, sueColor].drop (1 : Int).toNat
        else ([bobName, bobColor, sueName, sueColor].drop (1 : Int).toNat).take (2 : Int).toNat) :=
  Slice_range (listIter none) [bobName, bobColor, sueName, sueColor]
    [bobName, bobColor, sueName, sueColor] 1 2 5 (listIter_produces none _)
    (by decide) (by decide) (by decide)

/-! ## Identity and transaction projections -/

theorem FirstSeen_snoc_of_mem {α : Type} [DecidableEq α] {L out : List α} {x : α}
    (h : FirstSeen L out) (hx : x ∈ out) : FirstSeen (L ++ [x]) out := by
  obtain ⟨h1, h2, h3⟩ := h
  refine ⟨h1, fun y => ?_, ?_⟩
  · rw [List.mem_append, List.mem_singleton, h2]
    constructor
    · exact Or.inl
    · rintro (hy | rfl)
      · exact hy
      · exact (h2 _).1 hx
  · refine List.Pairwise.imp_of_mem ?_ h3
    intro a b ha hb hab
    rw [List.indexOf_append_of_mem ((h2 a).1 ha), List.indexOf_append_of_mem ((h2 b).1 hb)]
    exact hab

theorem FirstSeen_snoc_of_not_mem {α : Type} [DecidableEq α] {L out : List α} {x : α}
    (h : FirstSeen L out) (hx : x ∉ out) : FirstSeen (L ++ [x]) (out ++ [x]) := by
  obtain ⟨h1, h2, h3⟩ := h
  have hxL : x ∉ L := fun hL => hx ((h2 x).2 hL)
  refine ⟨?_, fun y => ?_, ?_⟩
  · rw [List.nodup_append]
    refine ⟨h1, List.nodup_singleton x, ?_⟩
    intro a ha hb
    rw [List.mem_singleton] at hb
    exact hx (hb ▸ ha)
  · simp only [List.mem_append, List.mem_singleton, h2]
  · rw [List.pairwise_append]
    refine ⟨?_, List.pairwise_singleton _ _, ?_⟩
    · refine List.Pairwise.imp_of_mem ?_ h3
      intro a b ha hb hab
      rw [List.indexOf_append_of_mem ((h2 a).1 ha), List.indexOf_append_of_mem ((h2 b).1 hb)]
      exact hab
    · intro a ha b hb
      rw [List.mem_singleton] at hb
      subst hb
      rw [List.indexOf_append_of_mem ((h2 a).1 ha), List.indexOf_append_of_not_mem hxL,
        List.indexOf_cons_self]
      exact Nat.lt_of_lt_of_le (List.indexOf_lt_length.2 ((h2 a).1 ha)) (Nat.le_add_right _ _)

theorem collectUnseen_firstSeen {α κ : Type} [DecidableEq α] [DecidableEq κ] (key : α → κ)
    (hkey : Function.Injective key) (xs : List α) :
    ∀ (seen : List κ) (out pre : List α), (∀ k, k ∈ seen ↔ k ∈ out.map key) →
    FirstSeen pre out → FirstSeen (pre ++ xs) (collectUnseen key seen out xs) := by
  induction xs with
  | nil => intro seen out pre _ h; simpa [collectUnseen] using h
  | cons x xs ih =>
    intro seen out pre hseen h
    have happ : pre ++ x :: xs = (pre ++ [x]) ++ xs := by simp
    rw [collectUnseen, happ]
    by_cases hk : key x ∈ seen
    · rw [if_pos hk]
      have hx : x ∈ out := by
        obtain ⟨y, hy, hyk⟩ := List.mem_map.1 ((hseen _).1 hk)
        exact hkey hyk ▸ hy
      exact ih seen out (pre ++ [x]) hseen (FirstSeen_snoc_of_mem h hx)
    · rw [if_neg hk]
      have hx : x ∉ out := fun hx => hk ((hseen _).2 (List.mem_map_of_mem key hx))
      refine ih (key x :: seen) (out ++ [x]) (pre ++ [x]) ?_ (FirstSeen_snoc_of_not_mem h hx)
      intro k
      simp only [List.mem_cons, hseen, List.map_append, List.map_cons, List.map_nil,
        List.mem_append, List.mem_singleton, List.not_mem_nil, or_false]
      exact or_comm

theorem uniqueIdents_loop_eq {σ : Type} (it : Iterator σ) (identer : Fact → Ident)
    (S : List Fact) :
    ∀ (s : σ) (seen : List (String × String)) (idents : List Ident) (fuel : Nat),
    it.Produces s S → S.length < fuel →
    uniqueIdents.loop it identer fuel s seen idents =
      some (it.advance (S.length + 1) s,
        collectUnseen (fun i : Ident => (i.Domain, i.Name)) seen idents (S.map identer)) := by
  induction S with
  | nil =>
    intro s seen idents fuel hS hf
    obtain ⟨fuel, rfl⟩ := Nat.exists_eq_add_one_of_ne_zero (Nat.not_eq_zero_of_lt hf)
    have h1 : (it.Next s).1 = none := hS
    have h2 : it.Next s = (none, (it.Next s).2) := Prod.ext h1 rfl
    rw [uniqueIdents.loop, h2]
    rfl
  | cons f fs ih =>
    intro s seen idents fuel hS hf
    obtain ⟨fuel, rfl⟩ := Nat.exists_eq_add_one_of_ne_zero (Nat.not_eq_zero_of_lt hf)
    have h1 : (it.Next s).1 = some f := hS.1
    have h2 : it.Next s = (some f, (it.Next s).2) := Prod.ext h1 rfl
    have hf' : fs.length < fuel := by simp only [List.length_cons] at hf; omega
    have h4 : it.advance ((f :: fs).length + 1) s = it.advance (fs.length + 1) (it.Next s).2 :=
      rfl
    rw [uniqueIdents.loop, h2, h4, List.map_cons, collectUnseen]
    simp only []
    split
    · exact ih _ _ _ _ hS.2 hf'
    · exact ih _ _ _ _ hS.2 hf'

theorem Transactions_loop_eq {σ : Type} (it : Iterator σ) (S : List Fact) :
    ∀ (s : σ) (seen txes : List Nat) (fuel : Nat), it.Produces s S → S.length < fuel →
    Transactions.loop it fuel s seen txes =
      some (it.advance (S.length + 1) s,
        collectUnseen (fun t : Nat => t) seen txes (S.map fun f => f.Transaction)) := by
  induction S with
  | nil =>
    intro s seen txes fuel hS hf
    obtain ⟨fuel, rfl⟩ := Nat.exists_eq_add_one_of_ne_zero (Nat.not_eq_zero_of_lt hf)
    have h1 : (it.Next s).1 = none := hS
    have h2 : it.Next s = (none, (it.Next s).2) := Prod.ext h1 rfl
    rw [Transactions.loop, h2]
    rfl
  | cons f fs ih =>
    intro s seen txes fuel hS hf
    obtain ⟨fuel, rfl⟩ := Nat.exists_eq_add_one_of_ne_zero (Nat.not_eq_zero_of_lt hf)
    have h1 : (it.Next s).1 = some f := hS.1
    have h2 : it.Next s = (some f, (it.Next s).2) := Prod.ext h1 rfl
    have hf' : fs.length < fuel := by simp only [List.length_cons] at hf; omega
    have h4 : it.advance ((f :: fs).length + 1) s = it.advance (fs.length + 1) (it.Next s).2 :=
      rfl
    rw [Transactions.loop, h2, h4, List.map_cons, collectUnseen]
    simp only []
    split
    · exact ih _ _ _ _ hS.2 hf'
    · exact ih _ _ _ _ hS.2 hf'

theorem uniqueIdents_firstSeen {σ : Type} (it : Iterator σ) (identer : Fact → Ident) (s : σ)
    (S : List Fact) (fuel : Nat) (hS : it.Produces s S) (hE : it.NonFailing s)
    (hfuel : S.length < fuel) :
    ∃ ids, uniqueIdents it identer fuel s = some (ids, none) ∧
      FirstSeen (S.map identer) ids := by
  have hkey : Function.Injective fun i : Ident => (i.Domain, i.Name) := by
    intro a b hab
    cases a; cases b
    simp only [Prod.mk.injEq] at hab
    rw [hab.1, hab.2]
  have h := uniqueIdents_loop_eq it identer S s [] [] fuel hS hfuel
  have hfs := collectUnseen_firstSeen _ hkey (S.map identer) [] [] [] (by simp)
    ⟨List.nodup_nil, by simp, List.Pairwise.nil⟩
  unfold uniqueIdents
  rw [h]
  simp only [hE (S.length + 1)]
  exact ⟨_, rfl, by simpa using hfs⟩

/-- C5. For a non-failing iterator yielding the finite sequence `S`,
`Entities`, `Attributes` and `Values` return (given enough fuel), with no
error, the entity, attribute and value identities of `S`, every `(domain,
name)` pair exactly once, ordered by the position of its first occurrence in
`S`; `Transactions` returns the transaction ids of `S`, each exactly once, in
first-occurrence order. -/
theorem projections_first_seen {σ : Type} (it : Iterator σ) (s : σ) (S : List Fact)
    (fuel : Nat) (hS : it.Produces s S) (hE : it.NonFailing s) (hfuel : S.length < fuel) :
    (∃ ids, Entities it fuel s = some (ids, none) ∧
      FirstSeen (S.map fun f => f.Entity) ids) ∧
    (∃ ids, Attributes it fuel s = some (ids, none) ∧
      FirstSeen (S.map fun f => f.Attribute) ids) ∧
    (∃ ids, Values it fuel s = some (ids, none) ∧
      FirstSeen (S.map fun f => f.Value) ids) ∧
    (∃ txes, Transactions it fuel s = some (txes, none) ∧
      FirstSeen (S.map fun f => f.Transaction) txes) := by
  refine ⟨uniqueIdents_firstSeen it _ s S fuel hS hE hfuel,
    uniqueIdents_firstSeen it _ s S fuel hS hE hfuel,
    uniqueIdents_firstSeen it _ s S fuel hS hE hfuel, ?_⟩
  have h := Transactions_loop_eq it S s [] [] fuel hS hfuel
  have hfs := collectUnseen_firstSeen (fun t : Nat => t) (fun _ _ h => h)
    (S.map fun f => f.Transaction) [] [] [] (by simp)
    ⟨List.nodup_nil, by simp, List.Pairwise.nil⟩
  unfold Transactions
  rw [h]
  simp only [hE (S.length + 1)]
  exact ⟨_, rfl, by simpa using hfs⟩

/-- Witness of C5: the four fixture facts, in the order bob's name, sue's
name, bob's color, sue's color. -/
theorem projections_first_seen_witness :
    (∃ ids, Entities (listIter none) 5 [bobName, sueName, bobColor, sueColor] = some (ids, none) ∧
      FirstSeen ([bobName, sueName, bobColor, sueColor].map fun f => f.Entity) ids) ∧
    (∃ ids, Attributes (listIter none) 5 [bobName, sueName, bobColor, sueColor]
        = some (ids, none) ∧
      FirstSeen ([bobName, sueName, bobColor, sueColor].map fun f => f.Attribute) ids) ∧
    (∃ ids, Values (listIter none) 5 [bobName, sueName, bobColor, sueColor] = some (ids, none) ∧
      FirstSeen ([bobName, sueName, bobColor, sueColor].map fun f => f.Value) ids) ∧
    (∃ txes, Transactions (listIter none) 5 [bobName, sueName, bobColor, sueColor]
        = some (txes, none) ∧
      FirstSeen ([bobName, sueName, bobColor, sueColor].map fun f => f.Transaction) txes) :=
  projections_first_seen (listIter none) [bobName, sueName, bobColor, sueColor]
    [bobName, sueName, bobColor, sueColor] 5 (listIter_produces none _) (listIter_nonFailing _)
    (by decide)

/-! ## `Groupby` -/

theorem listIter_yields (e : Option Error) (S : List Fact) : (listIter e).Yields S S := by
  induction S with
  | nil =>
    intro k
    rw [listIter_advance_nil]
    rfl
  | cons f fs ih => exact ⟨rfl, ih⟩

theorem drain_congr_next {τ α : Type} (next : τ → Option (Option α × τ)) (F : Nat) (t t' : τ)
    (h : next t = next t') : drain next F t = drain next F t' := by
  cases F with
  | zero => rfl
  | succ F => rw [drain, drain, h]

theorem grouper_loop_fuel {σ : Type} (it : Iterator σ) (cmp : Fact → Fact → Bool)
    (R : List Fact) :
    ∀ (s : σ) (last : Option Fact) (buf : Buffer) (f f' : Nat), it.Yields s R →
    R.length < f → R.length < f' →
    grouper.Next.loop it cmp f s last buf = grouper.Next.loop it cmp f' s last buf := by
  induction R with
  | nil =>
    intro s last buf f f' hS hf hf'
    obtain ⟨f, rfl⟩ := Nat.exists_eq_add_one_of_ne_zero (Nat.not_eq_zero_of_lt hf)
    obtain ⟨f', rfl⟩ := Nat.exists_eq_add_one_of_ne_zero (Nat.not_eq_zero_of_lt hf')
    have h1 : (it.Next s).1 = none := hS 0
    have h2 : it.Next s = (none, (it.Next s).2) := Prod.ext h1 rfl
    rw [grouper.Next.loop, grouper.Next.loop, h2]
  | cons a as ih =>
    intro s last buf f f' hS hf hf'
    obtain ⟨f, rfl⟩ := Nat.exists_eq_add_one_of_ne_zero (Nat.not_eq_zero_of_lt hf)
    obtain ⟨f', rfl⟩ := Nat.exists_eq_add_one_of_ne_zero (Nat.not_eq_zero_of_lt hf')
    have h1 : (it.Next s).1 = some a := hS.1
    have h2 : it.Next s = (some a, (it.Next s).2) := Prod.ext h1 rfl
    have hlt : as.length < f := by simp only [List.length_cons] at hf; omega
    have hlt' : as.length < f' := by simp only [List.length_cons] at hf'; omega
    rw [grouper.Next.loop, grouper.Next.loop, h2]
    simp only []
    cases last with
    | none => exact ih _ _ _ _ _ hS.2 hlt hlt'
    | some l =>
      simp only []
      split
      · exact ih _ _ _ _ _ hS.2 hlt hlt'
      · rfl

theorem grouper_Next_end {σ : Type} (it : Iterator σ) (F' : Nat) (g : grouper σ)
    (hE : it.NonFailing g.iter) (hl : g.last = none) (hb : g.buffer = ⟨[]⟩)
    (hn : (it.Next g.iter).1 = none) :
    ∃ g', grouper.Next it (F' + 1) g = some (none, g') := by
  have h2 : it.Next g.iter = (none, (it.Next g.iter).2) := Prod.ext hn rfl
  have e0 : it.Err g.iter = none := hE 0
  have e1 : it.Err (it.Next g.iter).2 = none := hE 1
  unfold grouper.Next
  simp only [hl, hb, e0, Option.isSome_none, Bool.false_eq_true, if_false]
  rw [grouper.Next.loop, h2]
  simp [e1, Buffer.Len]

theorem grouper_Next_last {σ : Type} (it : Iterator σ) (F' : Nat) (g : grouper σ) (b : Fact)
    (hE : it.NonFailing g.iter) (hl : g.last = some b) (hn : (it.Next g.iter).1 = none) :
    grouper.Next it (F' + 1) g = some (some (g.buffer.buf ++ [b]),
      { g with iter := (it.Next g.iter).2, last := none, buffer := ⟨[]⟩ }) := by
  have h2 : it.Next g.iter = (none, (it.Next g.iter).2) := Prod.ext hn rfl
  have e0 : it.Err g.iter = none := hE 0
  have e1 : it.Err (it.Next g.iter).2 = none := hE 1
  unfold grouper.Next
  simp only [hl, e0, Option.isSome_none, Bool.false_eq_true, if_false]
  rw [grouper.Next.loop, h2]
  simp [e1, Buffer.Len, Buffer.Write, Buffer.Facts]

theorem grouper_Next_boundary {σ : Type} (it : Iterator σ) (F' : Nat) (g : grouper σ)
    (a b : Fact) (hE : it.NonFailing g.iter) (hl : g.last = some b)
    (hn : (it.Next g.iter).1 = some a) (hc : g.cmp b a = false) :
    grouper.Next it (F' + 1) g = some (some (g.buffer.buf ++ [b]),
      { g with iter := (it.Next g.iter).2, last := some a, buffer := ⟨[]⟩ }) := by
  have h2 : it.Next g.iter = (some a, (it.Next g.iter).2) := Prod.ext hn rfl
  have e0 : it.Err g.iter = none := hE 0
  have e1 : it.Err (it.Next g.iter).2 = none := hE 1
  unfold grouper.Next
  simp only [hl, e0, Option.isSome_none, Bool.false_eq_true, if_false]
  rw [grouper.Next.loop, h2]
  simp [e1, hc, Buffer.Len, Buffer.Write, Buffer.Facts]

theorem grouper_Next_extend {σ : Type} (it : Iterator σ) (F' : Nat) (g : grouper σ)
    (a b : Fact) (as : List Fact) (hE : it.NonFailing g.iter) (hl : g.last = some b)
    (hS : it.Yields g.iter (a :: as)) (hF : (a :: as).length < F') (hc : g.cmp b a = true) :
    grouper.Next it F' g = grouper.Next it F'
      { g with iter := (it.Next g.iter).2, last := some a, buffer := (g.buffer.Write b).2 } := by
  obtain ⟨f, rfl⟩ := Nat.exists_eq_add_one_of_ne_zero (Nat.not_eq_zero_of_lt hF)
  have h2 : it.Next g.iter = (some a, (it.Next g.iter).2) := Prod.ext hS.1 rfl
  have e0 : it.Err g.iter = none := hE 0
  have e1 : it.Err (it.Next g.iter).2 = none := hE 1
  have hfuel := grouper_loop_fuel it g.cmp as (it.Next g.iter).2 (some a)
    (((g.buffer.Write b).2.Write a).2) f (f + 1) hS.2
    (by simp only [List.length_cons] at hF; omega) (by simp only [List.length_cons] at hF; omega)
  unfold grouper.Next
  simp only [hl, e0, e1, Option.isSome_none, Bool.false_eq_true, if_false]
  rw [← hfuel]
  conv_lhs => rw [grouper.Next.loop, h2]
  simp only [hc, if_true]

theorem grouper_Next_first {σ : Type} (it : Iterator σ) (F' : Nat) (g : grouper σ)
    (a : Fact) (as : List Fact) (hE : it.NonFailing g.iter) (hl : g.last = none)
    (hS : it.Yields g.iter (a :: as)) (hF : (a :: as).length < F') :
    grouper.Next it F' g = grouper.Next it F'
      { g with iter := (it.Next g.iter).2, last := some a } := by
  obtain ⟨f, rfl⟩ := Nat.exists_eq_add_one_of_ne_zero (Nat.not_eq_zero_of_lt hF)
  have h2 : it.Next g.iter = (some a, (it.Next g.iter).2) := Prod.ext hS.1 rfl
  have e0 : it.Err g.iter = none := hE 0
  have e1 : it.Err (it.Next g.iter).2 = none := hE 1
  have hfuel := grouper_loop_fuel it g.cmp as (it.Next g.iter).2 (some a)
    ((g.buffer.Write a).2) f (f + 1) hS.2
    (by simp only [List.length_cons] at hF; omega) (by simp only [List.length_cons] at hF; omega)
  unfold grouper.Next
  simp only [hl, e0, e1, Option.isSome_none, Bool.false_eq_true, if_false]
  rw [← hfuel]
  conv_lhs => rw [grouper.Next.loop, h2]

theorem splitBy_loop_acc {α : Type} (r : α → α → Bool) (l : List α) :
    ∀ (a : α) (g : List α) (gs : List (List α)),
    List.splitBy.loop r l a g gs = gs.reverse ++ List.splitBy.loop r l a g [] := by
  induction l with
  | nil => intro a g gs; simp [List.splitBy.loop]
  | cons b l ih =>
    intro a g gs
    rw [List.splitBy.loop, List.splitBy.loop]
    cases r a b with
    | true => exact ih b (a :: g) gs
    | false =>
      simp only []
      rw [ih b [] ((a :: g).reverse :: gs), ih b [] [(a :: g).reverse]]
      simp

theorem grouper_drain_loop {σ : Type} (it : Iterator σ) (F' : Nat) (R : List Fact) :
    ∀ (g : grouper σ) (b : Fact) (acc : List Fact) (F : Nat), it.Yields g.iter R →
    it.NonFailing g.iter → g.last = some b → g.buffer = ⟨acc.reverse⟩ →
    R.length < F' → R.length + 1 < F →
    (drain (grouper.Next it F') F g).map Prod.fst =
      some (List.splitBy.loop g.cmp R b acc []) := by
  induction R with
  | nil =>
    intro g b acc F hS hE hl hb hF' hF
    obtain ⟨f, rfl⟩ := Nat.exists_eq_add_one_of_ne_zero (Nat.not_eq_zero_of_lt hF')
    obtain ⟨F, rfl⟩ : ∃ k, F = k + 2 := ⟨F - 2, by simp only [List.length_nil] at hF; omega⟩
    have hn : (it.Next g.iter).1 = none := hS 0
    obtain ⟨g', hg'⟩ := grouper_Next_end it f
      { g with iter := (it.Next g.iter).2, last := none, buffer := ⟨[]⟩ }
      (Iterator.nonFailing_next hE) rfl rfl (hS 1)
    rw [drain, grouper_Next_last it f g b hE hl hn]
    simp only []
    rw [drain, hg', hb]
    simp [List.splitBy.loop]
  | cons a as ih =>
    intro g b acc F hS hE hl hb hF' hF
    have hlen : as.length + 1 = (a :: as).length := rfl
    cases hc : g.cmp b a with
    | true =>
      rw [drain_congr_next _ F _ _ (grouper_Next_extend it F' g a b as hE hl hS hF' hc)]
      have h := ih ⟨(it.Next g.iter).2, some a, (g.buffer.Write b).2, g.cmp⟩ a (b :: acc) F
        hS.2 (Iterator.nonFailing_next hE) rfl (by rw [hb]; simp [Buffer.Write]) (by omega)
        (by omega)
      rw [h, List.splitBy.loop, hc]
    | false =>
      obtain ⟨f, rfl⟩ := Nat.exists_eq_add_one_of_ne_zero (Nat.not_eq_zero_of_lt hF')
      obtain ⟨F, rfl⟩ := Nat.exists_eq_add_one_of_ne_zero (Nat.not_eq_zero_of_lt hF)
      rw [drain, grouper_Next_boundary it f g a b hE hl hS.1 hc]
      simp only []
      have h := ih ⟨(it.Next g.iter).2, some a, ⟨[]⟩, g.cmp⟩ a [] F hS.2 (Iterator.nonFailing_next hE) rfl rfl (by omega) (by omega)
      rw [Option.map_map]
      have h9 : ∀ (G : List Fact) (x : Option (List (List Fact) × grouper σ)),
          Option.map (Prod.fst ∘ fun r => (G :: r.1, r.2)) x =
            (Option.map Prod.fst x).map (List.cons G) := by
        intro G x; cases x <;> rfl
      rw [h9, h, List.splitBy.loop, hc, hb]
      simp only []
      rw [splitBy_loop_acc g.cmp as a [] [(b :: acc).reverse]]
      simp

theorem grouper_drain_eq {σ : Type} (it : Iterator σ) (s : σ) (S : List Fact)
    (cmp : Fact → Fact → Bool) (fuel : Nat) (hS : it.Yields s S) (hE : it.NonFailing s)
    (hfuel : S.length < fuel) :
    (drain (grouper.Next it fuel) fuel (Groupby s cmp)).map Prod.fst = some (S.splitBy cmp) := by
  cases S with
  | nil =>
    obtain ⟨f, rfl⟩ := Nat.exists_eq_add_one_of_ne_zero (Nat.not_eq_zero_of_lt hfuel)
    obtain ⟨g', hg'⟩ := grouper_Next_end it f (Groupby s cmp) hE rfl rfl (hS 0)
    rw [drain, hg']
    rfl
  | cons a as =>
    rw [drain_congr_next _ fuel _ _
      (grouper_Next_first it fuel (Groupby s cmp) a as hE rfl hS hfuel)]
    exact grouper_drain_loop it fuel as
      { Groupby s cmp with iter := (it.Next s).2, last := some a } a [] fuel hS.2
      (Iterator.nonFailing_next hE) rfl rfl
      (by simp only [List.length_cons] at hfuel; omega)
      (by simp only [List.length_cons] at hfuel; omega)

/-- C3. For a non-failing source iterator yielding the finite sequence `S` and
any predicate `eq`, the groups returned by successive `Groupby(it, eq).Next`
calls until it returns no group exist (given enough fuel), and their
concatenation in emission order is `S`. `Buffer.Facts` drains the buffer. -/
theorem Groupby_conservation {σ : Type} (it : Iterator σ) (s : σ) (S : List Fact)
    (eq : Fact → Fact → Bool) (fuel : Nat) (hS : it.Yields s S) (hE : it.NonFailing s)
    (hfuel : S.length < fuel) :
    ∃ groups, (drain (grouper.Next it fuel) fuel (Groupby s eq)).map Prod.fst = some groups ∧
      groups.flatten = S :=
  ⟨S.splitBy eq, grouper_drain_eq it s S eq fuel hS hE hfuel, List.flatten_splitBy eq S⟩

/-- Witness of C3: the four fixture facts grouped by equal transaction id. -/
theorem Groupby_conservation_witness :
    ∃ groups, (drain (grouper.Next (listIter none) 5) 5
        (Groupby [bobName, bobColor, sueName, sueColor]
          fun x y => x.Transaction == y.Transaction)).map Prod.fst = some groups ∧
      groups.flatten = [bobName, bobColor, sueName, sueColor] :=
  Groupby_conservation (listIter none) [bobName, bobColor, sueName, sueColor]
    [bobName, bobColor, sueName, sueColor] (fun x y => x.Transaction == y.Transaction) 5
    (listIter_yields none _) (listIter_nonFailing _) (by decide)

/-- C4. For a non-failing source yielding `S` and any predicate `eq`, the
groups emitted by `Groupby` are the maximal runs of `S`: every group is
non-empty, every two adjacent facts inside a group satisfy `eq`, and for every
two consecutive groups `G`, `H` the boundary pair does not:
`eq(last(G), first(H))` is false. -/
theorem Groupby_maximal_runs {σ : Type} (it : Iterator σ) (s : σ) (S : List Fact)
    (eq : Fact → Fact → Bool) (fuel : Nat) (hS : it.Yields s S) (hE : it.NonFailing s)
    (hfuel : S.length < fuel) :
    ∃ groups, (drain (grouper.Next it fuel) fuel (Groupby s eq)).map Prod.fst = some groups ∧
      (∀ G ∈ groups, G ≠ [] ∧ G.Chain' fun x y => eq x y = true) ∧
      groups.Chain' fun G H => ∃ hG hH, eq (G.getLast hG) (H.head hH) = false :=
  ⟨S.splitBy eq, grouper_drain_eq it s S eq fuel hS hE hfuel,
    fun _ hG => ⟨List.ne_nil_of_mem_splitBy eq hG, List.chain'_of_mem_splitBy hG⟩,
    List.chain'_getLast_head_splitBy eq S⟩

/-- Witness of C4: the four fixture facts grouped by equal entity. -/
theorem Groupby_maximal_runs_witness :
    ∃ groups, (drain (grouper.Next (listIter none) 5) 5
        (Groupby [bobName, bobColor, sueName, sueColor]
          fun x y => x.Entity == y.Entity)).map Prod.fst = some groups ∧
      (∀ G ∈ groups, G ≠ [] ∧ G.Chain' fun x y => (x.Entity == y.Entity) = true) ∧
      groups.Chain' fun G H => ∃ hG hH,
        ((G.getLast hG).Entity == (H.head hH).Entity) = false :=
  Groupby_maximal_runs (listIter none) [bobName, bobColor, sueName, sueColor]
    [bobName, bobColor, sueName, sueColor] (fun x y => x.Entity == y.Entity) 5
    (listIter_yields none _) (listIter_nonFailing _) (by decide)

/-! ## `Map` -/

theorem procState_cons {π : Type} (proc : π → Fact → Option Error × π) (p : π) (f : Fact)
    (l : List Fact) : procState proc p (f :: l) = procState proc (proc p f).2 l := rfl

theorem PassesAt_succ {π : Type} (proc : π → Fact → Option Error × π) (p : π) (f : Fact)
    (fs : List Fact) (j : Nat) :
    PassesAt proc p (f :: fs) (j + 1) ↔ PassesAt proc (proc p f).2 fs j := by
  simp only [PassesAt, List.getElem?_cons_succ, List.take_succ_cons, procState_cons]

theorem FailsAt_succ {π : Type} (proc : π → Fact → Option Error × π) (p : π) (f : Fact)
    (fs : List Fact) (i : Nat) (e : Error) :
    FailsAt proc p (f :: fs) (i + 1) e ↔ FailsAt proc (proc p f).2 fs i e := by
  simp only [FailsAt, List.getElem?_cons_succ, List.take_succ_cons, procState_cons]

theorem Map_loop_passes {σ π : Type} (it : Iterator σ) (proc : π → Fact → Option Error × π)
    (S : List Fact) :
    ∀ (s : σ) (p : π) (log : List Fact) (fuel : Nat), it.Produces s S → S.length < fuel →
    (∀ j, PassesAt proc p S j) →
    Map.loop it (recordCalls proc) fuel s (p, log) =
      some (none, it.advance (S.length + 1) s, (procState proc p S, log ++ S)) := by
  induction S with
  | nil =>
    intro s p log fuel hS hf _
    obtain ⟨fuel, rfl⟩ := Nat.exists_eq_add_one_of_ne_zero (Nat.not_eq_zero_of_lt hf)
    have h2 : it.Next s = (none, (it.Next s).2) := Prod.ext hS rfl
    rw [Map.loop, h2]
    simp [Iterator.advance, procState]
  | cons f fs ih =>
    intro s p log fuel hS hf hp
    obtain ⟨fuel, rfl⟩ := Nat.exists_eq_add_one_of_ne_zero (Nat.not_eq_zero_of_lt hf)
    have h2 : it.Next s = (some f, (it.Next s).2) := Prod.ext hS.1 rfl
    have h0 : (proc p f).1 = none := by
      have := hp 0 f (by simp)
      simpa [procState] using this
    have h3 : recordCalls proc (p, log) f = (none, ((proc p f).2, log ++ [f])) := by
      simp [recordCalls, h0]
    have h4 : it.advance ((f :: fs).length + 1) s = it.advance (fs.length + 1) (it.Next s).2 :=
      rfl
    rw [Map.loop, h2]
    simp only []
    rw [h3]
    simp only []
    rw [ih (it.Next s).2 (proc p f).2 (log ++ [f]) fuel hS.2
      (by simp only [List.length_cons] at hf; omega)
      (fun j => (PassesAt_succ proc p f fs j).1 (hp (j + 1))), h4, procState_cons]
    simp

theorem Map_loop_fails {σ π : Type} (it : Iterator σ) (proc : π → Fact → Option Error × π)
    (e : Error) (i : Nat) :
    ∀ (S : List Fact) (s : σ) (p : π) (log : List Fact) (fuel : Nat), it.Produces s S →
    S.length < fuel → FailsAt proc p S i e → (∀ j, j < i → PassesAt proc p S j) →
    ∃ s' p', Map.loop it (recordCalls proc) fuel s (p, log) =
      some (some e, s', (p', log ++ S.take (i + 1))) := by
  induction i with
  | zero =>
    intro S s p log fuel hS hf hfail _
    obtain ⟨fuel, rfl⟩ := Nat.exists_eq_add_one_of_ne_zero (Nat.not_eq_zero_of_lt hf)
    obtain ⟨fact, hget, herr⟩ := hfail
    cases S with
    | nil => simp at hget
    | cons f fs =>
      have hf0 : f = fact := by simpa using hget
      subst hf0
      have h2 : it.Next s = (some f, (it.Next s).2) := Prod.ext hS.1 rfl
      have h0 : (proc p f).1 = some e := by simpa [procState] using herr
      have h3 : recordCalls proc (p, log) f = (some e, ((proc p f).2, log ++ [f])) := by
        simp [recordCalls, h0]
      rw [Map.loop, h2]
      simp only []
      rw [h3]
      exact ⟨(it.Next s).2, (proc p f).2, by simp⟩
  | succ i ih =>
    intro S s p log fuel hS hf hfail hmin
    obtain ⟨fuel, rfl⟩ := Nat.exists_eq_add_one_of_ne_zero (Nat.not_eq_zero_of_lt hf)
    cases S with
    | nil =>
      obtain ⟨fact, hget, _⟩ := hfail
      simp at hget
    | cons f fs =>
      have h2 : it.Next s = (some f, (it.Next s).2) := Prod.ext hS.1 rfl
      have h0 : (proc p f).1 = none := by
        have := hmin 0 (Nat.succ_pos i) f (by simp)
        simpa [procState] using this
      have h3 : recordCalls proc (p, log) f = (none, ((proc p f).2, log ++ [f])) := by
        simp [recordCalls, h0]
      obtain ⟨s', p', h⟩ := ih fs (it.Next s).2 (proc p f).2 (log ++ [f]) fuel hS.2
        (by simp only [List.length_cons] at hf; omega)
        ((FailsAt_succ proc p f fs i e).1 hfail)
        (fun j hj => (PassesAt_succ proc p f fs j).1 (hmin (j + 1) (by omega)))
      rw [Map.loop, h2]
      simp only []
      rw [h3]
      simp only []
      rw [h]
      exact ⟨s', p', by simp⟩

/-- C11. `Map(it, f)` over an iterator yielding the finite sequence `S` returns
(given enough fuel) having applied `f` to the facts of `S` in order. If `i` is
the least index at which `f` returns an error, `Map` returns exactly that error
and `f` has been applied to `S[0..i]` and to no later fact; if `f` never
fails, `f` has been applied to every fact of `S` once and `Map` returns the
iterator's `Err()`. The facts `f` was applied to are the ones recorded by
`recordCalls`. -/
theorem Map_abort {σ π : Type} (it : Iterator σ) (proc : π → Fact → Option Error × π) (s : σ)
    (p : π) (S : List Fact) (fuel : Nat) (hS : it.Produces s S) (hfuel : S.length < fuel) :
    ∃ r, Map it (recordCalls proc) fuel s (p, []) = some r ∧
      (∀ i e, FailsAt proc p S i e → (∀ j, j < i → PassesAt proc p S j) →
        r.err = some e ∧ r.proc.2 = S.take (i + 1)) ∧
      ((∀ j, PassesAt proc p S j) → r.err = it.Err r.iter ∧ r.proc.2 = S) := by
  by_cases hall : ∀ j, PassesAt proc p S j
  · have h := Map_loop_passes it proc S s p [] fuel hS hfuel hall
    refine ⟨⟨it.Err (it.advance (S.length + 1) s), it.advance (S.length + 1) s,
      (procState proc p S, S)⟩, ?_, ?_, fun _ => ⟨rfl, rfl⟩⟩
    · unfold Map
      rw [h]
      simp
    · intro i e hfail _
      obtain ⟨fact, hget, herr⟩ := hfail
      rw [hall i fact hget] at herr
      cases herr
  · have hex : ∃ i, ¬ PassesAt proc p S i := not_forall.1 hall
    obtain ⟨n, hi, hmin⟩ : ∃ n, ¬ PassesAt proc p S n ∧ ∀ j, j < n → PassesAt proc p S j := by
      classical
      exact ⟨Nat.find hex, Nat.find_spec hex, fun j hj => not_not.1 (Nat.find_min hex hj)⟩
    obtain ⟨e0, hfail0⟩ : ∃ e, FailsAt proc p S n e := by
      unfold PassesAt at hi
      push_neg at hi
      obtain ⟨fact, hget, hne⟩ := hi
      obtain ⟨e, he⟩ := Option.ne_none_iff_exists'.1 hne
      exact ⟨e, fact, hget, he⟩
    obtain ⟨s', p', h⟩ := Map_loop_fails it proc e0 n S s p [] fuel hS hfuel hfail0 hmin
    refine ⟨⟨some e0, s', (p', S.take (n + 1))⟩, ?_, ?_, fun hp => absurd hp hall⟩
    · unfold Map
      rw [h]
      simp
    · intro i e hfail hpass
      have hieq : i = n := by
        rcases Nat.lt_trichotomy i n with hlt | heq | hgt
        · obtain ⟨fact, hget, herr⟩ := hfail
          rw [hmin i hlt fact hget] at herr
          cases herr
        · exact heq
        · obtain ⟨fact, hget, herr⟩ := hfail0
          rw [hpass _ hgt fact hget] at herr
          cases herr
      subst hieq
      obtain ⟨fact, hget, herr⟩ := hfail
      obtain ⟨fact0, hget0, herr0⟩ := hfail0
      rw [hget] at hget0
      cases hget0
      rw [herr] at herr0
      cases herr0
      exact ⟨rfl, rfl⟩

/-- Witness of C11: a closure that rejects transaction 2 is mapped over the
four fixture facts; it is applied to the first three and `Map` returns its
error. -/
theorem Map_abort_witness :
    ∃ r, Map (listIter none) (recordCalls (rejectTransaction 2 ⟨"rejected"⟩)) 5
        [bobName, bobColor, sueName, sueColor] (0, []) = some r ∧
      (∀ i e, FailsAt (rejectTransaction 2 ⟨"rejected"⟩) 0
          [bobName, bobColor, sueName, sueColor] i e →
        (∀ j, j < i → PassesAt (rejectTransaction 2 ⟨"rejected"⟩) 0
          [bobName, bobColor, sueName, sueColor] j) →
        r.err = some e ∧ r.proc.2 = [bobName, bobColor, sueName, sueColor].take (i + 1)) ∧
      ((∀ j, PassesAt (rejectTransaction 2 ⟨"rejected"⟩) 0
          [bobName, bobColor, sueName, sueColor] j) →
        r.err = (listIter none).Err r.iter ∧
          r.proc.2 = [bobName, bobColor, sueName, sueColor]) :=
  Map_abort (listIter none) (rejectTransaction 2 ⟨"rejected"⟩)
    [bobName, bobColor, sueName, sueColor] 0 [bobName, bobColor, sueName, sueColor] 5
    (listIter_produces none _) (by decide)

/-! ## `Filter`, `Entity`, `First`, `Exists` -/

theorem Ident.Is_eq_decide (a b : Ident) : a.Is b = decide (a = b) := by
  cases a with
  | mk d n =>
    cases b with
    | mk d' n' =>
      simp only [Ident.Is, Ident.mk.injEq]
      by_cases h1 : d = d' <;> by_cases h2 : n = n' <;> simp [h1, h2]

theorem filterer_Next_none {σ : Type} (it : Iterator σ) (F : Nat) (f : filterer σ)
    (h : (it.Next f.iter).1 = none) :
    filterer.Next it (F + 1) f = some (none, ⟨(it.Next f.iter).2, f.predicate⟩) := by
  have h2 : it.Next f.iter = (none, (it.Next f.iter).2) := Prod.ext h rfl
  rw [filterer.Next, h2]

theorem filterer_Next_match {σ : Type} (it : Iterator σ) (F : Nat) (f : filterer σ) (x : Fact)
    (h : (it.Next f.iter).1 = some x) (hp : f.predicate x = true) :
    filterer.Next it (F + 1) f = some (some x, ⟨(it.Next f.iter).2, f.predicate⟩) := by
  have h2 : it.Next f.iter = (some x, (it.Next f.iter).2) := Prod.ext h rfl
  rw [filterer.Next, h2]
  simp only [hp, if_true]

theorem filterer_Next_skip {σ : Type} (it : Iterator σ) (F : Nat) (f : filterer σ) (x : Fact)
    (h : (it.Next f.iter).1 = some x) (hp : ¬ f.predicate x = true) :
    filterer.Next it (F + 1) f = filterer.Next it F ⟨(it.Next f.iter).2, f.predicate⟩ := by
  have h2 : it.Next f.iter = (some x, (it.Next f.iter).2) := Prod.ext h rfl
  conv_lhs => rw [filterer.Next, h2]
  simp only [hp]
  rfl

theorem filterer_Next_fuel {σ : Type} (it : Iterator σ) (R : List Fact) :
    ∀ (f : filterer σ) (F F' : Nat), it.Produces f.iter R → R.length < F → R.length < F' →
    filterer.Next it F f = filterer.Next it F' f := by
  induction R with
  | nil =>
    intro f F F' hS hF hF'
    obtain ⟨F, rfl⟩ := Nat.exists_eq_add_one_of_ne_zero (Nat.not_eq_zero_of_lt hF)
    obtain ⟨F', rfl⟩ := Nat.exists_eq_add_one_of_ne_zero (Nat.not_eq_zero_of_lt hF')
    have h2 : it.Next f.iter = (none, (it.Next f.iter).2) := Prod.ext hS rfl
    rw [filterer.Next, filterer.Next, h2]
  | cons x xs ih =>
    intro f F F' hS hF hF'
    obtain ⟨F, rfl⟩ := Nat.exists_eq_add_one_of_ne_zero (Nat.not_eq_zero_of_lt hF)
    obtain ⟨F', rfl⟩ := Nat.exists_eq_add_one_of_ne_zero (Nat.not_eq_zero_of_lt hF')
    have h2 : it.Next f.iter = (some x, (it.Next f.iter).2) := Prod.ext hS.1 rfl
    rw [filterer.Next, filterer.Next, h2]
    simp only []
    split
    · rfl
    · exact ih _ F F' hS.2 (by simp only [List.length_cons] at hF; omega)
        (by simp only [List.length_cons] at hF'; omega)

theorem drain_filterer {σ : Type} (it : Iterator σ) (F' : Nat) (R : List Fact) :
    ∀ (f : filterer σ) (F : Nat), it.Produces f.iter R → R.length < F → R.length < F' →
    (drain (filterer.Next it F') F f).map Prod.fst = some (R.filter f.predicate) := by
  induction R with
  | nil =>
    intro f F hS hF hF'
    obtain ⟨F, rfl⟩ := Nat.exists_eq_add_one_of_ne_zero (Nat.not_eq_zero_of_lt hF)
    obtain ⟨F', rfl⟩ := Nat.exists_eq_add_one_of_ne_zero (Nat.not_eq_zero_of_lt hF')
    have h2 : it.Next f.iter = (none, (it.Next f.iter).2) := Prod.ext hS rfl
    rw [drain, filterer.Next, h2]
    rfl
  | cons x xs ih =>
    intro f F hS hF hF'
    have hlen : xs.length < F' := by simp only [List.length_cons] at hF'; omega
    obtain ⟨F0, rfl⟩ := Nat.exists_eq_add_one_of_ne_zero (Nat.not_eq_zero_of_lt hF')
    have h2 : it.Next f.iter = (some x, (it.Next f.iter).2) := Prod.ext hS.1 rfl
    by_cases hp : f.predicate x = true
    · obtain ⟨F, rfl⟩ := Nat.exists_eq_add_one_of_ne_zero (Nat.not_eq_zero_of_lt hF)
      have h := ih ⟨(it.Next f.iter).2, f.predicate⟩ F hS.2
        (by simp only [List.length_cons] at hF; omega) hlen
      have h9 : ∀ y : Option (List Fact × filterer σ),
          Option.map Prod.fst (Option.map (fun r => (x :: r.1, r.2)) y) =
            (Option.map Prod.fst y).map (List.cons x) := by
        intro y; cases y <;> rfl
      rw [drain, filterer.Next, h2]
      simp only [hp, if_true]
      rw [h9, h]
      simp [List.filter_cons, hp]
    · have hskip : filterer.Next it (F0 + 1) f =
          filterer.Next it (F0 + 1) ⟨(it.Next f.iter).2, f.predicate⟩ := by
        conv_lhs => rw [filterer.Next, h2]
        simp only [hp]
        exact filterer_Next_fuel it xs _ F0 (F0 + 1) hS.2
          (by simp only [List.length_cons] at hF'; omega) hlen
      rw [drain_congr_next _ F _ _ hskip]
      have h := ih ⟨(it.Next f.iter).2, f.predicate⟩ F hS.2
        (by simp only [List.length_cons] at hF; omega) hlen
      rw [h]
      simp [List.filter_cons, hp]

/-- C12. Draining `Filter(it, p)` over an upstream iterator that yields the
finite sequence `S` yields (given enough fuel) exactly the facts of `S` that
satisfy `p`, in upstream order: `List.filter p S`. `Entity(it, id)` is the
filter whose predicate is `f.Entity.Is(id)`, equality of the fact's entity
with `id`, so draining it yields the facts of `S` whose entity is `id`. -/
theorem Filter_preserves_order {σ : Type} (it : Iterator σ) (s : σ) (S : List Fact)
    (p : Fact → Bool) (id : Ident) (fuel : Nat) (hS : it.Produces s S)
    (hfuel : S.length < fuel) :
    (drain (filterer.Next it fuel) fuel (Filter s p)).map Prod.fst = some (S.filter p) ∧
    Entity s id = Filter s (fun f => f.Entity.Is id) ∧
    (drain (filterer.Next it fuel) fuel (Entity s id)).map Prod.fst =
      some (S.filter fun f => decide (f.Entity = id)) := by
  refine ⟨drain_filterer it fuel S (Filter s p) fuel hS hfuel hfuel, rfl, ?_⟩
  have h := drain_filterer it fuel S (Entity s id) fuel hS hfuel hfuel
  rw [h]
  congr 2
  funext f
  exact Ident.Is_eq_decide f.Entity id

/-- Witness of C12: the fixture facts filtered by a transaction predicate and
by the entity `people/sue`. -/
theorem Filter_preserves_order_witness :
    (drain (filterer.Next (listIter none) 5) 5
        (Filter [bobName, sueName, bobColor, sueColor]
          fun f => f.Transaction == 1)).map Prod.fst =
      some ([bobName, sueName, bobColor, sueColor].filter fun f => f.Transaction == 1) ∧
    Entity [bobName, sueName, bobColor, sueColor] ⟨"people", "sue"⟩ =
      Filter [bobName, sueName, bobColor, sueColor]
        (fun f => f.Entity.Is ⟨"people", "sue"⟩) ∧
    (drain (filterer.Next (listIter none) 5) 5
        (Entity [bobName, sueName, bobColor, sueColor] ⟨"people", "sue"⟩)).map Prod.fst =
      some ([bobName, sueName, bobColor, sueColor].filter
        fun f => decide (f.Entity = ⟨"people", "sue"⟩)) :=
  Filter_preserves_order (listIter none) [bobName, sueName, bobColor, sueColor]
    [bobName, sueName, bobColor, sueColor] (fun f => f.Transaction == 1) ⟨"people", "sue"⟩ 5
    (listIter_produces none _) (by decide)

theorem First_spec {σ : Type} (it : Iterator σ) (p : Fact → Bool) (S : List Fact) :
    ∀ (s : σ) (fuel : Nat), it.Produces s S → S.length < fuel →
    ∃ r, First it p fuel s = some r ∧ r.1 = S.find? p ∧
      ∀ i x, S[i]? = some x → p x = true →
        (∀ j y, j < i → S[j]? = some y → p y = false) →
        r.1 = some x ∧ it.Produces r.2 (S.drop (i + 1)) := by
  induction S with
  | nil =>
    intro s fuel hS hf
    obtain ⟨fuel, rfl⟩ := Nat.exists_eq_add_one_of_ne_zero (Nat.not_eq_zero_of_lt hf)
    have h2 : it.Next s = (none, (it.Next s).2) := Prod.ext hS rfl
    refine ⟨(none, (it.Next s).2), ?_, rfl, ?_⟩
    · unfold First
      rw [filterer_Next_none it fuel (Filter s p) hS]
      rfl
    · intro i x hx
      simp at hx
  | cons a as ih =>
    intro s fuel hS hf
    obtain ⟨fuel, rfl⟩ := Nat.exists_eq_add_one_of_ne_zero (Nat.not_eq_zero_of_lt hf)
    have h2 : it.Next s = (some a, (it.Next s).2) := Prod.ext hS.1 rfl
    by_cases hp : p a = true
    · refine ⟨(some a, (it.Next s).2), ?_, ?_, ?_⟩
      · unfold First
        rw [filterer_Next_match it fuel (Filter s p) a hS.1 hp]
        rfl
      · simp [List.find?_cons, hp]
      · intro i x hx hpx hmin
        cases i with
        | zero =>
          have hax : a = x := by simpa using hx
          subst hax
          exact ⟨rfl, by simpa using hS.2⟩
        | succ i =>
          have := hmin 0 a (Nat.succ_pos i) (by simp)
          rw [hp] at this
          cases this
    · obtain ⟨r, h1, h3, h4⟩ := ih (it.Next s).2 fuel hS.2
        (by simp only [List.length_cons] at hf; omega)
      have hstep : First it p (fuel + 1) s = First it p fuel (it.Next s).2 := by
        unfold First
        rw [filterer_Next_skip it fuel (Filter s p) a hS.1 hp]
        rfl
      refine ⟨r, by rw [hstep, h1], ?_, ?_⟩
      · rw [h3]
        simp [List.find?_cons, hp]
      · intro i x hx hpx hmin
        cases i with
        | zero =>
          have hax : a = x := by simpa using hx
          subst hax
          exact absurd hpx hp
        | succ i =>
          have := h4 i x (by simpa using hx) hpx
            (fun j y hj hy => hmin (j + 1) y (by omega) (by simpa using hy))
          simpa using this

/-- C13. For an iterator yielding the finite sequence `S`, `First(it, p)`
returns (given enough fuel) `S[i]` for the least `i` with `p(S[i])`, and after
the call the iterator is positioned at `S[i+1]`: it yields exactly the facts
after the first match. `First` returns `nil` when no fact of `S` satisfies `p`,
and `Exists(it, p)` is true if and only if some fact of `S` satisfies `p`. -/
theorem First_Exists_short_circuit {σ : Type} (it : Iterator σ) (s : σ) (S : List Fact)
    (p : Fact → Bool) (fuel : Nat) (hS : it.Produces s S) (hfuel : S.length < fuel) :
    ∃ r, First it p fuel s = some r ∧
      (∀ i x, S[i]? = some x → p x = true →
        (∀ j y, j < i → S[j]? = some y → p y = false) →
        r.1 = some x ∧ it.Produces r.2 (S.drop (i + 1))) ∧
      ((∀ x, x ∈ S → p x = false) → r.1 = none) ∧
      ∃ b, Exists it p fuel s = some (b, r.2) ∧ (b = true ↔ ∃ x, x ∈ S ∧ p x = true) := by
  obtain ⟨r, h1, h2, h3⟩ := First_spec it p S s fuel hS hfuel
  refine ⟨r, h1, h3, ?_, r.1.isSome, ?_, ?_⟩
  · intro hnone
    rw [h2, List.find?_eq_none]
    intro x hx
    simp [hnone x hx]
  · simp only [Exists, h1, Option.map_some']
  · rw [h2, List.find?_isSome]

/-- Witness of C13: the first fact of transaction 2 among the four fixture
facts. -/
theorem First_Exists_short_circuit_witness :
    ∃ r, First (listIter none) (fun f => f.Transaction == 2) 5
        [bobName, bobColor, sueName, sueColor] = some r ∧
      (∀ i x, [bobName, bobColor, sueName, sueColor][i]? = some x →
        (fun f : Fact => f.Transaction == 2) x = true →
        (∀ j y, j < i → [bobName, bobColor, sueName, sueColor][j]? = some y →
          (fun f : Fact => f.Transaction == 2) y = false) →
        r.1 = some x ∧
          (listIter none).Produces r.2 ([bobName, bobColor, sueName, sueColor].drop (i + 1))) ∧
      ((∀ x, x ∈ [bobName, bobColor, sueName, sueColor] →
        (fun f : Fact => f.Transaction == 2) x = false) → r.1 = none) ∧
      ∃ b, Exists (listIter none) (fun f => f.Transaction == 2) 5
          [bobName, bobColor, sueName, sueColor] = some (b, r.2) ∧
        (b = true ↔ ∃ x, x ∈ [bobName, bobColor, sueName, sueColor] ∧
          (fun f : Fact => f.Transaction == 2) x = true) :=
  First_Exists_short_circuit (listIter none) [bobName, bobColor, sueName, sueColor]
    [bobName, bobColor, sueName, sueColor] (fun f => f.Transaction == 2) 5
    (listIter_produces none _) (by decide)

/-! ## `Groupby` on a failing source -/

theorem failingIter_produces (e : Error) (S : List Fact) (b : Bool) :
    (failingIter e).Produces (S, b) S := by
  induction S with
  | nil => rfl
  | cons f fs ih => exact ⟨rfl, ih⟩

theorem failingIter_advance (e : Error) (S : List Fact) :
    ∀ k, k ≤ S.length → (failingIter e).advance k (S, false) = (S.drop k, false) := by
  induction S with
  | nil =>
    intro k hk
    have hk0 : k = 0 := by simpa using hk
    subst hk0
    rfl
  | cons f fs ih =>
    intro k hk
    cases k with
    | zero => rfl
    | succ k =>
      have := ih k (by simpa using hk)
      simpa [Iterator.advance, failingIter] using this

theorem grouper_loop_fuel_produces {σ : Type} (it : Iterator σ) (cmp : Fact → Fact → Bool)
    (R : List Fact) :
    ∀ (s : σ) (last : Option Fact) (buf : Buffer) (f f' : Nat), it.Produces s R →
    R.length < f → R.length < f' →
    grouper.Next.loop it cmp f s last buf = grouper.Next.loop it cmp f' s last buf := by
  induction R with
  | nil =>
    intro s last buf f f' hS hf hf'
    obtain ⟨f, rfl⟩ := Nat.exists_eq_add_one_of_ne_zero (Nat.not_eq_zero_of_lt hf)
    obtain ⟨f', rfl⟩ := Nat.exists_eq_add_one_of_ne_zero (Nat.not_eq_zero_of_lt hf')
    have h2 : it.Next s = (none, (it.Next s).2) := Prod.ext hS rfl
    rw [grouper.Next.loop, grouper.Next.loop, h2]
  | cons a as ih =>
    intro s last buf f f' hS hf hf'
    obtain ⟨f, rfl⟩ := Nat.exists_eq_add_one_of_ne_zero (Nat.not_eq_zero_of_lt hf)
    obtain ⟨f', rfl⟩ := Nat.exists_eq_add_one_of_ne_zero (Nat.not_eq_zero_of_lt hf')
    have h2 : it.Next s = (some a, (it.Next s).2) := Prod.ext hS.1 rfl
    have hlt : as.length < f := by simp only [List.length_cons] at hf; omega
    have hlt' : as.length < f' := by simp only [List.length_cons] at hf'; omega
    rw [grouper.Next.loop, grouper.Next.loop, h2]
    simp only []
    cases last with
    | none => exact ih _ _ _ _ _ hS.2 hlt hlt'
    | some l =>
      simp only []
      split
      · exact ih _ _ _ _ _ hS.2 hlt hlt'
      · rfl

theorem grouper_Next_stuck {σ : Type} (it : Iterator σ) (F : Nat) (g : grouper σ) (e : Error)
    (he : it.Err g.iter = some e) : grouper.Next it F g = some (none, g) := by
  simp [grouper.Next, he]

theorem grouper_Next_fail_last {σ : Type} (it : Iterator σ) (F' : Nat) (g : grouper σ)
    (b : Fact) (e : Error) (e0 : it.Err g.iter = none)
    (e1 : it.Err (it.Next g.iter).2 = some e) (hl : g.last = some b)
    (hn : (it.Next g.iter).1 = none) :
    grouper.Next it (F' + 1) g =
      some (none, ⟨(it.Next g.iter).2, none, (g.buffer.Write b).2, g.cmp⟩) := by
  have h2 : it.Next g.iter = (none, (it.Next g.iter).2) := Prod.ext hn rfl
  unfold grouper.Next
  simp only [hl, e0, Option.isSome_none, Bool.false_eq_true, if_false]
  rw [grouper.Next.loop, h2]
  simp [e1]

theorem grouper_Next_fail_first {σ : Type} (it : Iterator σ) (F' : Nat) (g : grouper σ)
    (e : Error) (e0 : it.Err g.iter = none) (e1 : it.Err (it.Next g.iter).2 = some e)
    (hl : g.last = none) (hn : (it.Next g.iter).1 = none) :
    grouper.Next it (F' + 1) g = some (none, ⟨(it.Next g.iter).2, none, g.buffer, g.cmp⟩) := by
  have h2 : it.Next g.iter = (none, (it.Next g.iter).2) := Prod.ext hn rfl
  unfold grouper.Next
  simp only [hl, e0, Option.isSome_none, Bool.false_eq_true, if_false]
  rw [grouper.Next.loop, h2]
  simp [e1]

theorem grouper_Next_boundary_ok {σ : Type} (it : Iterator σ) (F' : Nat) (g : grouper σ)
    (a b : Fact) (e0 : it.Err g.iter = none) (e1 : it.Err (it.Next g.iter).2 = none)
    (hl : g.last = some b) (hn : (it.Next g.iter).1 = some a) (hc : g.cmp b a = false) :
    grouper.Next it (F' + 1) g = some (some (g.buffer.buf ++ [b]),
      ⟨(it.Next g.iter).2, some a, ⟨[]⟩, g.cmp⟩) := by
  have h2 : it.Next g.iter = (some a, (it.Next g.iter).2) := Prod.ext hn rfl
  unfold grouper.Next
  simp only [hl, e0, Option.isSome_none, Bool.false_eq_true, if_false]
  rw [grouper.Next.loop, h2]
  simp [e1, hc, Buffer.Len, Buffer.Write, Buffer.Facts]

theorem grouper_Next_extend_ok {σ : Type} (it : Iterator σ) (F' : Nat) (g : grouper σ)
    (a b : Fact) (as : List Fact) (e0 : it.Err g.iter = none)
    (e1 : it.Err (it.Next g.iter).2 = none) (hl : g.last = some b)
    (hS : it.Produces g.iter (a :: as)) (hF : (a :: as).length < F') (hc : g.cmp b a = true) :
    grouper.Next it F' g = grouper.Next it F'
      ⟨(it.Next g.iter).2, some a, (g.buffer.Write b).2, g.cmp⟩ := by
  obtain ⟨f, rfl⟩ := Nat.exists_eq_add_one_of_ne_zero (Nat.not_eq_zero_of_lt hF)
  have h2 : it.Next g.iter = (some a, (it.Next g.iter).2) := Prod.ext hS.1 rfl
  have hfuel := grouper_loop_fuel_produces it g.cmp as (it.Next g.iter).2 (some a)
    (((g.buffer.Write b).2.Write a).2) f (f + 1) hS.2
    (by simp only [List.length_cons] at hF; omega) (by simp only [List.length_cons] at hF; omega)
  unfold grouper.Next
  simp only [hl, e0, e1, Option.isSome_none, Bool.false_eq_true, if_false]
  rw [← hfuel]
  conv_lhs => rw [grouper.Next.loop, h2]
  simp only [hc, if_true]

theorem grouper_Next_first_ok {σ : Type} (it : Iterator σ) (F' : Nat) (g : grouper σ)
    (a : Fact) (as : List Fact) (e0 : it.Err g.iter = none)
    (e1 : it.Err (it.Next g.iter).2 = none) (hl : g.last = none)
    (hS : it.Produces g.iter (a :: as)) (hF : (a :: as).length < F') :
    grouper.Next it F' g = grouper.Next it F'
      ⟨(it.Next g.iter).2, some a, g.buffer, g.cmp⟩ := by
  obtain ⟨f, rfl⟩ := Nat.exists_eq_add_one_of_ne_zero (Nat.not_eq_zero_of_lt hF)
  have h2 : it.Next g.iter = (some a, (it.Next g.iter).2) := Prod.ext hS.1 rfl
  have hfuel := grouper_loop_fuel_produces it g.cmp as (it.Next g.iter).2 (some a)
    ((g.buffer.Write a).2) f (f + 1) hS.2
    (by simp only [List.length_cons] at hF; omega) (by simp only [List.length_cons] at hF; omega)
  unfold grouper.Next
  simp only [hl, e0, e1, Option.isSome_none, Bool.false_eq_true, if_false]
  rw [← hfuel]
  conv_lhs => rw [grouper.Next.loop, h2]

theorem splitBy_loop_ne_nil {α : Type} (r : α → α → Bool) (l : List α) :
    ∀ (a : α) (g : List α), List.splitBy.loop r l a g [] ≠ [] := by
  induction l with
  | nil => intro a g; simp [List.splitBy.loop]
  | cons b l ih =>
    intro a g
    rw [List.splitBy.loop]
    cases r a b with
    | true => exact ih b (a :: g)
    | false =>
      simp only []
      rw [splitBy_loop_acc]
      simp

theorem grouper_drain_failing {σ : Type} (it : Iterator σ) (F' : Nat) (e : Error)
    (R : List Fact) :
    ∀ (g : grouper σ) (b : Fact) (acc : List Fact) (F : Nat), it.Produces g.iter R →
    (∀ k, k ≤ R.length → it.Err (it.advance k g.iter) = none) →
    it.Err (it.advance (R.length + 1) g.iter) = some e →
    g.last = some b → g.buffer = ⟨acc.reverse⟩ → R.length < F' → R.length < F →
    ∃ g', drain (grouper.Next it F') F g =
        some ((List.splitBy.loop g.cmp R b acc []).dropLast, g') ∧
      it.Err g'.iter = some e := by
  induction R with
  | nil =>
    intro g b acc F hS hE hfail hl hb hF' hF
    obtain ⟨f, rfl⟩ := Nat.exists_eq_add_one_of_ne_zero (Nat.not_eq_zero_of_lt hF')
    obtain ⟨F, rfl⟩ := Nat.exists_eq_add_one_of_ne_zero (Nat.not_eq_zero_of_lt hF)
    refine ⟨⟨(it.Next g.iter).2, none, (g.buffer.Write b).2, g.cmp⟩, ?_, hfail⟩
    rw [drain, grouper_Next_fail_last it f g b e (hE 0 (Nat.zero_le _)) hfail hl hS]
    simp [List.splitBy.loop]
  | cons a as ih =>
    intro g b acc F hS hE hfail hl hb hF' hF
    have e0 : it.Err g.iter = none := hE 0 (Nat.zero_le _)
    have e1 : it.Err (it.Next g.iter).2 = none := hE 1 (by simp)
    have hE' : ∀ k, k ≤ as.length → it.Err (it.advance k (it.Next g.iter).2) = none :=
      fun k hk => hE (k + 1) (by simp only [List.length_cons]; omega)
    cases hc : g.cmp b a with
    | true =>
      rw [drain_congr_next _ F _ _ (grouper_Next_extend_ok it F' g a b as e0 e1 hl hS hF' hc)]
      obtain ⟨g', h, he⟩ := ih ⟨(it.Next g.iter).2, some a, (g.buffer.Write b).2, g.cmp⟩ a
        (b :: acc) F hS.2 hE' hfail rfl (by rw [hb]; simp [Buffer.Write])
        (by simp only [List.length_cons] at hF'; omega)
        (by simp only [List.length_cons] at hF; omega)
      refine ⟨g', ?_, he⟩
      rw [h, List.splitBy.loop, hc]
    | false =>
      obtain ⟨f, rfl⟩ := Nat.exists_eq_add_one_of_ne_zero (Nat.not_eq_zero_of_lt hF')
      obtain ⟨F, rfl⟩ := Nat.exists_eq_add_one_of_ne_zero (Nat.not_eq_zero_of_lt hF)
      obtain ⟨g', h, he⟩ := ih ⟨(it.Next g.iter).2, some a, ⟨[]⟩, g.cmp⟩ a [] F hS.2 hE' hfail
        rfl rfl (by simp only [List.length_cons] at hF'; omega)
        (by simp only [List.length_cons] at hF; omega)
      refine ⟨g', ?_, he⟩
      rw [drain, grouper_Next_boundary_ok it f g a b e0 e1 hl hS.1 hc]
      simp only []
      rw [h, List.splitBy.loop, hc, hb]
      simp only []
      rw [splitBy_loop_acc g.cmp as a [] [(b :: acc).reverse]]
      simp [List.dropLast_cons_of_ne_nil (splitBy_loop_ne_nil g.cmp as a [])]

/-- C14. When the source yields the facts of `S` with no error and then fails
(its call after them returns end-of-stream and `Err()` is then `e`), draining
`Groupby(it, eq)` returns (given enough fuel) the completed groups only: the
call that meets the failure returns no group, so the group being accumulated,
the last maximal run of `S`, is not emitted. After it the group-by iterator's
`Err()` is the source's error `e`, and every later `Next` call returns no
group and leaves the iterator as it is. -/
theorem Groupby_error_surfacing {σ : Type} (it : Iterator σ) (s : σ) (S : List Fact)
    (eq : Fact → Fact → Bool) (e : Error) (fuel : Nat) (hS : it.Produces s S)
    (hE : ∀ k, k ≤ S.length → it.Err (it.advance k s) = none)
    (hfail : it.Err (it.advance (S.length + 1) s) = some e) (hfuel : S.length < fuel) :
    ∃ g', drain (grouper.Next it fuel) fuel (Groupby s eq) =
        some ((S.splitBy eq).dropLast, g') ∧
      grouper.Err it g' = some e ∧
      ∀ F, grouper.Next it F g' = some (none, g') := by
  have hgoal : ∃ g', drain (grouper.Next it fuel) fuel (Groupby s eq) =
      some ((S.splitBy eq).dropLast, g') ∧ it.Err g'.iter = some e := by
    cases S with
    | nil =>
      obtain ⟨f, rfl⟩ := Nat.exists_eq_add_one_of_ne_zero (Nat.not_eq_zero_of_lt hfuel)
      refine ⟨⟨(it.Next s).2, none, NewBuffer [], eq⟩, ?_, hfail⟩
      rw [drain, grouper_Next_fail_first it f (Groupby s eq) e (hE 0 (Nat.zero_le _)) hfail rfl
        hS]
      rfl
    | cons a as =>
      rw [drain_congr_next _ fuel _ _ (grouper_Next_first_ok it fuel (Groupby s eq) a as
        (hE 0 (Nat.zero_le _)) (hE 1 (by simp)) rfl hS hfuel)]
      exact grouper_drain_failing it fuel e as ⟨(it.Next s).2, some a, NewBuffer [], eq⟩ a []
        fuel hS.2 (fun k hk => hE (k + 1) (by simp only [List.length_cons]; omega)) hfail rfl
        rfl (by simp only [List.length_cons] at hfuel; omega)
        (by simp only [List.length_cons] at hfuel; omega)
  obtain ⟨g', h, he⟩ := hgoal
  exact ⟨g', h, he, fun F => grouper_Next_stuck it F g' e he⟩

/-- Witness of C14: the source yields bob's two facts and sue's name and then
fails; grouping by entity emits bob's group and loses sue's. -/
theorem Groupby_error_surfacing_witness :
    ∃ g', drain (grouper.Next (failingIter ⟨"read failed"⟩) 4) 4
        (Groupby ([bobName, bobColor, sueName], false) fun x y => x.Entity == y.Entity) =
        some (([bobName, bobColor, sueName].splitBy fun x y => x.Entity == y.Entity).dropLast,
          g') ∧
      grouper.Err (failingIter ⟨"read failed"⟩) g' = some ⟨"read failed"⟩ ∧
      ∀ F, grouper.Next (failingIter ⟨"read failed"⟩) F g' = some (none, g') :=
  Groupby_error_surfacing (failingIter ⟨"read failed"⟩) ([bobName, bobColor, sueName], false)
    [bobName, bobColor, sueName] (fun x y => x.Entity == y.Entity) ⟨"read failed"⟩ 4
    (failingIter_produces _ _ _)
    (fun k hk => by rw [failingIter_advance _ _ k hk]; rfl) (by decide) (by decide)

/-! ## Comparators and `Timsort` -/

theorem compareChars_neg : ∀ a b : List Char, compareChars b a = -compareChars a b := by
  intro a
  induction a with
  | nil =>
    intro b
    cases b <;> simp [compareChars]
  | cons x xs ih =>
    intro b
    cases b with
    | nil => simp [compareChars]
    | cons y ys =>
      simp only [compareChars]
      by_cases h1 : x.toNat < y.toNat
      · have h2 : ¬ y.toNat < x.toNat := by omega
        simp [h1, h2]
      · by_cases h2 : y.toNat < x.toNat
        · simp [h1, h2]
        · simp only [h1, h2, if_false]
          exact ih ys

theorem compareChars_trans : ∀ a b d : List Char,
    compareChars a b ≤ 0 → compareChars b d ≤ 0 → compareChars a d ≤ 0 := by
  intro a
  induction a with
  | nil =>
    intro b d _ _
    cases d <;> simp [compareChars]
  | cons x xs ih =>
    intro b d hab hbd
    cases b with
    | nil => simp [compareChars] at hab
    | cons y ys =>
      cases d with
      | nil => simp [compareChars] at hbd
      | cons z zs =>
        simp only [compareChars] at hab hbd ⊢
        by_cases hxz : x.toNat < z.toNat
        · simp [hxz]
        · have hxy : ¬ y.toNat < x.toNat := by
            intro h
            have h' : ¬ x.toNat < y.toNat := by omega
            simp [h, h'] at hab
          have hyz : ¬ z.toNat < y.toNat := by
            intro h
            have h' : ¬ y.toNat < z.toNat := by omega
            simp [h, h'] at hbd
          have e1 : ¬ x.toNat < y.toNat := by omega
          have e2 : ¬ y.toNat < z.toNat := by omega
          have e3 : ¬ z.toNat < x.toNat := by omega
          simp only [e1, hxy, if_false] at hab
          simp only [e2, hyz, if_false] at hbd
          simp only [hxz, e3, if_false]
          exact ih ys zs hab hbd

theorem LawfulCompare_lex {α : Type} (c1 c2 : α → α → Int) (h1 : LawfulCompare c1)
    (h2 : LawfulCompare c2) :
    LawfulCompare fun a b => if c1 a b ≠ 0 then c1 a b else c2 a b := by
  obtain ⟨n1, t1⟩ := h1
  obtain ⟨n2, t2⟩ := h2
  constructor
  · intro a b
    simp only []
    rw [n1 a b]
    by_cases h : c1 a b = 0
    · simp [h, n2 a b]
    · have h' : ¬ -c1 a b = 0 := by omega
      simp [h, h']
  · intro a b d hab hbd
    simp only [] at hab hbd ⊢
    have hba := n1 a b
    have hdb := n1 b d
    have hda := n1 a d
    by_cases e1 : c1 a b = 0
    · rw [if_neg (by simpa using e1)] at hab
      by_cases e2 : c1 b d = 0
      · rw [if_neg (by simpa using e2)] at hbd
        have e3 : c1 a d = 0 := by
          have := t1 a b d (by omega) (by omega)
          have := t1 d b a (by omega) (by omega)
          omega
        rw [if_neg (by simpa using e3)]
        exact t2 a b d hab hbd
      · rw [if_pos e2] at hbd
        have hle := t1 a b d (by omega) hbd
        by_cases e3 : c1 a d = 0
        · have := t1 d a b (by omega) (by omega)
          omega
        · rw [if_pos e3]; exact hle
    · rw [if_pos e1] at hab
      have hbd' : c1 b d ≤ 0 := by
        by_cases e2 : c1 b d = 0
        · omega
        · rw [if_pos e2] at hbd; exact hbd
      have hle := t1 a b d hab hbd'
      by_cases e3 : c1 a d = 0
      · have := t1 b d a hbd' (by omega)
        omega
      · rw [if_pos e3]; exact hle

theorem LawfulCompare_comap {α β : Type} (f : α → β) (c : β → β → Int) (h : LawfulCompare c) :
    LawfulCompare fun a b => c (f a) (f b) :=
  ⟨fun a b => h.1 (f a) (f b), fun a b d => h.2 (f a) (f b) (f d)⟩

theorem stringCompare_lawful : LawfulCompare stringCompare :=
  ⟨fun a b => compareChars_neg a.data b.data,
    fun a b d => compareChars_trans a.data b.data d.data⟩

theorem identCompare_lawful : LawfulCompare identCompare :=
  LawfulCompare_lex (fun a b : Ident => stringCompare a.Domain b.Domain)
    (fun a b : Ident => stringCompare a.Name b.Name)
    (LawfulCompare_comap Ident.Domain stringCompare stringCompare_lawful)
    (LawfulCompare_comap Ident.Name stringCompare stringCompare_lawful)

theorem LawfulCompare_totalPreorder (C : Comparator) (h : LawfulCompare C) :
    C.IsTotalPreorder := by
  obtain ⟨hn, ht⟩ := h
  refine ⟨fun a b => ?_, ht, fun a b hab => ?_⟩
  · have := hn a b
    omega
  · have := hn a b
    omega

theorem AttributeComparator_totalPreorder : AttributeComparator.IsTotalPreorder :=
  LawfulCompare_totalPreorder _ (LawfulCompare_comap Fact.Attribute identCompare identCompare_lawful)

theorem EntityComparator_totalPreorder : EntityComparator.IsTotalPreorder :=
  LawfulCompare_totalPreorder _ (LawfulCompare_comap Fact.Entity identCompare identCompare_lawful)

/-- C20. For every fact sequence `S` and every comparator `C` that is a total
preorder, `Timsort(S, C)` is a permutation of `S`, is non-decreasing under `C`
(every fact is ordered before or with every later one), and is stable: for
every fact `x`, the facts that compare equal to `x` stand in the result in
their input order. Sorting `[bobName, bobColor, sueName, sueColor]` by
`EntityComparator` leaves it unchanged, and by `AttributeComparator` gives
`[bobColor, sueColor, bobName, sueName]`. -/
theorem Timsort_stable_sort (S : List Fact) (C : Comparator) (hC : C.IsTotalPreorder) :
    (Timsort S C).Perm S ∧
    (Timsort S C).Pairwise (fun a b => C a b ≤ 0) ∧
    (∀ x, (Timsort S C).filter (fun y => decide (C x y = 0)) =
      S.filter (fun y => decide (C x y = 0))) ∧
    Timsort [bobName, bobColor, sueName, sueColor] EntityComparator =
      [bobName, bobColor, sueName, sueColor] ∧
    Timsort [bobName, bobColor, sueName, sueColor] AttributeComparator =
      [bobColor, sueColor, bobName, sueName] := by
  obtain ⟨htotal, htrans, hsymm⟩ := hC
  have htrans' : ∀ a b c : Fact, decide (C a b ≤ 0) = true → decide (C b c ≤ 0) = true →
      decide (C a c ≤ 0) = true := by
    intro a b c h1 h2
    simp only [decide_eq_true_eq] at h1 h2 ⊢
    exact htrans a b c h1 h2
  have htotal' : ∀ a b : Fact, (decide (C a b ≤ 0) || decide (C b a ≤ 0)) = true := by
    intro a b
    simp only [Bool.or_eq_true, decide_eq_true_eq]
    exact htotal a b
  have hperm : (Timsort S C).Perm S := List.mergeSort_perm S _
  refine ⟨hperm, ?_, ?_, ?_, ?_⟩
  · have h := List.sorted_mergeSort htrans' htotal' S
    exact h.imp (fun hab => by simpa using hab)
  · intro x
    have hsub : List.Sublist (S.filter (fun y => decide (C x y = 0))) (Timsort S C) := by
      refine List.sublist_mergeSort htrans' htotal' ?_ (List.filter_sublist S)
      refine List.pairwise_of_forall_mem_list ?_
      intro a ha b hb
      have hxa : C x a = 0 := by simpa using (List.mem_filter.1 ha).2
      have hxb : C x b = 0 := by simpa using (List.mem_filter.1 hb).2
      have hax : C a x = 0 := hsymm x a hxa
      simp only [decide_eq_true_eq]
      exact htrans a x b (by omega) (by omega)
    have hsub' := hsub.filter (fun y => decide (C x y = 0))
    simp only [List.filter_filter, Bool.and_self] at hsub'
    have hlen : (S.filter (fun y => decide (C x y = 0))).length =
        ((Timsort S C).filter (fun y => decide (C x y = 0))).length :=
      ((hperm.filter _).length_eq).symm
    exact (hsub'.eq_of_length hlen).symm
  · have h1 : decide (EntityComparator bobName bobColor ≤ 0) = true := by decide
    have h2 : decide (EntityComparator sueName sueColor ≤ 0) = true := by decide
    have h3 : decide (EntityComparator bobName sueName ≤ 0) = true := by decide
    have h4 : decide (EntityComparator bobColor sueName ≤ 0) = true := by decide
    simp [Timsort, List.mergeSort, List.splitInTwo_fst, List.splitInTwo_snd,
      List.cons_merge_cons, h1, h2, h3, h4]
  · have h1 : decide (AttributeComparator bobName bobColor ≤ 0) = false := by decide
    have h2 : decide (AttributeComparator sueName sueColor ≤ 0) = false := by decide
    have h3 : decide (AttributeComparator bobColor sueColor ≤ 0) = true := by decide
    have h4 : decide (AttributeComparator bobName sueColor ≤ 0) = false := by decide
    have h5 : decide (AttributeComparator bobName sueName ≤ 0) = true := by decide
    simp [Timsort, List.mergeSort, List.splitInTwo_fst, List.splitInTwo_snd,
      List.cons_merge_cons, h1, h2, h3, h4, h5]

/-- Witness of C20: the four fixture facts sorted by `AttributeComparator`. -/
theorem Timsort_stable_sort_witness :
    (Timsort [bobName, bobColor, sueName, sueColor] AttributeComparator).Perm
      [bobName, bobColor, sueName, sueColor] ∧
    (Timsort [bobName, bobColor, sueName, sueColor] AttributeComparator).Pairwise
      (fun a b => AttributeComparator a b ≤ 0) ∧
    (∀ x, (Timsort [bobName, bobColor, sueName, sueColor] AttributeComparator).filter
        (fun y => decide (AttributeComparator x y = 0)) =
      [bobName, bobColor, sueName, sueColor].filter
        (fun y => decide (AttributeComparator x y = 0))) ∧
    Timsort [bobName, bobColor, sueName, sueColor] EntityComparator =
      [bobName, bobColor, sueName, sueColor] ∧
    Timsort [bobName, bobColor, sueName, sueColor] AttributeComparator =
      [bobColor, sueColor, bobName, sueName] :=
  Timsort_stable_sort [bobName, bobColor, sueName, sueColor] AttributeComparator
    AttributeComparator_totalPreorder

/-! ## Composed comparators -/

theorem chainComparators_firstNonEqual (cs : List Comparator) (a b : Fact) :
    chainComparators cs a b = firstNonEqual (cs.map fun c => c a b) := by
  induction cs with
  | nil => rfl
  | cons c cs ih =>
    by_cases h : c a b = 0
    · simp only [chainComparators, h, ne_eq, not_true_eq_false, if_false, List.map_cons,
        firstNonEqual, List.find?_cons, decide_False]
      rw [ih]
      rfl
    · simp [chainComparators, firstNonEqual, List.find?_cons, h]

/-- C21. For every pair of facts `a`, `b`, `EAVTComparator(a, b)` is the first
non-equal result among the entity, attribute, value and time comparisons taken
in that order, and equal when all four are equal; likewise AVET is attribute,
value, entity, time, AEVT is attribute, entity, value, time and VAET is value,
attribute, entity, time, identities being compared lexicographically on
`(domain, name)`. Sorting `[bobName, bobColor, sueName, sueColor]` gives the
orders of the four tests. -/
theorem composed_comparators_chain :
    (∀ a b, EAVTComparator a b = firstNonEqual
      [EntityComparator a b, AttributeComparator a b, ValueComparator a b,
        TimeComparator a b]) ∧
    (∀ a b, AVETComparator a b = firstNonEqual
      [AttributeComparator a b, ValueComparator a b, EntityComparator a b,
        TimeComparator a b]) ∧
    (∀ a b, AEVTComparator a b = firstNonEqual
      [AttributeComparator a b, EntityComparator a b, ValueComparator a b,
        TimeComparator a b]) ∧
    (∀ a b, VAETComparator a b = firstNonEqual
      [ValueComparator a b, AttributeComparator a b, EntityComparator a b,
        TimeComparator a b]) ∧
    Timsort [bobName, bobColor, sueName, sueColor] EAVTComparator =
      [bobColor, bobName, sueColor, sueName] ∧
    Timsort [bobName, bobColor, sueName, sueColor] AVETComparator =
      [sueColor, bobColor, bobName, sueName] ∧
    Timsort [bobName, bobColor, sueName, sueColor] AEVTComparator =
      [bobColor, sueColor, bobName, sueName] ∧
    Timsort [bobName, bobColor, sueName, sueColor] VAETComparator =
      [bobName, sueName, sueColor, bobColor] := by
  refine ⟨fun a b => chainComparators_firstNonEqual _ a b,
    fun a b => chainComparators_firstNonEqual _ a b,
    fun a b => chainComparators_firstNonEqual _ a b,
    fun a b => chainComparators_firstNonEqual _ a b, ?_, ?_, ?_, ?_⟩
  · have h1 : decide (EAVTComparator bobName bobColor ≤ 0) = false := by decide
    have h2 : decide (EAVTComparator sueName sueColor ≤ 0) = false := by decide
    have h3 : decide (EAVTComparator bobColor sueColor ≤ 0) = true := by decide
    have h4 : decide (EAVTComparator bobName sueColor ≤ 0) = true := by decide
    simp [Timsort, List.mergeSort, List.splitInTwo_fst, List.splitInTwo_snd,
      List.cons_merge_cons, h1, h2, h3, h4]
  · have h1 : decide (AVETComparator bobName bobColor ≤ 0) = false := by decide
    have h2 : decide (AVETComparator sueName sueColor ≤ 0) = false := by decide
    have h3 : decide (AVETComparator bobColor sueColor ≤ 0) = false := by decide
    have h4 : decide (AVETComparator bobColor sueName ≤ 0) = true := by decide
    have h5 : decide (AVETComparator bobName sueName ≤ 0) = true := by decide
    simp [Timsort, List.mergeSort, List.splitInTwo_fst, List.splitInTwo_snd,
      List.cons_merge_cons, h1, h2, h3, h4, h5]
  · have h1 : decide (AEVTComparator bobName bobColor ≤ 0) = false := by decide
    have h2 : decide (AEVTComparator sueName sueColor ≤ 0) = false := by decide
    have h3 : decide (AEVTComparator bobColor sueColor ≤ 0) = true := by decide
    have h4 : decide (AEVTComparator bobName sueColor ≤ 0) = false := by decide
    have h5 : decide (AEVTComparator bobName sueName ≤ 0) = true := by decide
    simp [Timsort, List.mergeSort, List.splitInTwo_fst, List.splitInTwo_snd,
      List.cons_merge_cons, h1, h2, h3, h4, h5]
  · have h1 : decide (VAETComparator bobName bobColor ≤ 0) = true := by decide
    have h2 : decide (VAETComparator sueName sueColor ≤ 0) = true := by decide
    have h3 : decide (VAETComparator bobName sueName ≤ 0) = true := by decide
    have h4 : decide (VAETComparator bobColor sueName ≤ 0) = false := by decide
    have h5 : decide (VAETComparator bobColor sueColor ≤ 0) = false := by decide
    simp [Timsort, List.mergeSort, List.splitInTwo_fst, List.splitInTwo_snd,
      List.cons_merge_cons, h1, h2, h3, h4, h5]

theorem compareChars_eq_zero : ∀ a b : List Char, compareChars a b = 0 ↔ a = b := by
  intro a
  induction a with
  | nil =>
    intro b
    cases b <;> simp [compareChars]
  | cons x xs ih =>
    intro b
    cases b with
    | nil => simp [compareChars]
    | cons y ys =>
      simp only [compareChars, List.cons.injEq]
      by_cases h1 : x.toNat < y.toNat
      · have hne : x ≠ y := fun h => by rw [h] at h1; exact Nat.lt_irrefl _ h1
        simp [h1, hne]
      · by_cases h2 : y.toNat < x.toNat
        · have hne : x ≠ y := fun h => by rw [h] at h2; exact Nat.lt_irrefl _ h2
          simp [h1, h2, hne]
        · have heq : x = y :=
            Char.eq_of_val_eq (UInt32.ext (Nat.le_antisymm (Nat.not_lt.1 h2) (Nat.not_lt.1 h1)))
          subst heq
          simp only [Nat.lt_irrefl, if_false, true_and]
          exact ih ys

theorem stringCompare_eq_zero (a b : String) : stringCompare a b = 0 ↔ a = b := by
  unfold stringCompare
  rw [compareChars_eq_zero]
  constructor
  · intro h
    cases a
    cases b
    exact congrArg String.mk h
  · intro h
    rw [h]

theorem identCompare_eq_zero (a b : Ident) : identCompare a b = 0 ↔ a = b := by
  cases a with
  | mk d n =>
    cases b with
    | mk d' n' =>
      simp only [identCompare, Ident.mk.injEq]
      by_cases h : stringCompare d d' = 0
      · rw [if_neg (by simpa using h), stringCompare_eq_zero]
        simp [(stringCompare_eq_zero d d').1 h]
      · rw [if_pos h]
        have hne : ¬ d = d' := fun e => h ((stringCompare_eq_zero d d').2 e)
        simp [h, hne]

theorem intCompare_lawful : LawfulCompare intCompare := by
  constructor
  · intro a b
    unfold intCompare
    split_ifs <;> omega
  · intro a b d
    unfold intCompare
    split_ifs <;> omega

theorem intCompare_eq_zero (a b : Int) : intCompare a b = 0 ↔ a = b := by
  unfold intCompare
  by_cases h1 : a < b
  · have hne : ¬ a = b := by omega
    simp [h1, hne]
  · by_cases h2 : b < a
    · have hne : ¬ a = b := by omega
      simp [h1, h2, hne]
    · have heq : a = b := by omega
      simp [heq]

theorem TimeComparator_lawful : LawfulCompare TimeComparator :=
  LawfulCompare_lex (fun a b : Fact => intCompare a.Time b.Time)
    (fun a b : Fact => intCompare a.Transaction b.Transaction)
    (LawfulCompare_comap Fact.Time intCompare intCompare_lawful)
    (LawfulCompare_comap (fun f : Fact => (f.Transaction : Int)) intCompare intCompare_lawful)

theorem TimeComparator_eq_zero (a b : Fact) :
    TimeComparator a b = 0 ↔ a.Time = b.Time ∧ a.Transaction = b.Transaction := by
  unfold TimeComparator
  by_cases h : intCompare a.Time b.Time = 0
  · rw [if_neg (by simpa using h), intCompare_eq_zero]
    have := (intCompare_eq_zero _ _).1 h
    constructor
    · intro h2
      exact ⟨this, by exact_mod_cast h2⟩
    · intro h2
      exact_mod_cast h2.2
  · rw [if_pos h]
    have hne : ¬ a.Time = b.Time := fun e => h ((intCompare_eq_zero _ _).2 e)
    simp [h, hne]

theorem chainComparators_lawful (cs : List Comparator) (h : ∀ c, c ∈ cs → LawfulCompare c) :
    LawfulCompare (chainComparators cs) := by
  induction cs with
  | nil => exact ⟨fun _ _ => rfl, fun _ _ _ _ _ => Int.le_refl 0⟩
  | cons c cs ih =>
    exact LawfulCompare_lex c (chainComparators cs) (h c (List.mem_cons_self _ _))
      (ih fun c' hc' => h c' (List.mem_cons_of_mem _ hc'))

theorem chainComparators_eq_zero (cs : List Comparator) (a b : Fact) :
    chainComparators cs a b = 0 ↔ ∀ c, c ∈ cs → c a b = 0 := by
  induction cs with
  | nil => simp [chainComparators]
  | cons c cs ih =>
    simp only [chainComparators, List.mem_cons, forall_eq_or_imp]
    by_cases h : c a b = 0
    · rw [if_neg (by simpa using h), ih]
      simp [h]
    · rw [if_pos h]
      simp [h]

theorem LawfulCompare_strict {α : Type} (c : α → α → Int) (h : LawfulCompare c) (a b d : α)
    (hab : c a b < 0) (hbd : c b d < 0) : c a d < 0 := by
  obtain ⟨hn, ht⟩ := h
  have h1 := ht a b d (by omega) (by omega)
  by_contra hcon
  have h0 : c a d = 0 := by omega
  have h2 := ht d a b (by have := hn a d; omega) (by omega)
  have := hn b d
  omega

theorem atomic_comparators_lawful :
    LawfulCompare EntityComparator ∧ LawfulCompare AttributeComparator ∧
      LawfulCompare ValueComparator ∧ LawfulCompare TimeComparator :=
  ⟨LawfulCompare_comap Fact.Entity identCompare identCompare_lawful,
    LawfulCompare_comap Fact.Attribute identCompare identCompare_lawful,
    LawfulCompare_comap Fact.Value identCompare identCompare_lawful, TimeComparator_lawful⟩

theorem chain_totalOrderOnKey (cs : List Comparator)
    (hl : ∀ c, c ∈ cs → LawfulCompare c)
    (hz : ∀ a b, (∀ c, c ∈ cs → c a b = 0) ↔
      (a.Entity = b.Entity ∧ a.Attribute = b.Attribute ∧ a.Value = b.Value ∧
        a.Time = b.Time ∧ a.Transaction = b.Transaction)) :
    (chainComparators cs).IsTotalOrderOnKey := by
  have hlaw := chainComparators_lawful cs hl
  exact ⟨fun a b => (chainComparators_eq_zero cs a b).trans (hz a b), hlaw.1, hlaw.2,
    LawfulCompare_strict _ hlaw⟩

/-- C22 (counterexample). `bobName` and its retraction differ in `added` and in
nothing else, and each of the four composed comparators returns equal on
them. -/
theorem composed_comparators_tie_on_added :
    bobName ≠ bobNameAdded ∧ EAVTComparator bobName bobNameAdded = 0 ∧
      AVETComparator bobName bobNameAdded = 0 ∧ AEVTComparator bobName bobNameAdded = 0 ∧
      VAETComparator bobName bobNameAdded = 0 := by
  decide

/-- C22 (amended). Each of EAVT, AVET, AEVT and VAET returns equal on two
facts exactly when they agree on entity, attribute, value, time and
transaction (`added` is not compared); `C(a, b) = -C(b, a)`, and `C` is
transitive, both as `C <= 0` and as `C < 0`. -/
theorem composed_comparators_total_order :
    EAVTComparator.IsTotalOrderOnKey ∧ AVETComparator.IsTotalOrderOnKey ∧
      AEVTComparator.IsTotalOrderOnKey ∧ VAETComparator.IsTotalOrderOnKey := by
  obtain ⟨hE, hA, hV, hT⟩ := atomic_comparators_lawful
  have hEz : ∀ a b, EntityComparator a b = 0 ↔ a.Entity = b.Entity :=
    fun a b => identCompare_eq_zero _ _
  have hAz : ∀ a b, AttributeComparator a b = 0 ↔ a.Attribute = b.Attribute :=
    fun a b => identCompare_eq_zero _ _
  have hVz : ∀ a b, ValueComparator a b = 0 ↔ a.Value = b.Value :=
    fun a b => identCompare_eq_zero _ _
  refine ⟨chain_totalOrderOnKey _ ?_ ?_, chain_totalOrderOnKey _ ?_ ?_,
    chain_totalOrderOnKey _ ?_ ?_, chain_totalOrderOnKey _ ?_ ?_⟩
  all_goals first
    | (intro c hc
       simp only [List.mem_cons, List.mem_singleton, List.not_mem_nil, or_false] at hc
       rcases hc with rfl | rfl | rfl | rfl <;> assumption)
    | (intro a b
       simp only [List.mem_cons, List.mem_singleton, List.not_mem_nil, or_false,
         forall_eq_or_imp, forall_eq, hEz, hAz, hVz, TimeComparator_eq_zero]
       try tauto)

/-! ## The log iterator -/

namespace View

theorem logIter_drain_congr (e : Engine) (c : Codec) (n : Nat) (li li' : logIter)
    (h : logIter.Next e c li = logIter.Next e c li') :
    logIter.drain e c n li = logIter.drain e c n li' := by
  cases n with
  | zero => rfl
  | succ n => rw [logIter.drain, logIter.drain, h]

theorem logIter_drain_mono (e : Engine) (c : Codec) (n : Nat) :
    ∀ (k : Nat) (li : logIter) (r : List Fact × Outcome (Option Error × logIter)),
    logIter.drain e c n li = some r → logIter.drain e c (n + k) li = some r := by
  induction n with
  | zero => intro k li r h; cases h
  | succ n ih =>
    intro k li r h
    rw [Nat.add_right_comm, logIter.drain]
    rw [logIter.drain] at h
    cases hN : logIter.Next e c li with
    | panics msg => rw [hN] at h; exact h
    | returns a =>
      obtain ⟨⟨fact, err⟩, li'⟩ := a
      rw [hN] at h
      cases fact with
      | none => exact h
      | some fact =>
        simp only [] at h ⊢
        cases hd : logIter.drain e c n li' with
        | none => rw [hd] at h; cases h
        | some r' =>
          rw [hd] at h
          rw [ih k li' r' hd]
          exact h

theorem logIter_Next_in_block (e : Engine) (c : Codec) (li : logIter) (blk : List Fact)
    (f : Fact) (hd : li.done = false) (hb : li.block = some blk)
    (hf : blk[li.bpos]? = some f) :
    logIter.Next e c li = .returns ((some f, none), { li with bpos := li.bpos + 1 }) := by
  have hlt : li.bpos < blk.length := by
    rcases Nat.lt_or_ge li.bpos blk.length with h | h
    · exact h
    · rw [List.getElem?_eq_none h] at hf; cases hf
  simp [logIter.Next, logIter.nextBlock, hd, hb, hlt, hf]

theorem logIter_Next_load_block (e : Engine) (c : Codec) (li : logIter) (seg : segment)
    (f : Fact) (fs : List Fact) (hd : li.done = false) (hs : li.segment = some seg)
    (hx : li.block.any (fun block => li.bpos < block.length) = false)
    (hi : li.bindex ≠ seg.Blocks)
    (hl : loadBlock e c seg.Domain seg.ID li.bindex = .ok (some (f :: fs))) :
    logIter.Next e c li = .returns ((some f, none),
      { li with block := some (f :: fs), bpos := 1, bindex := li.bindex + 1 }) := by
  simp [logIter.Next, logIter.nextBlock, hd, hs, hx, hi, hl]

theorem logIter_Next_load_segment (e : Engine) (c : Codec) (li : logIter) (seg : segment)
    (hd : li.done = false)
    (hx : li.block.any (fun block => li.bpos < block.length) = false)
    (hi : li.segment.all (fun s => li.bindex = s.Blocks) = true)
    (hl : loadSegment e c li.domain
      (match li.segment with
        | none => li.head
        | some s => s.Next) = .ok (some seg))
    (hb : seg.Blocks ≠ 0) :
    logIter.Next e c li = logIter.Next e c
      { li with segment := some seg, bindex := 0, block := none, bpos := 0 } := by
  have hb' : ¬ (0 = seg.Blocks) := fun h => hb h.symm
  simp [logIter.Next, logIter.nextBlock, logIter.nextSegment, hd, hx, hi, hl, hb']

theorem logIter_Next_chain_end (e : Engine) (c : Codec) (li : logIter)
    (hd : li.done = false)
    (hx : li.block.any (fun block => li.bpos < block.length) = false)
    (hi : li.segment.all (fun s => li.bindex = s.Blocks) = true)
    (hl : loadSegment e c li.domain
      (match li.segment with
        | none => li.head
        | some s => s.Next) = .ok none) :
    logIter.Next e c li = .returns ((none, none),
      { li with segment := none, bindex := 0, block := none, bpos := 0, done := true }) := by
  simp [logIter.Next, logIter.nextBlock, logIter.nextSegment, hd, hx, hi, hl]

theorem logIter_drain_block (e : Engine) (c : Codec) (blk : List Fact) (k : Nat) :
    ∀ (li : logIter) (fuel : Nat) (rest : List Fact) (out : Outcome (Option Error × logIter)),
    li.done = false → li.block = some blk → li.bpos + k = blk.length →
    logIter.drain e c fuel { li with bpos := blk.length } = some (rest, out) →
    logIter.drain e c (fuel + k) li = some (blk.drop li.bpos ++ rest, out) := by
  induction k with
  | zero =>
    intro li fuel rest out _ _ hp h
    have hli : { li with bpos := blk.length } = li := by
      cases li; simp only [Nat.add_zero] at hp; simp [hp]
    rw [hli] at h
    simp only [Nat.add_zero] at hp
    rw [Nat.add_zero, h, hp, List.drop_length, List.nil_append]
  | succ k ih =>
    intro li fuel rest out hd hb hp h
    have hlt : li.bpos < blk.length := by omega
    have hf : blk[li.bpos]? = some (blk.get ⟨li.bpos, hlt⟩) := List.getElem?_eq_getElem hlt
    have h1 := ih { li with bpos := li.bpos + 1 } fuel rest out hd hb
      (by simp only; omega) h
    rw [← Nat.add_assoc, logIter.drain, logIter_Next_in_block e c li blk _ hd hb hf]
    simp only []
    rw [h1]
    simp only [Option.map_some', Option.some.injEq, Prod.mk.injEq, and_true]
    rw [← List.cons_append]
    congr 1
    exact (List.drop_eq_getElem_cons hlt).symm

theorem logIter_drain_segment (e : Engine) (c : Codec) (seg : segment)
    (P : Outcome (Option Error × logIter) → Prop) (bs : List (List Fact)) :
    ∀ (i : Nat) (li : logIter) (fuel : Nat) (rest : List Fact),
    li.done = false → li.segment = some seg →
    li.block.any (fun block => li.bpos < block.length) = false →
    li.bindex = i → BlocksPresent e c seg i bs → ((i + bs.length : Nat) : Int) = seg.Blocks →
    (∀ li' : logIter, li'.done = false → li'.segment = some seg →
      li'.block.any (fun block => li'.bpos < block.length) = false →
      li'.bindex = seg.Blocks → li'.domain = li.domain → li'.head = li.head →
      ∃ out, logIter.drain e c fuel li' = some (rest, out) ∧ P out) →
    ∃ out, logIter.drain e c (fuel + bs.flatten.length) li = some (bs.flatten ++ rest, out) ∧
      P out := by
  induction bs with
  | nil =>
    intro i li fuel rest hd hs hx hi _ hn hk
    simp only [List.length_nil, Nat.add_zero] at hn
    simpa using hk li hd hs hx (by rw [hi, hn]) rfl rfl
  | cons b bs ih =>
    intro i li fuel rest hd hs hx hi hB hn hk
    obtain ⟨hl, hne, hB'⟩ := hB
    obtain ⟨f, fs, rfl⟩ := List.exists_cons_of_ne_nil hne
    have hi' : li.bindex ≠ seg.Blocks := by
      rw [hi, ← hn]; simp only [List.length_cons]; push_cast; omega
    have hnext := logIter_Next_load_block e c li seg f fs hd hs hx hi' (by rw [hi]; exact hl)
    obtain ⟨out, htail, hP⟩ := ih (i + 1)
      { li with block := some (f :: fs), bpos := (f :: fs).length, bindex := li.bindex + 1 }
      fuel rest hd hs (by simp) (by simp only [hi]; push_cast; rfl) hB'
      (by rw [← hn]; simp only [List.length_cons]; push_cast; omega) hk
    have hblock := logIter_drain_block e c (f :: fs) fs.length
      { li with block := some (f :: fs), bpos := 1, bindex := li.bindex + 1 }
      (fuel + bs.flatten.length) (bs.flatten ++ rest) out hd rfl
      (by simp only [List.length_cons]; omega) htail
    have hfuel : fuel + ((f :: fs) :: bs).flatten.length =
        (fuel + bs.flatten.length + fs.length) + 1 := by
      simp only [List.flatten_cons, List.length_append, List.length_cons]; omega
    refine ⟨out, ?_, hP⟩
    rw [hfuel, logIter.drain, hnext]
    simp only []
    rw [hblock]
    simp

theorem logIter_drain_chain (e : Engine) (c : Codec) (d : String)
    (chain : List (segment × List (List Fact))) :
    ∀ (li : logIter), li.done = false →
    li.block.any (fun block => li.bpos < block.length) = false →
    li.segment.all (fun s => li.bindex = s.Blocks) = true → li.domain = d →
    Chain e c d
      (match li.segment with
        | none => li.head
        | some s => s.Next) chain →
    ∃ out, logIter.drain e c ((chain.map fun p => p.2.flatten).flatten.length + 1) li =
        some ((chain.map fun p => p.2.flatten).flatten, out) ∧
      ∃ li', out = .returns (none, li') ∧ li'.done = true := by
  induction chain with
  | nil =>
    intro li hd hx hi hdom hc
    have hl : loadSegment e c li.domain
        (match li.segment with
          | none => li.head
          | some s => s.Next) = .ok none := by rw [hdom]; exact hc
    refine ⟨.returns (none,
      { li with segment := none, bindex := 0, block := none, bpos := 0, done := true }),
      ?_, _, rfl, rfl⟩
    simp only [List.map_nil, List.flatten_nil, List.length_nil, Nat.zero_add]
    rw [logIter.drain, logIter_Next_chain_end e c li hd hx hi hl]
  | cons p chain ih =>
    intro li hd hx hi hdom hc
    obtain ⟨seg, blocks⟩ := p
    obtain ⟨hl, hn, hpos, hB, hrest⟩ := hc
    have hb : seg.Blocks ≠ 0 := by rw [hn]; exact_mod_cast Nat.ne_of_gt hpos
    have hnext := logIter_Next_load_segment e c li seg hd hx hi (by rw [hdom]; exact hl) hb
    have hseg := logIter_drain_segment e c seg
      (fun out => ∃ li', out = .returns (none, li') ∧ li'.done = true) blocks 0
      { li with segment := some seg, bindex := 0, block := none, bpos := 0 }
      ((chain.map fun p => p.2.flatten).flatten.length + 1)
      ((chain.map fun p => p.2.flatten).flatten) hd rfl rfl rfl hB
      (by rw [hn]; simp)
      (by
        intro li' hd' hs' hx' hi' hdom' _
        exact ih li' hd' hx' (by rw [hs']; simpa using hi') (by rw [hdom']; exact hdom)
          (by rw [hs']; exact hrest))
    obtain ⟨out, hdrain, hP⟩ := hseg
    refine ⟨out, ?_, hP⟩
    rw [logIter_drain_congr e c _ _ _ hnext]
    simp only [List.map_cons, List.flatten_cons, List.length_append]
    have harith : blocks.flatten.length + (chain.map fun p => p.2.flatten).flatten.length + 1 =
        (chain.map fun p => p.2.flatten).flatten.length + 1 + blocks.flatten.length := by omega
    rw [harith]
    exact hdrain

/-- C1. In a store where the segment chain of the log's domain starting at
`head` is finite, ends at a segment whose next id has no segment header, and
every segment on it has `blocks >= 1` with all blocks `0 .. blocks-1` present
and non-empty, successive calls of `logIter.Next` on a fresh iterator yield
exactly the concatenation of the blocks' facts in chain order, within a
segment in increasing block index and within a block in stored position order,
and then return end-of-stream with no error (and `done` set). -/
theorem logIter_order (e : Engine) (c : Codec) (l : Log)
    (chain : List (segment × List (List Fact))) (fuel : Nat)
    (hchain : Chain e c l.Domain l.head chain)
    (hfuel : (chain.map fun p => p.2.flatten).flatten.length < fuel) :
    ∃ li', logIter.drain e c fuel l.Iter =
        some ((chain.map fun p => p.2.flatten).flatten, .returns (none, li')) ∧
      li'.done = true := by
  obtain ⟨out, hdrain, li', rfl, hdone⟩ := logIter_drain_chain e c l.Domain chain l.Iter rfl rfl
    rfl rfl hchain
  obtain ⟨k, rfl⟩ : ∃ k, fuel = (chain.map fun p => p.2.flatten).flatten.length + 1 + k :=
    ⟨fuel - ((chain.map fun p => p.2.flatten).flatten.length + 1), by omega⟩
  exact ⟨li', logIter_drain_mono e c _ k _ _ hdrain, hdone⟩

/-- Witness of C1, the spec's scenario: `head = 3`, segment 3 with
`blocks = 2, next = 0` and blocks `[bobName, bobColor]`, `[sueName, sueColor]`
yields the four facts in that order and then end-of-stream. -/
theorem logIter_order_witness :
    ∃ li', logIter.drain exampleEngine exampleCodec 5 (Log.Iter ⟨"commits", "people", 3⟩) =
        some (([(exampleSegment, [[bobName, bobColor], [sueName, sueColor]])].map
          fun p => p.2.flatten).flatten, .returns (none, li')) ∧
      li'.done = true :=
  logIter_order exampleEngine exampleCodec ⟨"commits", "people", 3⟩
    [(exampleSegment, [[bobName, bobColor], [sueName, sueColor]])] 5
    ⟨rfl, rfl, by decide, ⟨rfl, by decide, rfl, by decide, trivial⟩, rfl⟩ (by decide)

/-- C16. Once `logIter.Next` has returned end-of-stream without error, `done`
is set, and every later call, whatever store and decoders it is given, returns
end-of-stream without error and leaves the iterator as it is. As the result is
the same for every store, including one whose every lookup fails, no store
lookup takes part in it. -/
theorem logIter_exhaustion_sticky (e : Engine) (c : Codec) (li li' : logIter)
    (h : logIter.Next e c li = .returns ((none, none), li')) :
    li'.done = true ∧
      ∀ (e' : Engine) (c' : Codec), logIter.Next e' c' li' = .returns ((none, none), li') := by
  have hdone : li'.done = true := by
    unfold logIter.Next at h
    split at h
    · cases h
    · cases h
    · split at h
      · rename_i hd
        cases h
        exact hd
      · split at h <;> cases h
  refine ⟨hdone, fun e' c' => ?_⟩
  simp [logIter.Next, logIter.nextBlock, hdone]

/-- Witness of C16: the iterator of the empty store is exhausted by its first
call, and stays so on the store of the spec's scenario. -/
theorem logIter_exhaustion_sticky_witness :
    (⟨"", "people", 3, none, none, 0, 0, true⟩ : logIter).done = true ∧
      ∀ (e' : Engine) (c' : Codec),
        logIter.Next e' c' ⟨"", "people", 3, none, none, 0, 0, true⟩ =
          .returns ((none, none), ⟨"", "people", 3, none, none, 0, 0, true⟩) :=
  logIter_exhaustion_sticky emptyEngine exampleCodec (Log.Iter ⟨"commits", "people", 3⟩)
    ⟨"", "people", 3, none, none, 0, 0, true⟩ (by decide)

/-- C18 (counterexample). On a store that holds no record under key `commits`
of partition `people`, `OpenLog` returns no log and no error, not a
`DoesNotExist` error. -/
theorem OpenLog_absent_no_error :
    emptyEngine.Get "people" "commits" = .ok none ∧
      OpenLog emptyEngine exampleCodec "people" "commits" = .ok none :=
  ⟨rfl, rfl⟩

/-- C18 (amended). When the engine holds no record under key `n` of partition
`d`, `OpenLog(e, d, n)` returns no log and no error: absence is signalled by
the `nil` log. When the record is present and the decoder sets the head `h` in
the log pre-filled with the name and the domain, `OpenLog` returns the log with
that name, that domain and head `h`, and no error. -/
theorem OpenLog_absent_or_decoded (e : Engine) (c : Codec) (d n : String) :
    (e.Get d n = .ok none → OpenLog e c d n = .ok none) ∧
    (∀ b h, e.Get d n = .ok (some b) →
      c.unmarshalLog b { Name := n, Domain := d, head := 0 } =
        .ok { Name := n, Domain := d, head := h } →
      OpenLog e c d n = .ok (some { Name := n, Domain := d, head := h })) := by
  constructor
  · intro hget
    simp [OpenLog, hget]
  · intro b h hget hdec
    simp [OpenLog, hget, hdec]

/-- Witness of the second half of C18: the log `commits` of the example store
has head 3. -/
theorem OpenLog_absent_or_decoded_witness :
    OpenLog exampleEngine exampleCodec "people" "commits" =
      .ok (some { Name := "commits", Domain := "people", head := 3 }) :=
  (OpenLog_absent_or_decoded exampleEngine exampleCodec "people" "commits").2 [3] 3 rfl rfl

theorem logIter_Next_missing_block (e : Engine) (c : Codec) (li : logIter) (seg : segment)
    (hd : li.done = false) (hs : li.segment = some seg)
    (hx : li.block.any (fun block => li.bpos < block.length) = false)
    (hi : li.bindex ≠ seg.Blocks)
    (hl : loadBlock e c seg.Domain seg.ID li.bindex = .ok none) :
    logIter.Next e c li = .returns ((none, none), { li with done := true }) := by
  simp [logIter.Next, logIter.nextBlock, hd, hs, hx, hi, hl]

theorem logIter_drain_blocks (e : Engine) (c : Codec) (seg : segment)
    (P : Outcome (Option Error × logIter) → Prop) (bs : List (List Fact)) :
    ∀ (i : Nat) (li : logIter) (fuel : Nat) (rest : List Fact),
    li.done = false → li.segment = some seg →
    li.block.any (fun block => li.bpos < block.length) = false →
    li.bindex = i → BlocksPresent e c seg i bs →
    (∀ j : Nat, i ≤ j → j < i + bs.length → (j : Int) ≠ seg.Blocks) →
    (∀ li' : logIter, li'.done = false → li'.segment = some seg →
      li'.block.any (fun block => li'.bpos < block.length) = false →
      li'.bindex = ((i + bs.length : Nat) : Int) → li'.domain = li.domain →
      li'.head = li.head →
      ∃ out, logIter.drain e c fuel li' = some (rest, out) ∧ P out) →
    ∃ out, logIter.drain e c (fuel + bs.flatten.length) li = some (bs.flatten ++ rest, out) ∧
      P out := by
  induction bs with
  | nil =>
    intro i li fuel rest hd hs hx hi _ _ hk
    simpa using hk li hd hs hx (by simpa using hi) rfl rfl
  | cons b bs ih =>
    intro i li fuel rest hd hs hx hi hB hn hk
    obtain ⟨hl, hne, hB'⟩ := hB
    obtain ⟨f, fs, rfl⟩ := List.exists_cons_of_ne_nil hne
    have hi' : li.bindex ≠ seg.Blocks := by
      rw [hi]; exact hn i (Nat.le_refl i) (by simp only [List.length_cons]; omega)
    have hnext := logIter_Next_load_block e c li seg f fs hd hs hx hi' (by rw [hi]; exact hl)
    obtain ⟨out, htail, hP⟩ := ih (i + 1)
      { li with block := some (f :: fs), bpos := (f :: fs).length, bindex := li.bindex + 1 }
      fuel rest hd hs (by simp) (by simp only [hi]; push_cast; rfl) hB'
      (fun j h1 h2 => hn j (by omega) (by simp only [List.length_cons]; omega))
      (fun li' h1 h2 h3 h4 h5 h6 => hk li' h1 h2 h3
        (by rw [h4]; simp only [List.length_cons]; push_cast; omega) h5 h6)
    have hblock := logIter_drain_block e c (f :: fs) fs.length
      { li with block := some (f :: fs), bpos := 1, bindex := li.bindex + 1 }
      (fuel + bs.flatten.length) (bs.flatten ++ rest) out hd rfl
      (by simp only [List.length_cons]; omega) htail
    have hfuel : fuel + ((f :: fs) :: bs).flatten.length =
        (fuel + bs.flatten.length + fs.length) + 1 := by
      simp only [List.flatten_cons, List.length_append, List.length_cons]; omega
    refine ⟨out, ?_, hP⟩
    rw [hfuel, logIter.drain, hnext]
    simp only []
    rw [hblock]
    simp

theorem logIter_drain_segments (e : Engine) (c : Codec) (d : String) (id' : Nat)
    (P : Outcome (Option Error × logIter) → Prop) (fuel : Nat) (rest : List Fact)
    (segs : List (segment × List (List Fact))) :
    ∀ (li : logIter), li.done = false →
    li.block.any (fun block => li.bpos < block.length) = false →
    li.segment.all (fun s => li.bindex = s.Blocks) = true → li.domain = d →
    Segments e c d
      (match li.segment with
        | none => li.head
        | some s => s.Next) segs id' →
    (∀ li' : logIter, li'.done = false →
      li'.block.any (fun block => li'.bpos < block.length) = false →
      li'.segment.all (fun s => li'.bindex = s.Blocks) = true → li'.domain = d →
      (match li'.segment with
        | none => li'.head
        | some s => s.Next) = id' →
      ∃ out, logIter.drain e c fuel li' = some (rest, out) ∧ P out) →
    ∃ out, logIter.drain e c (fuel + (segs.map fun p => p.2.flatten).flatten.length) li =
        some ((segs.map fun p => p.2.flatten).flatten ++ rest, out) ∧ P out := by
  induction segs with
  | nil =>
    intro li hd hx hi hdom hc hk
    simpa using hk li hd hx hi hdom hc
  | cons p segs ih =>
    intro li hd hx hi hdom hc hk
    obtain ⟨seg, blocks⟩ := p
    obtain ⟨hl, hn, hpos, hB, hrest⟩ := hc
    have hb : seg.Blocks ≠ 0 := by rw [hn]; exact_mod_cast Nat.ne_of_gt hpos
    have hnext := logIter_Next_load_segment e c li seg hd hx hi (by rw [hdom]; exact hl) hb
    have hseg := logIter_drain_segment e c seg P blocks 0
      { li with segment := some seg, bindex := 0, block := none, bpos := 0 }
      (fuel + (segs.map fun p => p.2.flatten).flatten.length)
      ((segs.map fun p => p.2.flatten).flatten ++ rest) hd rfl rfl rfl hB
      (by rw [hn]; simp)
      (by
        intro li' hd' hs' hx' hi' hdom' _
        exact ih li' hd' hx' (by rw [hs']; simpa using hi') (by rw [hdom']; exact hdom)
          (by rw [hs']; exact hrest) hk)
    obtain ⟨out, hdrain, hP⟩ := hseg
    refine ⟨out, ?_, hP⟩
    rw [logIter_drain_congr e c _ _ _ hnext]
    simp only [List.map_cons, List.flatten_cons, List.length_append, List.append_assoc]
    have harith : fuel + (blocks.flatten.length + (segs.map fun p => p.2.flatten).flatten.length) =
        fuel + (segs.map fun p => p.2.flatten).flatten.length + blocks.flatten.length := by omega
    rw [harith]
    exact hdrain

/-- C15. When, after the complete segments `pre` of the chain from `head`, the
iterator is in a segment whose blocks `0 .. k-1` are present and non-empty and
whose block `k < blocks`, the one it must load next, is absent from the store,
successive calls of `logIter.Next` on a fresh iterator yield exactly the facts
of the blocks before the absent one and then return end-of-stream with no
error; `done` is then set, so that every later call, on any store, returns
end-of-stream: no fact of a later block or later segment is ever emitted. -/
theorem logIter_missing_block (e : Engine) (c : Codec) (l : Log)
    (pre : List (segment × List (List Fact))) (id : Nat) (seg : segment)
    (blocks : List (List Fact)) (fuel : Nat)
    (hpre : Segments e c l.Domain l.head pre id)
    (hseg : loadSegment e c l.Domain id = .ok (some seg))
    (hblocks : BlocksPresent e c seg 0 blocks)
    (hlt : (blocks.length : Int) < seg.Blocks)
    (hmiss : loadBlock e c seg.Domain seg.ID blocks.length = .ok none)
    (hfuel : ((pre.map fun p => p.2.flatten).flatten ++ blocks.flatten).length < fuel) :
    ∃ li', logIter.drain e c fuel l.Iter =
        some ((pre.map fun p => p.2.flatten).flatten ++ blocks.flatten,
          .returns (none, li')) ∧
      li'.done = true ∧
      ∀ (e' : Engine) (c' : Codec), logIter.Next e' c' li' = .returns ((none, none), li') := by
  have hmain := logIter_drain_segments e c l.Domain id
    (fun out => ∃ li', out = .returns (none, li') ∧ li'.done = true)
    (1 + blocks.flatten.length) blocks.flatten pre l.Iter rfl rfl rfl rfl hpre
    (by
      intro li hd hx hi hdom hid
      have hb : seg.Blocks ≠ 0 := by omega
      have hnext := logIter_Next_load_segment e c li seg hd hx hi
        (by rw [hdom, hid]; exact hseg) hb
      rw [logIter_drain_congr e c _ _ _ hnext]
      have := logIter_drain_blocks e c seg
        (fun out => ∃ li', out = .returns (none, li') ∧ li'.done = true) blocks 0
        { li with segment := some seg, bindex := 0, block := none, bpos := 0 } 1 []
        hd rfl rfl rfl hblocks (fun j _ hj => by omega)
        (by
          intro li' hd' hs' hx' hi' _ _
          have hne : li'.bindex ≠ seg.Blocks := by rw [hi']; push_cast; omega
          refine ⟨.returns (none, { li' with done := true }), ?_, _, rfl, rfl⟩
          rw [logIter.drain, logIter_Next_missing_block e c li' seg hd' hs' hx' hne
            (by rw [hi']; simpa using hmiss)])
      simpa using this)
  obtain ⟨out, hdrain, li', rfl, hdone⟩ := hmain
  obtain ⟨k, rfl⟩ : ∃ k, fuel = 1 + blocks.flatten.length +
      (pre.map fun p => p.2.flatten).flatten.length + k :=
    ⟨fuel - (1 + blocks.flatten.length + (pre.map fun p => p.2.flatten).flatten.length), by
      simp only [List.length_append] at hfuel; omega⟩
  refine ⟨li', logIter_drain_mono e c _ k _ _ hdrain, hdone, fun e' c' => ?_⟩
  simp [logIter.Next, logIter.nextBlock, hdone]

/-- Witness of C15, the spec's scenario: `head = 3`, segment 3 with
`blocks = 2` and block 1 absent yields `bobName`, `bobColor` and then
end-of-stream. -/
theorem logIter_missing_block_witness :
    ∃ li', logIter.drain missingBlockEngine exampleCodec 3
        (Log.Iter ⟨"commits", "people", 3⟩) =
        some ((([] : List (segment × List (List Fact))).map fun p => p.2.flatten).flatten ++
          [[bobName, bobColor]].flatten, .returns (none, li')) ∧
      li'.done = true ∧
      ∀ (e' : Engine) (c' : Codec), logIter.Next e' c' li' = .returns ((none, none), li') :=
  logIter_missing_block missingBlockEngine exampleCodec ⟨"commits", "people", 3⟩ [] 3
    exampleSegment [[bobName, bobColor]] 3 rfl rfl ⟨rfl, by decide, trivial⟩ (by decide) rfl
    (by decide)

theorem logIter_Next_first_block (e : Engine) (c : Codec) (li : logIter) (seg : segment)
    (f : Fact) (fs : List Fact) (hd : li.done = false)
    (hx : li.block.any (fun block => li.bpos < block.length) = false)
    (hi : li.segment.all (fun s => li.bindex = s.Blocks) = true)
    (hl : loadSegment e c li.domain
      (match li.segment with
        | none => li.head
        | some s => s.Next) = .ok (some seg))
    (hb : loadBlock e c seg.Domain seg.ID 0 = .ok (some (f :: fs))) :
    logIter.Next e c li = .returns ((some f, none),
      { li with segment := some seg, block := some (f :: fs), bpos := 1, bindex := 1 }) := by
  simp [logIter.Next, logIter.nextBlock, logIter.nextSegment, hd, hx, hi, hl, hb]

theorem Walking_step (e : Engine) (c : Codec) (d : String) (G : segment → Prop)
    (hG : ClosedUnderNext e c d G) (li : logIter) (hW : Walking e c d G li) :
    ∃ f li', logIter.Next e c li = .returns ((some f, none), li') ∧ Walking e c d G li' := by
  obtain ⟨hd, hdom, hseg⟩ := hW
  have hfirst : ∀ seg', G seg' →
      ∃ f fs, loadBlock e c seg'.Domain seg'.ID 0 = .ok (some (f :: fs)) := by
    intro seg' hg
    obtain ⟨h1, h2, _⟩ := hG seg' hg
    exact h2 0 (by omega)
  by_cases hx : li.block.any (fun block => li.bpos < block.length) = true
  · cases hblk : li.block with
    | none => rw [hblk] at hx; simp at hx
    | some blk =>
      rw [hblk] at hx
      have hlt : li.bpos < blk.length := by simpa using hx
      have hf : blk[li.bpos]? = some (blk.get ⟨li.bpos, hlt⟩) := List.getElem?_eq_getElem hlt
      refine ⟨_, _, logIter_Next_in_block e c li blk _ hd hblk hf, hd, hdom, ?_⟩
      cases hs : li.segment with
      | none => rw [hs] at hseg; rw [hseg.1] at hblk; cases hblk
      | some seg => rw [hs] at hseg; exact hseg
  · have hx' : li.block.any (fun block => li.bpos < block.length) = false := by
      simpa using hx
    cases hs : li.segment with
    | none =>
      rw [hs] at hseg
      obtain ⟨_, seg', hload, hg⟩ := hseg
      obtain ⟨f, fs, hb⟩ := hfirst seg' hg
      have hone : 1 ≤ seg'.Blocks := (hG seg' hg).1
      refine ⟨f, _, logIter_Next_first_block e c li seg' f fs hd hx' (by rw [hs]; rfl)
        (by rw [hs, hdom]; exact hload) hb, hd, hdom, ?_⟩
      exact ⟨hg, by simp, hone⟩
    | some seg =>
      rw [hs] at hseg
      obtain ⟨hg, h0, hle⟩ := hseg
      by_cases hb : li.bindex = seg.Blocks
      · obtain ⟨_, _, seg', hload, hg'⟩ := hG seg hg
        obtain ⟨f, fs, hb0⟩ := hfirst seg' hg'
        have hone : 1 ≤ seg'.Blocks := (hG seg' hg').1
        refine ⟨f, _, logIter_Next_first_block e c li seg' f fs hd hx'
          (by rw [hs]; simpa using hb) (by rw [hs, hdom]; exact hload) hb0, hd, hdom, ?_⟩
        exact ⟨hg', by simp, hone⟩
      · obtain ⟨i, hi⟩ := Int.eq_ofNat_of_zero_le h0
        obtain ⟨f, fs, hbi⟩ := (hG seg hg).2.1 i (by omega)
        refine ⟨f, _, logIter_Next_load_block e c li seg f fs hd hs hx' hb
          (by rw [hi]; exact hbi), hd, hdom, ?_⟩
        simp only [hs]
        exact ⟨hg, by omega, by omega⟩

theorem logIter_drain_walking (e : Engine) (c : Codec) (d : String) (G : segment → Prop)
    (hG : ClosedUnderNext e c d G) (fuel : Nat) :
    ∀ li, Walking e c d G li → logIter.drain e c fuel li = none := by
  induction fuel with
  | zero => intro li _; rfl
  | succ fuel ih =>
    intro li hW
    obtain ⟨f, li', hnext, hW'⟩ := Walking_step e c d G hG li hW
    rw [logIter.drain, hnext]
    simp only []
    rw [ih li' hW']
    rfl

theorem BlocksPresent_get (e : Engine) (c : Codec) (seg : segment) (bs : List (List Fact)) :
    ∀ (i j : Nat), BlocksPresent e c seg i bs → i ≤ j → j < i + bs.length →
    ∃ f fs, loadBlock e c seg.Domain seg.ID j = .ok (some (f :: fs)) := by
  induction bs with
  | nil => intro i j _ h1 h2; simp only [List.length_nil] at h2; omega
  | cons b bs ih =>
    intro i j hB h1 h2
    obtain ⟨hl, hne, hB'⟩ := hB
    rcases Nat.eq_or_lt_of_le h1 with heq | hlt
    · obtain ⟨f, fs, rfl⟩ := List.exists_cons_of_ne_nil hne
      exact ⟨f, fs, by rw [← heq]; exact hl⟩
    · exact ih (i + 1) j hB' hlt (by simp only [List.length_cons] at h2; omega)

theorem Segments_head (e : Engine) (c : Codec) (d : String) (id id' : Nat)
    (segs : List (segment × List (List Fact))) (h : Segments e c d id segs id')
    (hne : segs ≠ []) :
    ∃ p, p ∈ segs ∧ loadSegment e c d id = .ok (some p.1) := by
  cases segs with
  | nil => exact absurd rfl hne
  | cons p rest => exact ⟨p, List.mem_cons_self _ _, h.1⟩

theorem Segments_mem (e : Engine) (c : Codec) (d : String) (id' : Nat)
    (segs : List (segment × List (List Fact))) :
    ∀ (id : Nat), Segments e c d id segs id' → ∀ p, p ∈ segs →
    1 ≤ p.1.Blocks ∧
      (∀ i : Nat, (i : Int) < p.1.Blocks →
        ∃ f fs, loadBlock e c p.1.Domain p.1.ID i = .ok (some (f :: fs))) ∧
      ((∃ q, q ∈ segs ∧ loadSegment e c d p.1.Next = .ok (some q.1)) ∨ p.1.Next = id') := by
  induction segs with
  | nil => intro id _ p hp; cases hp
  | cons q rest ih =>
    intro id h p hp
    obtain ⟨seg, blocks⟩ := q
    obtain ⟨_, hn, hpos, hB, hrest⟩ := h
    rcases List.mem_cons.1 hp with rfl | hmem
    · refine ⟨by rw [hn]; exact_mod_cast hpos, ?_, ?_⟩
      · intro i hi
        rw [hn] at hi
        exact BlocksPresent_get e c seg blocks 0 i hB (Nat.zero_le i) (by omega)
      · cases hrest' : rest with
        | nil =>
          rw [hrest'] at hrest
          exact Or.inr hrest
        | cons r rest' =>
          rw [hrest'] at hrest
          exact Or.inl ⟨r, by simp, hrest.1⟩
    · obtain ⟨h1, h2, h3⟩ := ih seg.Next hrest p hmem
      refine ⟨h1, h2, ?_⟩
      rcases h3 with ⟨q, hq, hload⟩ | hend
      · exact Or.inl ⟨q, List.mem_cons_of_mem _ hq, hload⟩
      · exact Or.inr hend

theorem Segments_cycle_closed (e : Engine) (c : Codec) (d : String) (head id : Nat)
    (pre cyc : List (segment × List (List Fact))) (hpre : Segments e c d head pre id)
    (hcyc : Segments e c d id cyc id) (hne : cyc ≠ []) :
    ClosedUnderNext e c d (fun seg => ∃ p, p ∈ pre ++ cyc ∧ p.1 = seg) ∧
      ∃ seg', loadSegment e c d head = .ok (some seg') ∧ ∃ p, p ∈ pre ++ cyc ∧ p.1 = seg' := by
  obtain ⟨p0, hp0, hload0⟩ := Segments_head e c d id id cyc hcyc hne
  constructor
  · rintro seg ⟨p, hp, rfl⟩
    rcases List.mem_append.1 hp with hin | hin
    · obtain ⟨h1, h2, h3⟩ := Segments_mem e c d id pre head hpre p hin
      refine ⟨h1, h2, ?_⟩
      rcases h3 with ⟨q, hq, hload⟩ | hend
      · exact ⟨q.1, hload, q, List.mem_append_left _ hq, rfl⟩
      · exact ⟨p0.1, by rw [hend]; exact hload0, p0, List.mem_append_right _ hp0, rfl⟩
    · obtain ⟨h1, h2, h3⟩ := Segments_mem e c d id cyc id hcyc p hin
      refine ⟨h1, h2, ?_⟩
      rcases h3 with ⟨q, hq, hload⟩ | hend
      · exact ⟨q.1, hload, q, List.mem_append_right _ hq, rfl⟩
      · exact ⟨p0.1, by rw [hend]; exact hload0, p0, List.mem_append_right _ hp0, rfl⟩
  · cases hpre' : pre with
    | nil =>
      rw [hpre'] at hpre
      have hid : head = id := hpre
      exact ⟨p0.1, by rw [hid]; exact hload0, p0, by simpa using hp0, rfl⟩
    | cons q rest =>
      rw [hpre'] at hpre
      exact ⟨q.1, hpre.1, q, by simp, rfl⟩

/-- C17 (counterexample). On the store `cycleEngine`, whose segment 3 has
`next = 3`, no number of `Next` calls makes the log iterator return anything
but a fact: draining never ends, neither in an error nor in end-of-stream. -/
theorem logIter_cycle_not_reported :
    ¬ ∃ fuel r, logIter.drain cycleEngine exampleCodec fuel
      (Log.Iter ⟨"commits", "people", 3⟩) = some r := by
  rintro ⟨fuel, r, h⟩
  have hG : ClosedUnderNext cycleEngine exampleCodec "people" (fun seg => seg = cycleSegment) := by
    rintro seg rfl
    refine ⟨by decide, ?_, cycleSegment, rfl, rfl⟩
    intro i hi
    have hi0 : i = 0 := by
      have : (i : Int) < 1 := hi
      omega
    subst hi0
    exact ⟨bobName, [], rfl⟩
  have hW : Walking cycleEngine exampleCodec "people" (fun seg => seg = cycleSegment)
      (Log.Iter ⟨"commits", "people", 3⟩) :=
    ⟨rfl, rfl, rfl, cycleSegment, rfl, rfl⟩
  rw [logIter_drain_walking cycleEngine exampleCodec "people" _ hG fuel _ hW] at h
  cases h

/-- C17 (amended). In a store in which the next chain starting at `head`
revisits a segment id (after the segments `pre` it reaches the id `id`, and
from `id` the segments `cyc` lead back to `id`), every segment on the chain
having `blocks >= 1` with all of its blocks present and non-empty, the log
iterator performs no cycle detection: every `Next` call returns a fact and no
error, so that draining does not end within any number of calls. -/
theorem logIter_cycle_never_ends (e : Engine) (c : Codec) (l : Log) (id : Nat)
    (pre cyc : List (segment × List (List Fact)))
    (hpre : Segments e c l.Domain l.head pre id) (hcyc : Segments e c l.Domain id cyc id)
    (hne : cyc ≠ []) :
    ∀ fuel, logIter.drain e c fuel l.Iter = none := by
  intro fuel
  obtain ⟨hG, seg', hload, hg⟩ := Segments_cycle_closed e c l.Domain l.head id pre cyc hpre hcyc
    hne
  exact logIter_drain_walking e c l.Domain _ hG fuel l.Iter ⟨rfl, rfl, rfl, seg', hload, hg⟩

/-- Witness of the amended C17: on the cycle of `cycleEngine`, a thousand calls
of `Next` do not end the draining. -/
theorem logIter_cycle_never_ends_witness :
    logIter.drain cycleEngine exampleCodec 1000 (Log.Iter ⟨"commits", "people", 3⟩) = none :=
  logIter_cycle_never_ends cycleEngine exampleCodec ⟨"commits", "people", 3⟩ 3 []
    [(cycleSegment, [[bobName]])] rfl ⟨rfl, rfl, by decide, ⟨rfl, by decide, trivial⟩, rfl⟩
    (by decide) 1000

/-- C23 (counterexample). On the store `zeroSegmentEngine`, once the only
block of segment 3 has been emitted and with that segment's `next` being 0, the
following `Next` call returns `sueName`, a fact of the segment stored under
`segment.0`, and does not set `done`. -/
theorem logIter_next_zero_continues :
    logIter.Next zeroSegmentEngine exampleCodec (Log.Iter ⟨"commits", "people", 3⟩) =
      .returns ((some bobName, none),
        ⟨"", "people", 3, some ⟨3, "people", 0, 1, 0, 0, 0, 0⟩, some [bobName], 1, 1, false⟩) ∧
    logIter.Next zeroSegmentEngine exampleCodec
        ⟨"", "people", 3, some ⟨3, "people", 0, 1, 0, 0, 0, 0⟩, some [bobName], 1, 1, false⟩ =
      .returns ((some sueName, none),
        ⟨"", "people", 3, some ⟨0, "people", 0, 1, 0, 0, 0, 9⟩, some [sueName], 1, 1, false⟩) := by
  decide

/-- C23 (amended). When all blocks of the current segment have been emitted,
that segment's `next` is 0 and the store holds no record under the key
`segment.0` of the iterator's domain, the following `Next` call sets `done` and
returns end-of-stream with no error. -/
theorem logIter_end_at_next_zero (e : Engine) (c : Codec) (li : logIter) (seg : segment)
    (hd : li.done = false) (hs : li.segment = some seg)
    (hx : li.block.any (fun block => li.bpos < block.length) = false)
    (hi : li.bindex = seg.Blocks) (hz : seg.Next = 0)
    (habs : e.Get li.domain "segment.0" = .ok none) :
    ∃ li', logIter.Next e c li = .returns ((none, none), li') ∧ li'.done = true := by
  have hkey : "segment." ++ toString (0 : Nat) = "segment.0" := by decide
  have hl : loadSegment e c li.domain
      (match li.segment with
        | none => li.head
        | some s => s.Next) = .ok none := by
    rw [hs]
    simp only [hz, loadSegment, hkey, habs]
  exact ⟨_, logIter_Next_chain_end e c li hd hx (by rw [hs]; simpa using hi) hl, rfl⟩

/-- Witness of the amended C23: the spec's scenario after its four facts have
been emitted; segment 3 has `next = 0` and the store holds no `segment.0`. -/
theorem logIter_end_at_next_zero_witness :
    ∃ li', logIter.Next exampleEngine exampleCodec
        ⟨"", "people", 3, some exampleSegment, some [sueName, sueColor], 2, 2, false⟩ =
        .returns ((none, none), li') ∧ li'.done = true :=
  logIter_end_at_next_zero exampleEngine exampleCodec
    ⟨"", "people", 3, some exampleSegment, some [sueName, sueColor], 2, 2, false⟩
    exampleSegment rfl rfl (by decide) (by decide) rfl rfl

/-- C24 (evaluation at the failing inputs). On `emptySegmentEngine`, whose head
segment has `blocks = 0`, the iterator looks up block 0 of that segment, finds
it absent and ends the stream: draining yields no fact, and `bobName`, stored
in the next segment, is never emitted. On `strayBlockEngine`, whose segment has
`blocks = 0` and a record under `segment.3.0`, the iterator emits `sueName`
from block index 0. -/
theorem logIter_ignores_zero_blocks :
    logIter.drain emptySegmentEngine exampleCodec 5 (Log.Iter ⟨"commits", "people", 3⟩) =
      some ([], .returns (none,
        ⟨"", "people", 3, some ⟨3, "people", 0, 0, 0, 0, 0, 2⟩, none, 0, 0, true⟩)) ∧
    logIter.drain strayBlockEngine exampleCodec 5 (Log.Iter ⟨"commits", "people", 3⟩) =
      some ([sueName], .returns (none,
        ⟨"", "people", 3, some ⟨3, "people", 0, 0, 0, 0, 0, 0⟩, some [sueName], 1, 1, true⟩)) := by
  decide

/-- C25 (evaluation at the failing input). On `emptyBlockEngine`, whose block
`segment.3.0` is present and decodes to the empty, non-nil fact sequence, the
first `Next` call of a fresh iterator reads `li.block[0]` of an empty block
and panics with an index out of range. -/
theorem logIter_panics_on_empty_block :
    loadBlock emptyBlockEngine exampleCodec "people" 3 0 = .ok (some []) ∧
    logIter.Next emptyBlockEngine exampleCodec (Log.Iter ⟨"commits", "people", 3⟩) =
      .panics "index out of range" :=
  ⟨rfl, by decide⟩

theorem loadBlock_ne_nil (e : Engine) (c : Codec)
    (hdec : ∀ b d s, c.unmarshalFacts b d s ≠ .ok (some [])) (d : String) (s : Nat) (i : Int) :
    loadBlock e c d s i ≠ .ok (some []) := by
  cases hg : e.Get d ("segment." ++ toString s ++ "." ++ toString i) with
  | error err => simp [loadBlock, hg]
  | ok v =>
    cases v with
    | none => simp [loadBlock, hg]
    | some b => simpa [loadBlock, hg] using hdec b d s

theorem logIter_Next_no_panic (e : Engine) (c : Codec)
    (hdec : ∀ b d s, c.unmarshalFacts b d s ≠ .ok (some [])) (li : logIter) (msg : String) :
    logIter.Next e c li ≠ .panics msg := by
  have hload : ∀ (li' : logIter) (seg : segment), li'.done = false → li'.segment = some seg →
      li'.block.any (fun block => li'.bpos < block.length) = false →
      li'.bindex ≠ seg.Blocks →
      logIter.Next e c li' ≠ .panics msg := by
    intro li' seg hd hs hx hi
    cases hb : loadBlock e c seg.Domain seg.ID li'.bindex with
    | error err => simp [logIter.Next, logIter.nextBlock, hd, hs, hx, hi, hb]
    | ok v =>
      cases v with
      | none => simp [logIter.Next, logIter.nextBlock, hd, hs, hx, hi, hb]
      | some blk =>
        cases blk with
        | nil => exact absurd hb (loadBlock_ne_nil e c hdec _ _ _)
        | cons f fs => simp [logIter.Next, logIter.nextBlock, hd, hs, hx, hi, hb]
  by_cases hd : li.done = true
  · simp [logIter.Next, logIter.nextBlock, hd]
  · have hd' : li.done = false := by simpa using hd
    by_cases hx : li.block.any (fun block => li.bpos < block.length) = true
    · cases hblk : li.block with
      | none => rw [hblk] at hx; simp at hx
      | some blk =>
        rw [hblk] at hx
        have hlt : li.bpos < blk.length := by simpa using hx
        have hf : blk[li.bpos]? = some (blk.get ⟨li.bpos, hlt⟩) := List.getElem?_eq_getElem hlt
        rw [logIter_Next_in_block e c li blk _ hd' hblk hf]
        simp
    · have hx' : li.block.any (fun block => li.bpos < block.length) = false := by simpa using hx
      by_cases hi : li.segment.all (fun s => li.bindex = s.Blocks) = true
      · cases hl : loadSegment e c li.domain
            (match li.segment with
              | none => li.head
              | some s => s.Next) with
        | error err =>
          simp [logIter.Next, logIter.nextBlock, logIter.nextSegment, hd', hx', hi, hl]
        | ok v =>
          cases v with
          | none => rw [logIter_Next_chain_end e c li hd' hx' hi hl]; simp
          | some seg =>
            cases hb : loadBlock e c seg.Domain seg.ID 0 with
            | error err =>
              simp [logIter.Next, logIter.nextBlock, logIter.nextSegment, hd', hx', hi, hl, hb]
            | ok w =>
              cases w with
              | none =>
                simp [logIter.Next, logIter.nextBlock, logIter.nextSegment, hd', hx', hi, hl, hb]
              | some blk =>
                cases blk with
                | nil => exact absurd hb (loadBlock_ne_nil e c hdec _ _ _)
                | cons f fs =>
                  rw [logIter_Next_first_block e c li seg f fs hd' hx' hi hl hb]
                  simp
      · have hi' : li.segment.all (fun s => li.bindex = s.Blocks) = false := by simpa using hi
        cases hs : li.segment with
        | none => rw [hs] at hi'; simp at hi'
        | some seg => exact hload li seg hd' hs hx' (by rw [hs] at hi'; simpa using hi')

end View

/-! ## The in-memory engine -/

namespace Memory

theorem Incr_result (enc : Nat → View.Bytes) (dec : Option View.Bytes → Nat) (e : Engine)
    (p k : String) :
    (Tx.Incr enc dec e p k).1 = ((Engine.counter dec e p k + 1) % 2 ^ 64, none) := by
  cases hp : e.parts p with
  | none => simp only [Tx.Incr, Engine.counter, hp]
  | some b => cases hb : b k <;> simp only [Tx.Incr, Engine.counter, hp, hb]

theorem counter_step_incr (enc : Nat → View.Bytes) (dec : Option View.Bytes → Nat)
    (hcodec : ∀ x, x < 2 ^ 64 → dec (some (enc x)) = x) (e : Engine) (p k : String) :
    Engine.counter dec (Engine.step enc dec e (.incr p k)) p k =
      (Engine.counter dec e p k + 1) % 2 ^ 64 := by
  have hlt : ∀ n : Nat, (n + 1) % 2 ^ 64 < 2 ^ 64 := fun n => Nat.mod_lt _ (by decide)
  cases hp : e.parts p with
  | none =>
    simp only [Engine.step, Engine.Incr, Tx.Incr, Engine.counter, hp, if_true]
    exact hcodec _ (hlt 0)
  | some b =>
    cases hb : b k with
    | none =>
      simp only [Engine.step, Engine.Incr, Tx.Incr, Engine.counter, hp, hb, if_true]
      exact hcodec _ (hlt 0)
    | some v =>
      simp only [Engine.step, Engine.Incr, Tx.Incr, Engine.counter, hp, hb, if_true]
      exact hcodec _ (hlt (dec v))

theorem counter_step_other (enc : Nat → View.Bytes) (dec : Option View.Bytes → Nat) (e : Engine)
    (p k : String) (op : Op) (h1 : op ≠ .incr p k) (h2 : ∀ v, op ≠ .set p k v) :
    Engine.counter dec (Engine.step enc dec e op) p k = Engine.counter dec e p k := by
  cases op with
  | get p' k' => rfl
  | set p' k' v =>
    have hne : ¬ (p' = p ∧ k' = k) := fun h => h2 v (by rw [h.1, h.2])
    unfold Engine.step Engine.Set Tx.Set Engine.counter
    by_cases hp : p = p'
    · subst hp
      have hk : ¬ k = k' := fun h => hne ⟨rfl, h.symm⟩
      cases hq : e.parts p <;> simp [hk, hq]
    · simp [hp]
  | incr p' k' =>
    have hne : ¬ (p' = p ∧ k' = k) := fun h => h1 (by rw [h.1, h.2])
    unfold Engine.step Engine.Incr Tx.Incr Engine.counter
    by_cases hp : p = p'
    · subst hp
      have hk : ¬ k = k' := fun h => hne ⟨rfl, h.symm⟩
      cases hq : e.parts p <;> simp [hk, hq]
    · simp [hp]

theorem counter_run (enc : Nat → View.Bytes) (dec : Option View.Bytes → Nat)
    (hcodec : ∀ x, x < 2 ^ 64 → dec (some (enc x)) = x) (p k : String) (ops : List Op) :
    ∀ (e : Engine), (∀ v, Op.set p k v ∉ ops) →
    Engine.counter dec e p k + ops.count (.incr p k) < 2 ^ 64 →
    Engine.counter dec (Engine.run enc dec e ops) p k =
      Engine.counter dec e p k + ops.count (.incr p k) := by
  induction ops with
  | nil => intro e _ _; rfl
  | cons op ops ih =>
    intro e hset hn
    have hset' : ∀ v, Op.set p k v ∉ ops := fun v hv => hset v (List.mem_cons_of_mem _ hv)
    show Engine.counter dec (Engine.run enc dec (Engine.step enc dec e op) ops) p k = _
    by_cases hop : op = .incr p k
    · subst hop
      rw [List.count_cons_self] at hn ⊢
      have hstep := counter_step_incr enc dec hcodec e p k
      rw [Nat.mod_eq_of_lt (by omega)] at hstep
      rw [ih _ hset' (by rw [hstep]; omega), hstep]
      omega
    · have hcount : (op :: ops).count (.incr p k) = ops.count (.incr p k) :=
        List.count_cons_of_ne (fun h => hop h.symm) _
      rw [hcount] at hn ⊢
      have hstep := counter_step_other enc dec e p k op hop
        (fun v h => hset v (by rw [h]; exact List.mem_cons_self _ _))
      rw [ih _ hset' (by rw [hstep]; exact hn), hstep]

/-- C19. For the in-memory engine, with a counter codec such that
`DecodeCounter(EncodeCounter(x)) = x` for every `uint64` `x`: starting from an
engine that holds no value under `(p, k)`, after any operations `ops` none of
which is a `Set` to `(p, k)`, and `n - 1` of which are `Incr` calls on
`(p, k)` with `n < 2^64`, the next `Incr` on `(p, k)`, the `n`-th, returns `n`
and no error. So the first `Incr` returns 1, the returned values increase by
one at each call, and `Incr` calls (or `Set` and `Get` calls) on other keys do
not change the result. -/
theorem Incr_counter (enc : Nat → View.Bytes) (dec : Option View.Bytes → Nat)
    (hcodec : ∀ x, x < 2 ^ 64 → dec (some (enc x)) = x) (e : Engine) (p k : String)
    (habsent : e.Absent p k) (ops : List Op) (hset : ∀ v, Op.set p k v ∉ ops)
    (hn : ops.count (.incr p k) + 1 < 2 ^ 64) :
    (Engine.Incr enc dec (Engine.run enc dec e ops) p k).1 =
      (ops.count (.incr p k) + 1, none) := by
  have h0 : Engine.counter dec e p k = 0 := by
    unfold Engine.counter
    cases hp : e.parts p with
    | none => rfl
    | some b => simp [habsent b hp]
  have hrun := counter_run enc dec hcodec p k ops e hset (by rw [h0]; omega)
  rw [h0, Nat.zero_add] at hrun
  show (Tx.Incr enc dec (Engine.run enc dec e ops) p k).1 = _
  rw [Incr_result, hrun, Nat.mod_eq_of_lt hn]

/-- Witness of C19: on a fresh engine, after two `Incr` calls on
`(ids, tx)`, one on another key and a `Set` to another key, the third `Incr`
on `(ids, tx)` returns 3. -/
theorem Incr_counter_witness :
    (Engine.Incr exampleEnc exampleDec
        (Engine.run exampleEnc exampleDec Init
          [.incr "ids" "tx", .incr "ids" "other", .set "log" "tx" (some [9]),
            .incr "ids" "tx"]) "ids" "tx").1 =
      ([Op.incr "ids" "tx", .incr "ids" "other", .set "log" "tx" (some [9]),
          .incr "ids" "tx"].count (.incr "ids" "tx") + 1, none) :=
  Incr_counter exampleEnc exampleDec (fun _ _ => rfl) Init "ids" "tx"
    (fun b hb => by cases hb)
    [.incr "ids" "tx", .incr "ids" "other", .set "log" "tx" (some [9]), .incr "ids" "tx"]
    (fun v hv => by simp at hv) (by decide)

theorem Get_Set (e : Engine) (p k : String) (v : Option View.Bytes) (p' k' : String) :
    Engine.Get (Engine.Set e p k v).2 p' k' =
      if p = p' ∧ k = k' then (v, none) else Engine.Get e p' k' := by
  by_cases hp : p' = p
  · subst hp
    by_cases hk : k' = k
    · subst hk
      simp [Engine.Get, Engine.Set, Tx.Get, Tx.Set]
    · have hk' : ¬ k = k' := fun h => hk h.symm
      cases hb : e.parts p' <;> simp [Engine.Get, Engine.Set, Tx.Get, Tx.Set, hk, hk', hb]
  · have hp' : ¬ p = p' := fun h => hp h.symm
    simp [Engine.Get, Engine.Set, Tx.Get, Tx.Set, hp, hp']

theorem setAll_error (e : Engine) (sets : List (String × String × Option View.Bytes)) :
    (Tx.setAll e sets).1 = none := by
  induction sets generalizing e with
  | nil => rfl
  | cons s rest ih =>
    obtain ⟨p, k, v⟩ := s
    simp only [Tx.setAll, Tx.Set]
    exact ih _

theorem setAll_append (e : Engine) (xs ys : List (String × String × Option View.Bytes)) :
    (Tx.setAll e (xs ++ ys)).2 = (Tx.setAll (Tx.setAll e xs).2 ys).2 := by
  induction xs generalizing e with
  | nil => rfl
  | cons s rest ih =>
    obtain ⟨p, k, v⟩ := s
    simp only [List.cons_append, Tx.setAll, Tx.Set]
    exact ih _

theorem Get_setAll (e : Engine) (sets : List (String × String × Option View.Bytes))
    (p k : String) :
    Engine.Get (Tx.setAll e sets).2 p k =
      match lastSet p k sets with
      | some v => (v, none)
      | none => Engine.Get e p k := by
  induction sets generalizing e with
  | nil => rfl
  | cons s rest ih =>
    obtain ⟨p', k', v⟩ := s
    have hstep : Tx.setAll e ((p', k', v) :: rest) = Tx.setAll (Engine.Set e p' k' v).2 rest := by
      simp only [Tx.setAll, Tx.Set, Engine.Set]
    rw [hstep, ih, Get_Set]
    simp only [lastSet]
    cases lastSet p k rest with
    | some w => rfl
    | none => by_cases h : p' = p ∧ k' = k <;> simp [h]

theorem applyAll_eq_setAll (e : Engine) (calls : List Call) :
    Engine.applyAll e calls = (Tx.setAll e (calls.flatMap Call.sets)).2 := by
  induction calls generalizing e with
  | nil => rfl
  | cons c cs ih =>
    have hc : (c.apply e).2 = (Tx.setAll e c.sets).2 := by
      cases c with
      | get p k => rfl
      | set p k v => rfl
      | multi sets => rfl
    have hstep : Engine.applyAll e (c :: cs) = Engine.applyAll (c.apply e).2 cs := rfl
    rw [hstep, ih, List.flatMap_cons, setAll_append, hc]

/-- C26. The in-memory engine is a finite map. After any sequence of calls
(`Set` directly or through the handle passed to `Multi`, with `Get` calls in
between) applied to an engine, `Get(p, k)` returns the value of the last `Set`
to exactly `(p, k)` with no error, and what the engine returned before the
calls when there was none; on a fresh engine that is absent with no error. A
`Set` to one `(partition, key)` leaves the result of `Get` for every other
unchanged, a `Get` call leaves the engine as it is, and no call returns an
error. -/
theorem Engine_is_finite_map (e : Engine) (calls : List Call) (p k : String) :
    (Engine.Get (Engine.applyAll e calls) p k =
      match lastSet p k (calls.flatMap Call.sets) with
      | some v => (v, none)
      | none => Engine.Get e p k) ∧
    (Engine.Get (Engine.applyAll Init calls) p k =
      match lastSet p k (calls.flatMap Call.sets) with
      | some v => (v, none)
      | none => (none, none)) ∧
    (∀ (p' k' : String) (v : Option View.Bytes), (p', k') ≠ (p, k) →
      Engine.Get (Engine.Set e p' k' v).2 p k = Engine.Get e p k) ∧
    (∀ p' k', (Call.apply e (.get p' k')).2 = e) ∧
    ∀ c : Call, (c.apply e).1 = none := by
  refine ⟨?_, ?_, ?_, fun _ _ => rfl, ?_⟩
  · rw [applyAll_eq_setAll, Get_setAll]
  · rw [applyAll_eq_setAll, Get_setAll]
    rfl
  · intro p' k' v hne
    rw [Get_Set]
    have h : ¬ (p' = p ∧ k' = k) := fun h => hne (by rw [h.1, h.2])
    simp [h]
  · intro c
    cases c with
    | get p' k' =>
      show (Tx.Get e p' k').2 = none
      unfold Tx.Get
      cases e.parts p' with
      | none => rfl
      | some b =>
        cases hk : b k' with
        | none => simp only [hk]
        | some w => simp only [hk]
    | set p' k' v => rfl
    | multi sets => exact setAll_error e sets

/-- Witness of C26: after `Set(a, x, [1])`, a `Multi` that sets `(a, x)` to
`[2]` and `(b, x)` to `[3]`, and a `Get`, on a fresh engine, `Get(a, x)` returns
`[2]`; a further `Set(a, y, [4])` does not change it. -/
theorem Engine_is_finite_map_witness :
    Engine.Get (Engine.applyAll Init
      [.set "a" "x" (some [1]), .multi [("a", "x", some [2]), ("b", "x", some [3])],
        .get "a" "x"]) "a" "x" = (some [2], none) ∧
    Engine.Get (Engine.Set Init "a" "y" (some [4])).2 "a" "x" = Engine.Get Init "a" "x" :=
  ⟨(Engine_is_finite_map Init
      [.set "a" "x" (some [1]), .multi [("a", "x", some [2]), ("b", "x", some [3])],
        .get "a" "x"] "a" "x").2.1.trans (by decide),
    (Engine_is_finite_map Init [] "a" "x").2.2.1 "a" "y" (some [4]) (by decide)⟩

end Memory

end Origins
